import Mathlib

/-!
# Regular numbers (RegularNumGen)

A verification development for `regular_numbers.cc`: six functions that compute
the n-th regular number (a number `2^i * 3^j * 5^k`).

Conventions of the embedding.

* `size_t` and `unsigned long long` values are natural numbers; products of
  `unsigned long long` wrap modulo `2^64`. The `int` values of `factor` and
  `get_regular_factor` are natural numbers, held exactly.
* A `double` is an exact real number: a `LogVal` where the function stays among
  the numbers `(a + b * log2 3 + c * log2 5) / 10^s`, an element of an ordered
  field with a floor in `get_regular_fast_geometric`.
* A loop `while (n != 1) { body; --n; }` on a `size_t n` runs its body
  `whileNeOneIters n` times.
* A C++ operation with undefined behaviour (reading `*begin()` of an empty set,
  `back()` of an empty vector, an index past the end) yields `none`.
* Loops whose termination is not structural take a `fuel` argument, the number
  of iterations they may run; running out of fuel yields `none`.
-/

namespace RegularNumGen

/-! ## Regular numbers -/

/-- A regular number is a number of the form `2^i * 3^j * 5^k`. -/
def IsRegular (m : ℕ) : Prop := ∃ i j k : ℕ, m = 2 ^ i * 3 ^ j * 5 ^ k

/-- A positive integer whose only prime factors are 2, 3 and 5. -/
def FiveSmooth (m : ℕ) : Prop :=
  0 < m ∧ ∀ p : ℕ, p.Prime → p ∣ m → p = 2 ∨ p = 3 ∨ p = 5

/-- The first fifteen regular numbers, as listed in the header comment of
`regular_numbers.cc`. -/
def canonical15 : List ℕ := [1, 2, 3, 4, 5, 6, 8, 9, 10, 12, 15, 16, 18, 20, 24]

/-! ## Machine integers and loops -/

/-- The number of values of a 64-bit `size_t` or `unsigned long long`. -/
def WORD : ℕ := 2 ^ 64

/-- The number of times the body of `while (n != 1) { ...; --n; }` runs for a
`size_t n`: `n - 1` times for `n >= 1`, and `2^64 - 1` times from `n = 0`, where
`--n` wraps around. -/
def whileNeOneIters (n : ℕ) : ℕ := if n = 0 then WORD - 1 else n - 1

/-! ## `factor` and `get_regular_factor` -/

/-- The loop `while (val % d == 0) { val /= d; }`. It never exits from
`val = 0` (nor for `d = 1`), which is `none`. -/
def divideOut (d : ℕ) (val : ℕ) : Option ℕ :=
  if val % d = 0 then
    if _h : 0 < val ∧ 1 < d then divideOut d (val / d) else none
  else some val
termination_by val
decreasing_by exact Nat.div_lt_self (by omega) (by omega)

/-- The function `factor`: divide out the factors 2, then 3, then 5. -/
def factor (val : ℕ) : Option ℕ :=
  (divideOut 2 val).bind fun v2 => (divideOut 3 v2).bind fun v3 => divideOut 5 v3

/-- The scan loop of `get_regular_factor`, on the state `(series, num)`:
`while (series.size() < n_series) { if (factor(num) == 1) series.push_back(num); ++num; }`.
-/
def get_regular_factor_loop (n_series : ℕ) : ℕ → List ℕ → ℕ → Option (List ℕ × ℕ)
  | 0, series, num => if series.length < n_series then none else some (series, num)
  | fuel + 1, series, num =>
    if series.length < n_series then
      match factor num with
      | none => none
      | some remainder =>
        get_regular_factor_loop n_series fuel
          (if remainder = 1 then series ++ [num] else series) (num + 1)
    else some (series, num)

/-- The function `get_regular_factor`: the sentinel `0` above 1500, otherwise the
last value placed into `series`. -/
def get_regular_factor (fuel : ℕ) (n_series : ℕ) : Option ℕ :=
  if n_series > 1500 then some 0
  else (get_regular_factor_loop n_series fuel [1] 2).bind fun st => st.1.getLast?

/-! ## `std::set` and `get_regular_set` -/

/-- The function `std::set::insert` on a set held as its ascending list of
elements, for the ordering `lt`: `x` goes before the first element that is not
below it, unless that element is equivalent to `x`. -/
def setInsert {α : Type} (lt : α → α → Bool) (x : α) : List α → List α
  | [] => [x]
  | y :: ys =>
    if lt y x then y :: setInsert lt x ys
    else if lt x y then x :: y :: ys
    else y :: ys

/-- The loop of `get_regular_set`, run `iters` times on the set `series`. -/
def get_regular_set_loop : ℕ → List ℕ → Option (List ℕ)
  | 0, series => some series
  | iters + 1, series =>
    match series with
    | [] => none
    | smallest :: rest =>
      get_regular_set_loop iters
        (setInsert (fun a b => decide (a < b)) (smallest * 5 % WORD)
          (setInsert (fun a b => decide (a < b)) (smallest * 3 % WORD)
            (setInsert (fun a b => decide (a < b)) (smallest * 2 % WORD) rest)))

/-- The function `get_regular_set`. -/
def get_regular_set (n : ℕ) : Option ℕ :=
  (get_regular_set_loop (whileNeOneIters n) [1]).bind List.head?


/-! ## Exact real arithmetic on `double` values

Every `double` that `get_regular_log_set`, `get_regular_compact` and
`get_regular_divide_conquer` compute is, in exact real arithmetic, a number
`(a + b * log2 3 + c * log2 5) / 10^s` with integers `a`, `b`, `c`. `LogVal`
holds such a number by its coefficients, its order is the order of the real
numbers denoted, and that order is decided by integer arithmetic. -/

/-- The real number `(a + b * log2 3 + c * log2 5) / 10^s`. -/
structure LogVal where
  a : ℤ
  b : ℤ
  c : ℤ
  s : ℕ
  deriving DecidableEq, Repr

namespace LogVal

/-- The real number that a `LogVal` denotes. -/
noncomputable def toReal (x : LogVal) : ℝ :=
  ((x.a : ℝ) + x.b * Real.logb 2 3 + x.c * Real.logb 2 5) / 10 ^ x.s

/-- The decimal `m * 10^(-e)` without the trailing zeros of `m`. -/
def ofDecimal : ℕ → ℕ → LogVal
  | m, 0 => ⟨m, 0, 0, 0⟩
  | m, e + 1 => if m % 10 = 0 then ofDecimal (m / 10) e else ⟨m, 0, 0, e + 1⟩

/-- A decimal literal `m * 10^(-e)` or `m * 10^e`, such as `1.0` and `1.0e-15`. -/
instance : OfScientific LogVal :=
  ⟨fun m sign e => if sign then ofDecimal m e else ⟨m * 10 ^ e, 0, 0, 0⟩⟩

instance : Add LogVal :=
  ⟨fun x y => ⟨x.a * 10 ^ y.s + y.a * 10 ^ x.s, x.b * 10 ^ y.s + y.b * 10 ^ x.s,
    x.c * 10 ^ y.s + y.c * 10 ^ x.s, x.s + y.s⟩⟩

instance : Sub LogVal :=
  ⟨fun x y => ⟨x.a * 10 ^ y.s - y.a * 10 ^ x.s, x.b * 10 ^ y.s - y.b * 10 ^ x.s,
    x.c * 10 ^ y.s - y.c * 10 ^ x.s, x.s + y.s⟩⟩

instance : Neg LogVal := ⟨fun x => ⟨-x.a, -x.b, -x.c, x.s⟩⟩

/-- The product, exact when one of the factors is a decimal constant (has
`b = c = 0`), which is the only kind of product the three functions form. -/
instance : Mul LogVal :=
  ⟨fun x y =>
    if y.b = 0 ∧ y.c = 0 then ⟨x.a * y.a, x.b * y.a, x.c * y.a, x.s + y.s⟩
    else ⟨y.a * x.a, y.b * x.a, y.c * x.a, x.s + y.s⟩⟩

/-- Whether `0 < A + B * log2 3 + C * log2 5`, by integer arithmetic: first from
`1.5849 < log2 3 < 1.5850` and `2.3219 < log2 5 < 2.3220`, and where these
bounds do not settle it, from the comparison of `2^A * 3^B * 5^C` with 1. -/
def signPos (A B C : ℤ) : Bool :=
  if 0 < 10000 * A + B * (if 0 ≤ B then 15849 else 15850)
      + C * (if 0 ≤ C then 23219 else 23220) then true
  else if 10000 * A + B * (if 0 ≤ B then 15850 else 15849)
      + C * (if 0 ≤ C then 23220 else 23219) ≤ 0 then false
  else decide (2 ^ (-A).toNat * 3 ^ (-B).toNat * 5 ^ (-C).toNat
      < 2 ^ A.toNat * 3 ^ B.toNat * 5 ^ C.toNat)

/-- The decision of `x < y`. -/
def ltb (x y : LogVal) : Bool :=
  signPos (y.a * 10 ^ x.s - x.a * 10 ^ y.s) (y.b * 10 ^ x.s - x.b * 10 ^ y.s)
    (y.c * 10 ^ x.s - x.c * 10 ^ y.s)

/-- The order of the real numbers denoted (`LogVal.lt_iff_toReal`). -/
instance : LT LogVal := ⟨fun x y => ltb x y = true⟩

instance (x y : LogVal) : Decidable (x < y) := inferInstanceAs (Decidable (ltb x y = true))

/-- The conversion of a `size_t` to `double`. -/
instance : NatCast LogVal := ⟨fun n => ⟨n, 0, 0, 0⟩⟩

/-- The function `std::abs`. -/
def abs (x : LogVal) : LogVal := if x < 0.0 then -x else x

end LogVal

/-- The global `lb3`, `std::log2(3.0)`. -/
def lb3 : LogVal := ⟨0, 1, 0, 0⟩

/-- The global `lb5`, `std::log2(5.0)`. -/
def lb5 : LogVal := ⟨0, 0, 1, 0⟩

/-! ## Arrays of three and vectors -/

/-- A `std::array<T, 3>`. -/
structure Arr3 (α : Type) where
  x0 : α
  x1 : α
  x2 : α
  deriving DecidableEq, Repr

namespace Arr3

/-- The element `arr[i]`, for `i < 3`. -/
def get {α : Type} (arr : Arr3 α) (i : ℕ) : α :=
  match i with
  | 0 => arr.x0
  | 1 => arr.x1
  | _ => arr.x2

/-- The array after `arr[i] = v`, for `i < 3`. -/
def set {α : Type} (arr : Arr3 α) (i : ℕ) (v : α) : Arr3 α :=
  match i with
  | 0 => { arr with x0 := v }
  | 1 => { arr with x1 := v }
  | _ => { arr with x2 := v }

/-- The value `*std::min_element(arr.begin(), arr.end())`: the first element
that no other element is below. -/
def min_element {α : Type} [LT α] [DecidableRel (fun a b : α => a < b)] (arr : Arr3 α) : α :=
  let smallest := arr.x0
  let smallest := if arr.x1 < smallest then arr.x1 else smallest
  if arr.x2 < smallest then arr.x2 else smallest

end Arr3

/-- A `std::vector<T>`: its elements and its capacity. -/
structure Vec (α : Type) where
  data : List α
  cap : ℕ
  deriving DecidableEq, Repr

namespace Vec

/-- An empty vector after `reserve(cap)`. -/
def reserved {α : Type} (cap : ℕ) : Vec α := ⟨[], cap⟩

/-- The function `push_back`. A vector that is full reallocates, to the
capacity `grow cap` that the library chooses. -/
def push_back {α : Type} (grow : ℕ → ℕ) (v : Vec α) (x : α) : Vec α :=
  ⟨v.data ++ [x], if v.data.length < v.cap then v.cap else grow v.cap⟩

/-- The call `v.erase(v.begin(), v.begin() + k)`; the capacity stays. -/
def erase_front {α : Type} (v : Vec α) (k : ℕ) : Option (Vec α) :=
  if k ≤ v.data.length then some ⟨v.data.drop k, v.cap⟩ else none

/-- The element `v[i]`. -/
def elem {α : Type} (v : Vec α) (i : ℕ) : Option α := v.data[i]?

/-- The element `v.back()`. -/
def back {α : Type} (v : Vec α) : Option α := v.data.getLast?

end Vec

/-! ## `coef2log2` -/

/-- The function `coef2log2`. -/
def coef2log2 (arr : Arr3 ℕ) : LogVal :=
  (arr.get 0 : LogVal) + (arr.get 1 : LogVal) * lb3 + (arr.get 2 : LogVal) * lb5

/-- The number `2^i * 3^j * 5^k` of an exponent triple `[i, j, k]`. -/
def tripleValue (arr : Arr3 ℕ) : ℕ := 2 ^ arr.x0 * 3 ^ arr.x1 * 5 ^ arr.x2

/-! ## `get_regular_log_set` -/

/-- The comparison `cmp` of `get_regular_log_set`. -/
def cmp (n1 n2 : LogVal) : Bool := decide ((n2 - n1) > (1.0e-15 * n1))

/-- The loop of `get_regular_log_set`, run `iters` times on the set `log_series`. -/
def get_regular_log_set_loop : ℕ → List LogVal → Option (List LogVal)
  | 0, log_series => some log_series
  | iters + 1, log_series =>
    match log_series with
    | [] => none
    | smallest :: rest =>
      get_regular_log_set_loop iters
        (setInsert cmp (smallest + lb5)
          (setInsert cmp (smallest + lb3)
            (setInsert cmp (smallest + 1.0) rest)))

/-- The function `get_regular_log_set`. -/
def get_regular_log_set (n : ℕ) : Option LogVal :=
  (get_regular_log_set_loop (whileNeOneIters n) [0.0]).bind List.head?

/-! ## `get_regular_compact` -/

/-- The local variables of `get_regular_compact`. -/
structure CompactState where
  candidates : Arr3 LogVal
  series_idx : Arr3 ℕ
  series : Vec LogVal
  vec_cnt : ℕ
  deriving DecidableEq, Repr

/-- The array `lg2` of `get_regular_compact`. -/
def lg2 : Arr3 LogVal := ⟨1.0, lb3, lb5⟩

/-- The `manage memory` block of `get_regular_compact`. -/
def compact_manage (st : CompactState) : Option CompactState :=
  if st.series.cap / 2 < st.vec_cnt then
    let min_i := st.series_idx.min_element
    let idx : Arr3 ℕ := ⟨st.series_idx.x0 - min_i, st.series_idx.x1 - min_i,
      st.series_idx.x2 - min_i⟩
    (st.series.erase_front min_i).map fun series =>
      { st with series_idx := idx, series := series, vec_cnt := 0 }
  else some st

/-- One turn of the inner `for` loop of `get_regular_compact`, for the index `i`. -/
def compact_replace (current : LogVal) (st : CompactState) (i : ℕ) : Option CompactState :=
  if LogVal.abs (st.candidates.get i - current) < current * 1.0e-15 then
    (st.series.elem (st.series_idx.get i)).map fun v =>
      { st with candidates := st.candidates.set i (v + lg2.get i),
                series_idx := st.series_idx.set i (st.series_idx.get i + 1) }
  else some st

/-- The statement `series.push_back(*std::min_element(candidates.begin(),
candidates.end()))`. -/
def compact_push (grow : ℕ → ℕ) (st : CompactState) : CompactState :=
  { st with series := st.series.push_back grow st.candidates.min_element }

/-- The body of the `while` loop of `get_regular_compact`. -/
def compact_step (grow : ℕ → ℕ) (st : CompactState) : Option CompactState :=
  (compact_manage st).bind fun st =>
    let st := compact_push grow st
    st.series.back.bind fun current =>
      (compact_replace current st 0).bind fun st =>
        (compact_replace current st 1).bind fun st =>
          (compact_replace current st 2).map fun st =>
            { st with vec_cnt := st.vec_cnt + 1 }

/-- The `while` loop of `get_regular_compact`, run `iters` times. -/
def compact_loop (grow : ℕ → ℕ) : ℕ → CompactState → Option CompactState
  | 0, st => some st
  | iters + 1, st => (compact_step grow st).bind (compact_loop grow iters)

/-- The function `get_regular_compact`, for a vector that has the capacity
`cap` after `reserve(65536)` and grows by `grow`. -/
def get_regular_compact_with (cap : ℕ) (grow : ℕ → ℕ) (n : ℕ) : Option LogVal :=
  (compact_loop grow (whileNeOneIters n)
    ⟨⟨1.0, lb3, lb5⟩, ⟨0, 0, 0⟩, Vec.reserved cap, 0⟩).bind fun st => st.series.back

/-- The function `get_regular_compact`, where `reserve(65536)` gives the
capacity 65536. -/
def get_regular_compact (grow : ℕ → ℕ) (n : ℕ) : Option LogVal :=
  get_regular_compact_with 65536 grow n

/-! ## `get_regular_divide_conquer` -/

/-- The local variables of `get_regular_divide_conquer`. -/
structure DCState where
  coef_ijk : Arr3 ℕ
  coef_jk : Arr3 ℕ
  coef_k : Arr3 ℕ
  coef_minjk : Arr3 ℕ
  series : Vec (Arr3 ℕ)
  jk_series : Vec (Arr3 ℕ)
  log_ijk : LogVal
  log_jk : LogVal
  log_k : LogVal
  min_jk : LogVal
  ii : ℕ
  jj : ℕ
  deriving DecidableEq, Repr

/-- The first block of the loop body: erase the consumed prefix of `series`. -/
def dc_manage_series (st : DCState) : Option DCState :=
  if st.series.cap / 2 < st.ii then
    (st.series.erase_front st.ii).map fun series => { st with series := series, ii := 0 }
  else some st

/-- The erase block of the else branch, on `jk_series`. -/
def dc_manage_jk (st : DCState) : Option DCState :=
  if st.jk_series.cap / 2 < st.jj then
    (st.jk_series.erase_front st.jj).map fun jk => { st with jk_series := jk, jj := 0 }
  else some st

/-- The then branch of the loop body: emit the head of the i-chain. -/
def dc_emit_i (grow : ℕ → ℕ) (st : DCState) : Option DCState :=
  let st := { st with series := st.series.push_back grow st.coef_ijk }
  (st.series.elem st.ii).map fun c =>
    let c := c.set 0 (c.get 0 + 1)
    { st with coef_ijk := c, ii := st.ii + 1, log_ijk := coef2log2 c }

/-- The inner `if (log_jk < log_k) ... else ...`: refill the head of the
jk-chain. -/
def dc_advance_jk (st : DCState) : Option DCState :=
  if st.log_jk < st.log_k then
    let st := { st with coef_minjk := st.coef_jk }
    (st.jk_series.elem st.jj).map fun c =>
      let c := c.set 1 (c.get 1 + 1)
      { st with coef_jk := c, jj := st.jj + 1, log_jk := coef2log2 c }
  else
    let c := st.coef_k.set 2 (st.coef_k.get 2 + 1)
    some { st with coef_minjk := st.coef_k, coef_k := c, log_k := coef2log2 c }

/-- The else branch of the loop body: emit the head of the jk-chain. -/
def dc_emit_jk (grow : ℕ → ℕ) (st : DCState) : Option DCState :=
  let st := { st with series := st.series.push_back grow st.coef_minjk }
  (dc_advance_jk st).bind fun st =>
    (dc_manage_jk st).map fun st =>
      let st := { st with jk_series := st.jk_series.push_back grow st.coef_minjk }
      { st with min_jk := coef2log2 st.coef_minjk }

/-- The body of the `while` loop of `get_regular_divide_conquer`. -/
def dc_step (grow : ℕ → ℕ) (st : DCState) : Option DCState :=
  (dc_manage_series st).bind fun st =>
    if st.log_ijk < st.min_jk then dc_emit_i grow st else dc_emit_jk grow st

/-- The `while` loop of `get_regular_divide_conquer`, run `iters` times. -/
def dc_loop (grow : ℕ → ℕ) : ℕ → DCState → Option DCState
  | 0, st => some st
  | iters + 1, st => (dc_step grow st).bind (dc_loop grow iters)

/-- The state of `get_regular_divide_conquer` before its loop, both vectors
with the capacity `cap`. -/
def dc_init (cap : ℕ) : DCState :=
  { coef_ijk := ⟨1, 0, 0⟩, coef_jk := ⟨0, 2, 0⟩, coef_k := ⟨0, 0, 1⟩, coef_minjk := ⟨0, 1, 0⟩,
    series := Vec.reserved cap, jk_series := Vec.reserved cap,
    log_ijk := 1.0, log_jk := 2.0 * lb3, log_k := lb5, min_jk := lb3, ii := 0, jj := 0 }

/-- The function `get_regular_divide_conquer`, for vectors that have the
capacity `cap` after `reserve(65536)` and grow by `grow`. -/
def get_regular_divide_conquer_with (cap : ℕ) (grow : ℕ → ℕ) (n : ℕ) :
    Option (LogVal × Arr3 ℕ) :=
  (dc_loop grow (whileNeOneIters n) (dc_init cap)).bind fun st =>
    st.series.back.map fun last => (coef2log2 last, last)

/-- The function `get_regular_divide_conquer`, where `reserve(65536)` gives the
capacity 65536. -/
def get_regular_divide_conquer (grow : ℕ → ℕ) (n : ℕ) : Option (LogVal × Arr3 ℕ) :=
  get_regular_divide_conquer_with 65536 grow n

/-- A number of the form `3^j * 5^k`. -/
def IsJK (m : ℕ) : Prop := ∃ j k : ℕ, m = 3 ^ j * 5 ^ k

/-- The entries of `series` from the cursor `ii` on, as numbers. -/
def DCState.queue_i (st : DCState) : List ℕ := (st.series.data.drop st.ii).map tripleValue

/-- The entries of `jk_series` from the cursor `jj` on, as numbers. -/
def DCState.queue_jk (st : DCState) : List ℕ :=
  (st.jk_series.data.drop st.jj).map tripleValue

/-- The part of the loop invariant of `get_regular_divide_conquer` that the
erase blocks keep, where `e` is the last number emitted: the log2 values are
those of the triples; `coef_ijk` is twice the regular number `x`, the least
whose double is above `e`, and the queue of `series` lists the regular numbers
in `(x, e]`; `coef_minjk` is the least `3^j * 5^k` above `e`; `coef_jk` is three
times `p`, the least `3^j * 5^k` whose triple is above `coef_minjk`, and the
queue of `jk_series` lists the numbers `3^j * 5^k` in `(p, coef_minjk]`;
`coef_k` is the least power of 5 above `coef_minjk`. -/
structure DCCore (st : DCState) (e : ℕ) : Prop where
  log_ijk : st.log_ijk = coef2log2 st.coef_ijk
  log_jk : st.log_jk = coef2log2 st.coef_jk
  log_k : st.log_k = coef2log2 st.coef_k
  min_jk : st.min_jk = coef2log2 st.coef_minjk
  ii_le : st.ii ≤ st.series.data.length
  jj_le : st.jj ≤ st.jk_series.data.length
  chain_i : ∃ x, IsRegular x ∧ tripleValue st.coef_ijk = 2 * x ∧ e < 2 * x ∧
    (∀ y, IsRegular y → y < x → 2 * y ≤ e) ∧ x ≤ e ∧
    st.queue_i.Sorted (· < ·) ∧ ∀ m, m ∈ st.queue_i ↔ IsRegular m ∧ x < m ∧ m ≤ e
  min_isJK : IsJK (tripleValue st.coef_minjk)
  min_gt : e < tripleValue st.coef_minjk
  min_least : ∀ m, IsJK m → m < tripleValue st.coef_minjk → m ≤ e
  chain_jk : ∃ p, IsJK p ∧ 3 ≤ p ∧ tripleValue st.coef_jk = 3 * p ∧
    tripleValue st.coef_minjk < 3 * p ∧
    (∀ y, IsJK y → y < p → 3 * y ≤ tripleValue st.coef_minjk) ∧
    p ≤ tripleValue st.coef_minjk ∧
    st.queue_jk.Sorted (· < ·) ∧
    ∀ m, m ∈ st.queue_jk ↔ IsJK m ∧ p < m ∧ m ≤ tripleValue st.coef_minjk
  chain_k : st.coef_k.x0 = 0 ∧ st.coef_k.x1 = 0 ∧ 1 ≤ st.coef_k.x2 ∧
    tripleValue st.coef_minjk < 5 ^ st.coef_k.x2 ∧
    5 ^ (st.coef_k.x2 - 1) ≤ tripleValue st.coef_minjk

/-- The loop invariant of `get_regular_divide_conquer` after `t` iterations: the
last number emitted is the regular number of index `t`, which from the first
iteration on is `series.back()`. -/
structure DCInv (st : DCState) (t : ℕ) : Prop where
  core : DCCore st (Nat.nth IsRegular t)
  last : 0 < t → ∃ l, st.series.back = some l ∧ tripleValue l = Nat.nth IsRegular t

/-! ## `get_regular_fast_geometric`

The function leaves the numbers `a + b * log2 3 + c * log2 5` (it takes a cube
root), so it is given over any ordered field `R` with a floor, with the library
functions `std::log2`, `std::pow` and `std::sqrt` as arguments; the theorems
take the real numbers and the real functions. A cast `static_cast<size_t>(x)` is
`⌊x⌋₊`; its argument is never negative for `n >= 3` (`geo_high_pos`,
`geo_twos_nonneg`). -/

section Geometric

variable {R : Type} [LinearOrderedField R] [FloorRing R]

/-- The locals `count`, `series` and `coeffs` of `get_regular_fast_geometric`. -/
structure GeoState (R : Type) where
  count : ℕ
  series : List R
  coeffs : List (Arr3 ℕ)

/-- The body of the loop over `j`. The cast `static_cast<size_t>(twos)` is
`⌊twos⌋₊`: `twos` is never negative here. -/
def geo_inner (lb3 high low fives : R) (k : ℕ) (st : GeoState R) (j : ℕ) : GeoState R :=
  let threes := fives + (j : R) * lb3
  let twos := high - threes
  let candidate := threes + (⌊twos⌋ : R)
  let count := st.count + (⌊twos⌋₊ + 1)
  if candidate ≥ low then
    ⟨count, st.series ++ [candidate], st.coeffs ++ [⟨⌊twos⌋₊, j, k⟩]⟩
  else ⟨count, st.series, st.coeffs⟩

/-- The body of the loop over `k`. -/
def geo_outer (lb3 lb5 high low : R) (st : GeoState R) (k : ℕ) : GeoState R :=
  let fives := lb5 * (k : R)
  let jmax := ⌊(high - fives) / lb3⌋₊ + 1
  (List.range jmax).foldl (geo_inner lb3 high low fives k) st

/-- The two nested loops of `get_regular_fast_geometric`. -/
def geo_scan (lb3 lb5 high low : R) : GeoState R :=
  let kmax := ⌊high / lb5⌋₊ + 1
  (List.range kmax).foldl (geo_outer lb3 lb5 high low) ⟨0, [], []⟩

/-- The vector `sort_idx` after `std::iota` and `std::sort`: the indices of
`series`, ordered by `series[i1] > series[i2]`. -/
def geo_sort_idx (series : List R) : List ℕ :=
  List.insertionSort (fun i1 i2 => series.getD i1 0 > series.getD i2 0)
    (List.range series.length)

/-- The upper end `high` of the band for `n`. -/
def geo_high (log2 : R → R) (pow : R → R → R) (sqrt : R → R) (n : ℕ) : R :=
  let numerator := pow (6 * log2 3 * log2 5 * (n : R)) (1 / 3)
  let denominator := log2 (sqrt 30)
  let estval := numerator - denominator
  estval + 1 / estval

/-- The lower end `low` of the band for `n`. -/
def geo_low (log2 : R → R) (pow : R → R → R) (sqrt : R → R) (n : ℕ) : R :=
  let numerator := pow (6 * log2 3 * log2 5 * (n : R)) (1 / 3)
  let denominator := log2 (sqrt 30)
  let estval := numerator - denominator
  let high := estval + 1 / estval
  2 * estval - high

/-- The function `get_regular_fast_geometric`. The index `target` is
`count - n`, which the cast to `int` leaves as it is below `2^31`. -/
def get_regular_fast_geometric (log2 : R → R) (pow : R → R → R) (sqrt : R → R) (n : ℕ) :
    R × Arr3 ℕ :=
  if n < 1 then (-1, ⟨0, 0, 0⟩)
  else if n < 2 then (0, ⟨0, 0, 0⟩)
  else if n < 3 then (1, ⟨1, 0, 0⟩)
  else
    let high := geo_high log2 pow sqrt n
    let low := geo_low log2 pow sqrt n
    let st := geo_scan (log2 3) (log2 5) high low
    if n > st.count then (0, ⟨0, 0, 0⟩)
    else
      let target := st.count - n
      if target ≥ st.series.length then (0, ⟨0, 0, 0⟩)
      else
        let sort_idx := geo_sort_idx st.series
        (st.series.getD (sort_idx.getD target 0) 0,
          st.coeffs.getD (sort_idx.getD target 0) ⟨0, 0, 0⟩)

end Geometric

/-! ## The band scan of `get_regular_fast_geometric`, in closed form -/

section GeometricSpec

variable {R : Type} [LinearOrderedField R] [FloorRing R]

/-- The log2 value `i + j * lb3 + k * lb5` of an exponent triple. -/
def tripleLog (lb3 lb5 : R) (c : Arr3 ℕ) : R :=
  (c.x0 : R) + (c.x1 : R) * lb3 + (c.x2 : R) * lb5

/-- The pairs `(j, k)` that the two loops of the scan visit, in their order. -/
def geo_pairs (lb3 lb5 high : R) : List (ℕ × ℕ) :=
  (List.range (⌊high / lb5⌋₊ + 1)).flatMap fun k =>
    (List.range (⌊(high - lb5 * (k : R)) / lb3⌋₊ + 1)).map fun j => (j, k)

/-- The value `twos` at the pair `(j, k)`. -/
def geo_twos (lb3 lb5 high : R) (p : ℕ × ℕ) : R :=
  high - (lb5 * (p.2 : R) + (p.1 : R) * lb3)

/-- The value `candidate` at the pair `(j, k)`. -/
def geo_candidate (lb3 lb5 high : R) (p : ℕ × ℕ) : R :=
  lb5 * (p.2 : R) + (p.1 : R) * lb3 + (⌊geo_twos lb3 lb5 high p⌋ : R)

/-- The triple that the scan forms at the pair `(j, k)`. -/
def geo_top (lb3 lb5 high : R) (p : ℕ × ℕ) : Arr3 ℕ :=
  ⟨⌊geo_twos lb3 lb5 high p⌋₊, p.1, p.2⟩

/-- The pairs `(j, k)` whose candidate the scan retains. -/
def geo_kept (lb3 lb5 high low : R) : List (ℕ × ℕ) :=
  (geo_pairs lb3 lb5 high).filter fun p => decide (geo_candidate lb3 lb5 high p ≥ low)

end GeometricSpec

section GeometricAll

variable {R : Type} [LinearOrderedField R] [FloorRing R]

/-- The triples `(i, j, k)` that the scan counts: at each pair `(j, k)` visited,
those with `i` from 0 to `⌊twos⌋`. -/
def geo_all (lb3 lb5 high : R) : List (Arr3 ℕ) :=
  (geo_pairs lb3 lb5 high).flatMap fun p =>
    (List.range (⌊geo_twos lb3 lb5 high p⌋₊ + 1)).map fun i => ⟨i, p.1, p.2⟩

/-- The function `get_regular_fast_geometric` takes one of its two band-error
branches: for `n >= 3`, `n > count` or `target >= series.size()`. -/
def geo_band_error (log2 : R → R) (pow : R → R → R) (sqrt : R → R) (n : ℕ) : Prop :=
  3 ≤ n ∧
    (n > (geo_scan (log2 3) (log2 5) (geo_high log2 pow sqrt n)
        (geo_low log2 pow sqrt n)).count ∨
      (geo_scan (log2 3) (log2 5) (geo_high log2 pow sqrt n) (geo_low log2 pow sqrt n)).count - n
        ≥ (geo_scan (log2 3) (log2 5) (geo_high log2 pow sqrt n)
          (geo_low log2 pow sqrt n)).series.length)

end GeometricAll

/-! ## Loop invariants -/

/-- The loop invariant of `get_regular_set` after `t` iterations: the set is
sorted, holds regular numbers only, its minimum is the regular number of index
`t`, and every regular number from there on is a regular multiple of a member. -/
def SetInv (S : List ℕ) (t : ℕ) : Prop :=
  S.Sorted (· < ·) ∧ (∀ x ∈ S, IsRegular x) ∧ S.head? = some (Nat.nth IsRegular t) ∧
    ∀ m, IsRegular m → Nat.nth IsRegular t ≤ m → ∃ x ∈ S, ∃ r, IsRegular r ∧ m = x * r

/-- The loop invariant of `get_regular_factor`: `series` ends with the regular
number of index `series.size() - 1`, and every regular number below `num` has
been seen. -/
def FactorInv (series : List ℕ) (num : ℕ) : Prop :=
  ∃ t, series.length = t + 1 ∧ series.getLast? = some (Nat.nth IsRegular t) ∧
    Nat.nth IsRegular t < num ∧ ∀ m, IsRegular m → m < num → m ≤ Nat.nth IsRegular t


/-- The exponent triples of the first fifteen regular numbers. -/
def canonicalTriples15 : List (Arr3 ℕ) :=
  [⟨0, 0, 0⟩, ⟨1, 0, 0⟩, ⟨0, 1, 0⟩, ⟨2, 0, 0⟩, ⟨0, 0, 1⟩, ⟨1, 1, 0⟩, ⟨3, 0, 0⟩, ⟨0, 2, 0⟩,
    ⟨1, 0, 1⟩, ⟨2, 1, 0⟩, ⟨0, 1, 1⟩, ⟨4, 0, 0⟩, ⟨1, 2, 0⟩, ⟨2, 0, 1⟩, ⟨3, 1, 0⟩]

/-- The comparison `cmp` of `get_regular_log_set` on exact real numbers. -/
def cmp_real (n1 n2 : ℝ) : Prop := (n2 - n1) > (1.0e-15 * n1)

/-! ## The loops without the erase blocks -/

/-- The body of the `while` loop of `get_regular_compact` with the
`manage memory` block removed. -/
def compact_step_plain (grow : ℕ → ℕ) (st : CompactState) : Option CompactState :=
  let st := compact_push grow st
  st.series.back.bind fun current =>
    (compact_replace current st 0).bind fun st =>
      (compact_replace current st 1).bind fun st =>
        (compact_replace current st 2).map fun st =>
          { st with vec_cnt := st.vec_cnt + 1 }

/-- The `while` loop of `get_regular_compact` with the `manage memory` block
removed, run `iters` times. -/
def compact_loop_plain (grow : ℕ → ℕ) : ℕ → CompactState → Option CompactState
  | 0, st => some st
  | iters + 1, st => (compact_step_plain grow st).bind (compact_loop_plain grow iters)

/-- The function `get_regular_compact` with the `manage memory` block removed. -/
def get_regular_compact_plain (cap : ℕ) (grow : ℕ → ℕ) (n : ℕ) : Option LogVal :=
  (compact_loop_plain grow (whileNeOneIters n)
    ⟨⟨1.0, lb3, lb5⟩, ⟨0, 0, 0⟩, Vec.reserved cap, 0⟩).bind fun st => st.series.back

/-- The else branch of the loop body of `get_regular_divide_conquer` with the
erase block removed. -/
def dc_emit_jk_plain (grow : ℕ → ℕ) (st : DCState) : Option DCState :=
  let st := { st with series := st.series.push_back grow st.coef_minjk }
  (dc_advance_jk st).map fun st =>
    let st := { st with jk_series := st.jk_series.push_back grow st.coef_minjk }
    { st with min_jk := coef2log2 st.coef_minjk }

/-- The body of the `while` loop of `get_regular_divide_conquer` with both
erase blocks removed. -/
def dc_step_plain (grow : ℕ → ℕ) (st : DCState) : Option DCState :=
  if st.log_ijk < st.min_jk then dc_emit_i grow st else dc_emit_jk_plain grow st

/-- The `while` loop of `get_regular_divide_conquer` with both erase blocks
removed, run `iters` times. -/
def dc_loop_plain (grow : ℕ → ℕ) : ℕ → DCState → Option DCState
  | 0, st => some st
  | iters + 1, st => (dc_step_plain grow st).bind (dc_loop_plain grow iters)

/-- The function `get_regular_divide_conquer` with both erase blocks removed. -/
def get_regular_divide_conquer_plain (cap : ℕ) (grow : ℕ → ℕ) (n : ℕ) :
    Option (LogVal × Arr3 ℕ) :=
  (dc_loop_plain grow (whileNeOneIters n) (dc_init cap)).bind fun st =>
    st.series.back.map fun last => (coef2log2 last, last)

/-- The state of `get_regular_divide_conquer` before its loop, where `series`
has the capacity `cap_i` and `jk_series` has the capacity `cap_jk`. -/
def dc_init_caps (cap_i cap_jk : ℕ) : DCState :=
  { dc_init cap_i with jk_series := Vec.reserved cap_jk }

/-- The state `st` of `get_regular_compact` and the state `plain` of the loop
without the `manage memory` block agree: the candidates are the same, the
buffer of `plain` is the buffer of `st` after the erased entries `pre`, and the
cursors of `plain` are those of `st` moved by the number of erased entries. -/
structure CompactSim (pre : List LogVal) (st plain : CompactState) : Prop where
  cand : plain.candidates = st.candidates
  data : plain.series.data = pre ++ st.series.data
  idx : ∀ i, plain.series_idx.get i = st.series_idx.get i + pre.length

/-- The state `st` of `get_regular_divide_conquer` and the state `plain` of the
loop without the erase blocks agree: the scalars are the same and so are the
entries of both buffers from the cursors on. -/
structure DCSim (st plain : DCState) : Prop where
  coef_ijk : plain.coef_ijk = st.coef_ijk
  coef_jk : plain.coef_jk = st.coef_jk
  coef_k : plain.coef_k = st.coef_k
  coef_minjk : plain.coef_minjk = st.coef_minjk
  log_ijk : plain.log_ijk = st.log_ijk
  log_jk : plain.log_jk = st.log_jk
  log_k : plain.log_k = st.log_k
  min_jk : plain.min_jk = st.min_jk
  queue_i : plain.series.data.drop plain.ii = st.series.data.drop st.ii
  queue_jk : plain.jk_series.data.drop plain.jj = st.jk_series.data.drop st.jj
  ii_le : st.ii ≤ st.series.data.length
  jj_le : st.jj ≤ st.jk_series.data.length
  ii_le_plain : plain.ii ≤ plain.series.data.length
  jj_le_plain : plain.jj ≤ plain.jk_series.data.length

/-- The function `get_regular_divide_conquer`, where `series` has the capacity
`cap_i` and `jk_series` has the capacity `cap_jk` after the two calls of
`reserve(65536)`. -/
def get_regular_divide_conquer_caps (cap_i cap_jk : ℕ) (grow : ℕ → ℕ) (n : ℕ) :
    Option (LogVal × Arr3 ℕ) :=
  (dc_loop grow (whileNeOneIters n) (dc_init_caps cap_i cap_jk)).bind fun st =>
    st.series.back.map fun last => (coef2log2 last, last)

/-! ## The range of `int` in `get_regular_factor` -/

/-- The exponent triples `[i, j, k]` with `i < I`, `j < J` and `k < K`. -/
def tripleBox (I J K : ℕ) : List (Arr3 ℕ) :=
  (List.range I).flatMap fun i => (List.range J).flatMap fun j =>
    (List.range K).map fun k => ⟨i, j, k⟩

/-- The states `(series, num)` that the scan loop of `get_regular_factor` is in
when it tests `series.size() < n_series`, for at most `fuel` turns of the loop.
-/
def get_regular_factor_states (n_series : ℕ) : ℕ → List ℕ → ℕ → List (List ℕ × ℕ)
  | 0, series, num => [(series, num)]
  | fuel + 1, series, num =>
    (series, num) ::
      if series.length < n_series then
        match factor num with
        | none => []
        | some remainder =>
          get_regular_factor_states n_series fuel
            (if remainder = 1 then series ++ [num] else series) (num + 1)
      else []

/-- The largest value of a 32-bit `int`. -/
def INT_MAX : ℕ := 2 ^ 31 - 1

/-! ## Theorems -/


theorem isRegular_one : IsRegular 1 := ⟨0, 0, 0, by norm_num⟩

theorem IsRegular.pos {m : ℕ} (h : IsRegular m) : 0 < m := by
  obtain ⟨i, j, k, rfl⟩ := h
  positivity

theorem IsRegular.mul {a b : ℕ} (ha : IsRegular a) (hb : IsRegular b) : IsRegular (a * b) := by
  obtain ⟨i, j, k, rfl⟩ := ha
  obtain ⟨i', j', k', rfl⟩ := hb
  exact ⟨i + i', j + j', k + k', by ring⟩

theorem isRegular_two : IsRegular 2 := ⟨1, 0, 0, by norm_num⟩
theorem isRegular_three : IsRegular 3 := ⟨0, 1, 0, by norm_num⟩
theorem isRegular_five : IsRegular 5 := ⟨0, 0, 1, by norm_num⟩

/-- A regular number other than 1 is 2, 3 or 5 times a regular number. -/
theorem IsRegular.exists_factor {m : ℕ} (h : IsRegular m) (h1 : m ≠ 1) :
    ∃ r, IsRegular r ∧ (m = r * 2 ∨ m = r * 3 ∨ m = r * 5) := by
  obtain ⟨i, j, k, rfl⟩ := h
  rcases Nat.eq_zero_or_pos i with hi | hi
  · rcases Nat.eq_zero_or_pos j with hj | hj
    · rcases Nat.eq_zero_or_pos k with hk | hk
      · subst hi hj hk; simp at h1
      · obtain ⟨k', rfl⟩ : ∃ k', k = k' + 1 := ⟨k - 1, by omega⟩
        exact ⟨2 ^ i * 3 ^ j * 5 ^ k', ⟨i, j, k', rfl⟩, Or.inr (Or.inr (by ring))⟩
    · obtain ⟨j', rfl⟩ : ∃ j', j = j' + 1 := ⟨j - 1, by omega⟩
      exact ⟨2 ^ i * 3 ^ j' * 5 ^ k, ⟨i, j', k, rfl⟩, Or.inr (Or.inl (by ring))⟩
  · obtain ⟨i', rfl⟩ : ∃ i', i = i' + 1 := ⟨i - 1, by omega⟩
    exact ⟨2 ^ i' * 3 ^ j * 5 ^ k, ⟨i', j, k, rfl⟩, Or.inl (by ring)⟩

theorem infinite_isRegular : (setOf IsRegular).Infinite := by
  refine Set.infinite_of_injective_forall_mem (f := fun i : ℕ => 2 ^ i) ?_ ?_
  · exact Nat.pow_right_injective (le_refl 2)
  · intro i
    exact ⟨i, 0, 0, by simp⟩

theorem isRegular_nth (t : ℕ) : IsRegular (Nat.nth IsRegular t) :=
  Nat.nth_mem_of_infinite infinite_isRegular t

theorem nth_isRegular_zero : Nat.nth IsRegular 0 = 1 := by
  have h1 : 0 < Nat.nth IsRegular 0 := (isRegular_nth 0).pos
  have h2 : Nat.nth IsRegular 0 ≤ 1 := by
    by_contra hlt
    push_neg at hlt
    have := (Nat.nth_eq_sInf IsRegular 0) ▸ Nat.sInf_le (s := {x | IsRegular x ∧ ∀ k < 0, Nat.nth IsRegular k < x}) ⟨isRegular_one, by simp⟩
    omega
  omega

/-- The regular number after the `t`-th one is the least regular number above it. -/
theorem nth_isRegular_succ {t h : ℕ} (hreg : IsRegular h) (hlt : Nat.nth IsRegular t < h)
    (hleast : ∀ m, IsRegular m → Nat.nth IsRegular t < m → h ≤ m) :
    Nat.nth IsRegular (t + 1) = h := by
  apply le_antisymm
  · by_contra hc
    push_neg at hc
    have := Nat.le_nth_of_lt_nth_succ hc hreg
    omega
  · apply hleast _ (isRegular_nth _)
    exact Nat.nth_strictMono infinite_isRegular (Nat.lt_succ_self t)


/-! ### `get_regular_set` -/

theorem mem_setInsert_lt {x y : ℕ} {l : List ℕ} :
    y ∈ setInsert (fun a b => decide (a < b)) x l ↔ y = x ∨ y ∈ l := by
  induction l with
  | nil => simp [setInsert]
  | cons z zs ih =>
    simp only [setInsert, decide_eq_true_eq]
    split_ifs with h1 h2
    · simp only [List.mem_cons, ih]; tauto
    · simp only [List.mem_cons]
    · have hzx : z = x := by omega
      subst hzx
      simp only [List.mem_cons]; tauto

theorem sorted_setInsert_lt {x : ℕ} {l : List ℕ} (hl : l.Sorted (· < ·)) :
    (setInsert (fun a b => decide (a < b)) x l).Sorted (· < ·) := by
  induction l with
  | nil => simp [setInsert]
  | cons z zs ih =>
    simp only [setInsert, decide_eq_true_eq]
    have hz := List.sorted_cons.mp hl
    split_ifs with h1 h2
    · refine List.sorted_cons.mpr ⟨?_, ih hz.2⟩
      intro b hb
      rcases mem_setInsert_lt.mp hb with rfl | hb
      · exact h1
      · exact hz.1 b hb
    · refine List.sorted_cons.mpr ⟨?_, hl⟩
      intro b hb
      rcases List.mem_cons.mp hb with rfl | hb
      · exact h2
      · exact lt_trans h2 (hz.1 b hb)
    · exact hl

theorem setInv_init : SetInv [1] 0 := by
  refine ⟨by simp, ?_, by simp [nth_isRegular_zero], ?_⟩
  · intro x hx
    simp only [List.mem_singleton] at hx
    subst hx; exact isRegular_one
  · intro m hm _
    exact ⟨1, by simp, m, hm, by simp⟩

theorem head_le_of_sorted {S : List ℕ} {h : ℕ} (hS : S.Sorted (· < ·))
    (hh : S.head? = some h) : ∀ x ∈ S, h ≤ x := by
  cases S with
  | nil => simp at hh
  | cons a as =>
    simp only [List.head?_cons, Option.some.injEq] at hh
    subst hh
    intro x hx
    rcases List.mem_cons.mp hx with rfl | hx
    · exact le_refl _
    · exact le_of_lt ((List.sorted_cons.mp hS).1 x hx)

theorem setInv_step {s : ℕ} {rest : List ℕ} {t : ℕ} (hinv : SetInv (s :: rest) t)
    (hb : s * 5 < WORD) :
    SetInv (setInsert (fun a b => decide (a < b)) (s * 5 % WORD)
          (setInsert (fun a b => decide (a < b)) (s * 3 % WORD)
            (setInsert (fun a b => decide (a < b)) (s * 2 % WORD) rest))) (t + 1) := by
  obtain ⟨hsort, hreg, hhead, hgen⟩ := hinv
  have hs : s = Nat.nth IsRegular t := by simpa using hhead
  have e5 : s * 5 % WORD = s * 5 := Nat.mod_eq_of_lt hb
  have e3 : s * 3 % WORD = s * 3 := Nat.mod_eq_of_lt (by omega)
  have e2 : s * 2 % WORD = s * 2 := Nat.mod_eq_of_lt (by omega)
  rw [e5, e3, e2]
  set S' := setInsert (fun a b => decide (a < b)) (s * 5)
          (setInsert (fun a b => decide (a < b)) (s * 3)
            (setInsert (fun a b => decide (a < b)) (s * 2) rest)) with hS'
  have hmem : ∀ y, y ∈ S' ↔ y = s * 5 ∨ y = s * 3 ∨ y = s * 2 ∨ y ∈ rest := by
    intro y
    simp only [hS', mem_setInsert_lt]
  have hsreg : IsRegular s := hreg s (List.mem_cons_self _ _)
  have hspos : 0 < s := hsreg.pos
  have hsc := List.sorted_cons.mp hsort
  have hsort' : S'.Sorted (· < ·) :=
    sorted_setInsert_lt (sorted_setInsert_lt (sorted_setInsert_lt hsc.2))
  have hreg' : ∀ x ∈ S', IsRegular x := by
    intro x hx
    rcases (hmem x).mp hx with rfl | rfl | rfl | hx
    · exact hsreg.mul isRegular_five
    · exact hsreg.mul isRegular_three
    · exact hsreg.mul isRegular_two
    · exact hreg x (List.mem_cons_of_mem _ hx)
  have hgt : ∀ x ∈ S', s < x := by
    intro x hx
    rcases (hmem x).mp hx with rfl | rfl | rfl | hx
    · omega
    · omega
    · omega
    · exact hsc.1 x hx
  have hgen' : ∀ m, IsRegular m → s < m → ∃ x ∈ S', ∃ r, IsRegular r ∧ m = x * r := by
    intro m hm hlt
    obtain ⟨x, hx, r, hr, rfl⟩ := hgen m hm (by omega)
    rcases List.mem_cons.mp hx with rfl | hx
    · have hr1 : r ≠ 1 := by
        rintro rfl
        simp at hlt
      obtain ⟨r', hr', h2 | h3 | h5⟩ := hr.exists_factor hr1
      · exact ⟨x * 2, (hmem _).mpr (by tauto), r', hr', by subst h2; ring⟩
      · exact ⟨x * 3, (hmem _).mpr (by tauto), r', hr', by subst h3; ring⟩
      · exact ⟨x * 5, (hmem _).mpr (by tauto), r', hr', by subst h5; ring⟩
    · exact ⟨x, (hmem _).mpr (by tauto), r, hr, rfl⟩
  obtain ⟨h', hh'⟩ : ∃ h', S'.head? = some h' := by
    cases hc : S' with
    | nil =>
      have : s * 5 ∈ S' := (hmem _).mpr (Or.inl rfl)
      rw [hc] at this
      simp at this
    | cons a as => exact ⟨a, rfl⟩
  have hh'mem : h' ∈ S' := List.mem_of_mem_head? hh'
  have hmin := head_le_of_sorted hsort' hh'
  have hnth : Nat.nth IsRegular (t + 1) = h' := by
    apply nth_isRegular_succ (hreg' _ hh'mem)
    · rw [← hs]; exact hgt _ hh'mem
    · intro m hm hlt
      rw [← hs] at hlt
      obtain ⟨x, hx, r, hr, rfl⟩ := hgen' m hm hlt
      calc h' ≤ x := hmin x hx
        _ ≤ x * r := Nat.le_mul_of_pos_right _ hr.pos
  refine ⟨hsort', hreg', by rw [hh', hnth], ?_⟩
  intro m hm hle
  apply hgen' m hm
  rw [hnth] at hle
  exact lt_of_lt_of_le (hgt _ hh'mem) hle

theorem get_regular_set_loop_spec (iters : ℕ) : ∀ (S : List ℕ) (t : ℕ), SetInv S t →
    (∀ i, i < iters → Nat.nth IsRegular (t + i) * 5 < WORD) →
    ∃ S', get_regular_set_loop iters S = some S' ∧ SetInv S' (t + iters) := by
  induction iters with
  | zero => intro S t h _; exact ⟨S, rfl, h⟩
  | succ k ih =>
    intro S t hinv hb
    cases S with
    | nil => simp [SetInv] at hinv
    | cons s rest =>
      have hs : s = Nat.nth IsRegular t := by simpa using hinv.2.2.1
      have h0 := hb 0 (Nat.succ_pos k)
      rw [Nat.add_zero, ← hs] at h0
      obtain ⟨S', h1, h2⟩ := ih _ (t + 1) (setInv_step hinv h0) (by
        intro i hi
        have := hb (i + 1) (by omega)
        rwa [show t + (i + 1) = t + 1 + i by omega] at this)
      refine ⟨S', ?_, by rwa [show t + (k + 1) = t + 1 + k by omega]⟩
      rw [get_regular_set_loop]
      exact h1

theorem get_regular_set_eq_nth (n : ℕ) (hn : 1 ≤ n)
    (hb : Nat.nth IsRegular (n - 2) * 5 < WORD) :
    get_regular_set n = some (Nat.nth IsRegular (n - 1)) := by
  have hit : whileNeOneIters n = n - 1 := by
    simp [whileNeOneIters]; omega
  obtain ⟨S', h1, h2⟩ := get_regular_set_loop_spec (n - 1) [1] 0 setInv_init (by
    intro i hi
    have hmono := Nat.nth_monotone infinite_isRegular (show 0 + i ≤ n - 2 by omega)
    omega)
  rw [get_regular_set, hit, h1]
  simpa using h2.2.2.1


/-! ### `factor` and `get_regular_factor` -/

theorem divideOut_spec (d : ℕ) (hd : 1 < d) : ∀ val : ℕ, 0 < val →
    ∃ a r, divideOut d val = some r ∧ val = d ^ a * r ∧ ¬ d ∣ r := by
  intro val
  induction val using Nat.strong_induction_on with
  | _ val ih =>
    intro hpos
    rw [divideOut]
    by_cases hm : val % d = 0
    · have hdv : d ∣ val := Nat.dvd_of_mod_eq_zero hm
      have hlt : val / d < val := Nat.div_lt_self hpos hd
      have hqpos : 0 < val / d := Nat.div_pos (Nat.le_of_dvd hpos hdv) (by omega)
      obtain ⟨a, r, h1, h2, h3⟩ := ih (val / d) hlt hqpos
      refine ⟨a + 1, r, ?_, ?_, h3⟩
      · simp only [hm, if_true, hpos, hd, and_self, dite_true]
        exact h1
      · calc val = val / d * d := (Nat.div_mul_cancel hdv).symm
          _ = d ^ (a + 1) * r := by rw [h2]; ring
    · refine ⟨0, val, ?_, by simp, ?_⟩
      · simp [hm]
      · intro hdv
        exact hm (Nat.mod_eq_zero_of_dvd hdv)

theorem factor_spec (val : ℕ) (hpos : 0 < val) :
    ∃ a b c r, factor val = some r ∧ val = 2 ^ a * 3 ^ b * 5 ^ c * r ∧
      ¬ 2 ∣ r ∧ ¬ 3 ∣ r ∧ ¬ 5 ∣ r := by
  obtain ⟨a, r1, h1, e1, n1⟩ := divideOut_spec 2 (by norm_num) val hpos
  have hr1 : 0 < r1 := by
    rcases Nat.eq_zero_or_pos r1 with h | h
    · subst h; simp at n1
    · exact h
  obtain ⟨b, r2, h2, e2, n2⟩ := divideOut_spec 3 (by norm_num) r1 hr1
  have hr2 : 0 < r2 := by
    rcases Nat.eq_zero_or_pos r2 with h | h
    · subst h; simp at n2
    · exact h
  obtain ⟨c, r, h3, e3, n3⟩ := divideOut_spec 5 (by norm_num) r2 hr2
  refine ⟨a, b, c, r, ?_, ?_, ?_, ?_, n3⟩
  · simp [factor, h1, h2, h3]
  · rw [e1, e2, e3]; ring
  · intro h
    exact n1 (e2 ▸ e3 ▸ Dvd.dvd.mul_left (Dvd.dvd.mul_left h _) _)
  · intro h
    exact n2 (e3 ▸ Dvd.dvd.mul_left h _)

theorem eq_one_of_not_dvd_of_dvd_regular {r m : ℕ} (hm : IsRegular m) (hr : r ∣ m)
    (h2 : ¬ 2 ∣ r) (h3 : ¬ 3 ∣ r) (h5 : ¬ 5 ∣ r) : r = 1 := by
  obtain ⟨i, j, k, rfl⟩ := hm
  have c2 : Nat.Coprime r 2 := (Nat.Coprime.symm ((Nat.Prime.coprime_iff_not_dvd Nat.prime_two).mpr h2))
  have c3 : Nat.Coprime r 3 := (Nat.Coprime.symm ((Nat.Prime.coprime_iff_not_dvd Nat.prime_three).mpr h3))
  have c5 : Nat.Coprime r 5 := (Nat.Coprime.symm ((Nat.Prime.coprime_iff_not_dvd Nat.prime_five).mpr h5))
  have c : Nat.Coprime r (2 ^ i * 3 ^ j * 5 ^ k) :=
    Nat.Coprime.mul_right (Nat.Coprime.mul_right (c2.pow_right i) (c3.pow_right j)) (c5.pow_right k)
  exact Nat.Coprime.eq_one_of_dvd c hr

theorem factor_eq_one_iff (val : ℕ) (hpos : 0 < val) :
    factor val = some 1 ↔ IsRegular val := by
  obtain ⟨a, b, c, r, h, e, n2, n3, n5⟩ := factor_spec val hpos
  constructor
  · intro h1
    rw [h] at h1
    have : r = 1 := by simpa using h1
    subst this
    exact ⟨a, b, c, by rw [e]; ring⟩
  · intro hreg
    have : r = 1 := eq_one_of_not_dvd_of_dvd_regular hreg ⟨2 ^ a * 3 ^ b * 5 ^ c, by rw [e]; ring⟩ n2 n3 n5
    rw [h, this]

theorem isRegular_iff_fiveSmooth (m : ℕ) : IsRegular m ↔ FiveSmooth m := by
  constructor
  · intro h
    refine ⟨h.pos, ?_⟩
    obtain ⟨i, j, k, rfl⟩ := h
    intro p hp hdv
    rcases (Nat.Prime.dvd_mul hp).mp hdv with h1 | h1
    · rcases (Nat.Prime.dvd_mul hp).mp h1 with h2 | h2
      · exact Or.inl ((Nat.prime_dvd_prime_iff_eq hp Nat.prime_two).mp (hp.dvd_of_dvd_pow h2))
      · exact Or.inr (Or.inl ((Nat.prime_dvd_prime_iff_eq hp Nat.prime_three).mp (hp.dvd_of_dvd_pow h2)))
    · exact Or.inr (Or.inr ((Nat.prime_dvd_prime_iff_eq hp Nat.prime_five).mp (hp.dvd_of_dvd_pow h1)))
  · rintro ⟨hpos, hp⟩
    obtain ⟨a, b, c, r, -, e, n2, n3, n5⟩ := factor_spec m hpos
    have hr : r = 1 := by
      by_contra hne
      obtain ⟨p, hpp, hpr⟩ := Nat.exists_prime_and_dvd hne
      have hpm : p ∣ m := by rw [e]; exact Dvd.dvd.mul_left hpr _
      rcases hp p hpp hpm with rfl | rfl | rfl
      · exact n2 hpr
      · exact n3 hpr
      · exact n5 hpr
    subst hr
    exact ⟨a, b, c, by rw [e]; ring⟩

theorem nth_fiveSmooth_eq (t : ℕ) : Nat.nth FiveSmooth t = Nat.nth IsRegular t := by
  have : FiveSmooth = IsRegular := by
    funext m
    exact propext (isRegular_iff_fiveSmooth m).symm
  rw [this]

theorem factorInv_init : FactorInv [1] 2 := by
  refine ⟨0, rfl, by simp [nth_isRegular_zero], by simp [nth_isRegular_zero], ?_⟩
  intro m hm hlt
  rw [nth_isRegular_zero]
  omega

theorem get_regular_factor_loop_spec (n : ℕ) : ∀ (fuel : ℕ) (series : List ℕ) (num : ℕ),
    FactorInv series num → series.length ≤ n →
    Nat.nth IsRegular (n - 1) + 1 ≤ num + fuel →
    ∃ st, get_regular_factor_loop n fuel series num = some st ∧
      st.1.getLast? = some (Nat.nth IsRegular (n - 1)) ∧ FactorInv st.1 st.2 ∧
      st.1.length = n := by
  intro fuel
  induction fuel with
  | zero =>
    intro series num hinv hlen hfuel
    obtain ⟨t, ht, hlast, hlt, hall⟩ := hinv
    have hnot : ¬ series.length < n := by
      intro hc
      have h1 : Nat.nth IsRegular (t + 1) ≤ Nat.nth IsRegular (n - 1) :=
        Nat.nth_monotone infinite_isRegular (by omega)
      have h2 : Nat.nth IsRegular t < Nat.nth IsRegular (t + 1) :=
        Nat.nth_strictMono infinite_isRegular (Nat.lt_succ_self t)
      have h3 : ¬ Nat.nth IsRegular (t + 1) < num := fun h =>
        absurd (hall _ (isRegular_nth _) h) (by omega)
      omega
    refine ⟨(series, num), by simp [get_regular_factor_loop, hnot], ?_, ⟨t, ht, hlast, hlt, hall⟩, by simp; omega⟩
    have : n - 1 = t := by omega
    rw [this]; exact hlast
  | succ f ih =>
    intro series num hinv hlen hfuel
    obtain ⟨t, ht, hlast, hlt, hall⟩ := hinv
    by_cases hc : series.length < n
    · have h1 : Nat.nth IsRegular (t + 1) ≤ Nat.nth IsRegular (n - 1) :=
        Nat.nth_monotone infinite_isRegular (by omega)
      have h2 : Nat.nth IsRegular t < Nat.nth IsRegular (t + 1) :=
        Nat.nth_strictMono infinite_isRegular (Nat.lt_succ_self t)
      have h3 : ¬ Nat.nth IsRegular (t + 1) < num := fun h =>
        absurd (hall _ (isRegular_nth _) h) (by omega)
      have hpos : 0 < num := by omega
      obtain ⟨a, b, c, r, hf, -⟩ := factor_spec num hpos
      rw [get_regular_factor_loop]
      simp only [hc, if_true, hf]
      by_cases hr : r = 1
      · have hreg : IsRegular num := (factor_eq_one_iff num hpos).mp (by rw [hf, hr])
        have hnth : Nat.nth IsRegular (t + 1) = num := by
          apply nth_isRegular_succ hreg hlt
          intro m hm hgt
          by_contra hcon
          have := hall m hm (by omega)
          omega
        simp only [hr, if_true]
        apply ih
        · refine ⟨t + 1, by simp [ht], by simp [hnth], by omega, ?_⟩
          intro m hm hlt'
          omega
        · simp; omega
        · omega
      · have hnreg : ¬ IsRegular num := fun h =>
          hr (by simpa [hf] using (factor_eq_one_iff num hpos).mpr h)
        simp only [hr, if_false]
        apply ih
        · refine ⟨t, ht, hlast, by omega, ?_⟩
          intro m hm hlt'
          apply hall m hm
          rcases Nat.lt_succ_iff_lt_or_eq.mp hlt' with h | h
          · exact h
          · subst h; exact absurd hm hnreg
        · exact hlen
        · by_contra hcon
          push_neg at hcon
          have : num = Nat.nth IsRegular (n - 1) := by omega
          exact hnreg (this ▸ isRegular_nth _)
    · refine ⟨(series, num), by simp [get_regular_factor_loop, hc], ?_, ⟨t, ht, hlast, hlt, hall⟩, by simp; omega⟩
      have : n - 1 = t := by omega
      rw [this]; exact hlast

theorem get_regular_factor_eq_nth (n fuel : ℕ) (hn : 1 ≤ n) (hle : n ≤ 1500)
    (hfuel : Nat.nth IsRegular (n - 1) ≤ fuel + 1) :
    get_regular_factor fuel n = some (Nat.nth IsRegular (n - 1)) := by
  obtain ⟨st, h1, h2, -⟩ := get_regular_factor_loop_spec n fuel [1] 2 factorInv_init
    (by simpa using hn) (by omega)
  have : ¬ n > 1500 := by omega
  simp [get_regular_factor, this, h1, h2]

theorem get_regular_factor_zero (fuel : ℕ) : get_regular_factor fuel 0 = some 1 := by
  cases fuel <;> simp [get_regular_factor, get_regular_factor_loop]

namespace LogVal

theorem logb_two_three_bounds :
    (15849 : ℝ) / 10000 < Real.logb 2 3 ∧ Real.logb 2 3 < 15850 / 10000 := by
  have h1 : Real.logb 2 ((2 : ℝ) ^ (15849 : ℕ)) < Real.logb 2 ((3 : ℝ) ^ (10000 : ℕ)) :=
    Real.logb_lt_logb (by norm_num) (by positivity) (by norm_num)
  have h2 : Real.logb 2 ((3 : ℝ) ^ (10000 : ℕ)) < Real.logb 2 ((2 : ℝ) ^ (15850 : ℕ)) :=
    Real.logb_lt_logb (by norm_num) (by positivity) (by norm_num)
  rw [Real.logb_pow, Real.logb_pow, Real.logb_self_eq_one (by norm_num)] at h1
  rw [Real.logb_pow, Real.logb_pow, Real.logb_self_eq_one (by norm_num)] at h2
  constructor
  · push_cast at h1; linarith
  · push_cast at h2; linarith

theorem logb_two_five_bounds :
    (23219 : ℝ) / 10000 < Real.logb 2 5 ∧ Real.logb 2 5 < 23220 / 10000 := by
  have h1 : Real.logb 2 ((2 : ℝ) ^ (23219 : ℕ)) < Real.logb 2 ((5 : ℝ) ^ (10000 : ℕ)) :=
    Real.logb_lt_logb (by norm_num) (by positivity) (by norm_num)
  have h2 : Real.logb 2 ((5 : ℝ) ^ (10000 : ℕ)) < Real.logb 2 ((2 : ℝ) ^ (23220 : ℕ)) :=
    Real.logb_lt_logb (by norm_num) (by positivity) (by norm_num)
  rw [Real.logb_pow, Real.logb_pow, Real.logb_self_eq_one (by norm_num)] at h1
  rw [Real.logb_pow, Real.logb_pow, Real.logb_self_eq_one (by norm_num)] at h2
  constructor
  · push_cast at h1; linarith
  · push_cast at h2; linarith

/-- The base-2 logarithm of `2^i * 3^j * 5^k`. -/
theorem logb_two_pow_mul (i j k : ℕ) :
    Real.logb 2 (((2 ^ i * 3 ^ j * 5 ^ k : ℕ) : ℝ)) =
      i + j * Real.logb 2 3 + k * Real.logb 2 5 := by
  push_cast
  rw [Real.logb_mul (by positivity) (by positivity), Real.logb_mul (by positivity) (by positivity),
    Real.logb_pow, Real.logb_pow, Real.logb_pow, Real.logb_self_eq_one (by norm_num)]
  ring

theorem signPos_exact_iff (A B C : ℤ) :
    2 ^ (-A).toNat * 3 ^ (-B).toNat * 5 ^ (-C).toNat
      < 2 ^ A.toNat * 3 ^ B.toNat * 5 ^ C.toNat ↔
    0 < (A : ℝ) + B * Real.logb 2 3 + C * Real.logb 2 5 := by
  have hA : ((A.toNat : ℝ)) - ((-A).toNat : ℝ) = A := by
    have := Int.toNat_sub_toNat_neg A
    exact_mod_cast this
  have hB : ((B.toNat : ℝ)) - ((-B).toNat : ℝ) = B := by
    have := Int.toNat_sub_toNat_neg B
    exact_mod_cast this
  have hC : ((C.toNat : ℝ)) - ((-C).toNat : ℝ) = C := by
    have := Int.toNat_sub_toNat_neg C
    exact_mod_cast this
  have hpos : ∀ i j k : ℕ, (0 : ℝ) < ((2 ^ i * 3 ^ j * 5 ^ k : ℕ) : ℝ) := by
    intro i j k; positivity
  rw [← Nat.cast_lt (α := ℝ), ← Real.logb_lt_logb_iff (b := 2) (by norm_num) (hpos _ _ _) (hpos _ _ _),
    logb_two_pow_mul, logb_two_pow_mul, ← hA, ← hB, ← hC]
  constructor <;> intro h <;> linarith

theorem signPos_iff (A B C : ℤ) :
    signPos A B C = true ↔ 0 < (A : ℝ) + B * Real.logb 2 3 + C * Real.logb 2 5 := by
  obtain ⟨l3, u3⟩ := logb_two_three_bounds
  obtain ⟨l5, u5⟩ := logb_two_five_bounds
  have hBl : ((B * (if 0 ≤ B then 15849 else 15850) : ℤ) : ℝ) ≤ 10000 * (B * Real.logb 2 3) := by
    split_ifs with hB
    · have : (0 : ℝ) ≤ B := by exact_mod_cast hB
      push_cast; nlinarith
    · have : (B : ℝ) < 0 := by exact_mod_cast (not_le.mp hB)
      push_cast; nlinarith
  have hBu : 10000 * (B * Real.logb 2 3) ≤ ((B * (if 0 ≤ B then 15850 else 15849) : ℤ) : ℝ) := by
    split_ifs with hB
    · have : (0 : ℝ) ≤ B := by exact_mod_cast hB
      push_cast; nlinarith
    · have : (B : ℝ) < 0 := by exact_mod_cast (not_le.mp hB)
      push_cast; nlinarith
  have hCl : ((C * (if 0 ≤ C then 23219 else 23220) : ℤ) : ℝ) ≤ 10000 * (C * Real.logb 2 5) := by
    split_ifs with hC
    · have : (0 : ℝ) ≤ C := by exact_mod_cast hC
      push_cast; nlinarith
    · have : (C : ℝ) < 0 := by exact_mod_cast (not_le.mp hC)
      push_cast; nlinarith
  have hCu : 10000 * (C * Real.logb 2 5) ≤ ((C * (if 0 ≤ C then 23220 else 23219) : ℤ) : ℝ) := by
    split_ifs with hC
    · have : (0 : ℝ) ≤ C := by exact_mod_cast hC
      push_cast; nlinarith
    · have : (C : ℝ) < 0 := by exact_mod_cast (not_le.mp hC)
      push_cast; nlinarith
  unfold signPos
  by_cases h1 : 0 < 10000 * A + B * (if 0 ≤ B then 15849 else 15850)
      + C * (if 0 ≤ C then 23219 else 23220)
  · rw [if_pos h1]
    have h1r : (0 : ℝ) < ((10000 * A + B * (if 0 ≤ B then 15849 else 15850)
      + C * (if 0 ≤ C then 23219 else 23220) : ℤ) : ℝ) := by exact_mod_cast h1
    rw [Int.cast_add, Int.cast_add] at h1r
    simp only [true_iff]
    have : ((10000 * A : ℤ) : ℝ) = 10000 * (A : ℝ) := by push_cast; ring
    rw [this] at h1r
    linarith
  · rw [if_neg h1]
    by_cases h2 : 10000 * A + B * (if 0 ≤ B then 15850 else 15849)
      + C * (if 0 ≤ C then 23220 else 23219) ≤ 0
    · rw [if_pos h2]
      have h2r : ((10000 * A + B * (if 0 ≤ B then 15850 else 15849)
        + C * (if 0 ≤ C then 23220 else 23219) : ℤ) : ℝ) ≤ 0 := by exact_mod_cast h2
      rw [Int.cast_add, Int.cast_add] at h2r
      have : ((10000 * A : ℤ) : ℝ) = 10000 * (A : ℝ) := by push_cast; ring
      rw [this] at h2r
      simp only [Bool.false_eq_true, false_iff, not_lt]
      linarith
    · rw [if_neg h2, decide_eq_true_eq]
      exact signPos_exact_iff A B C

/-- The order of `LogVal` is the order of the real numbers denoted. -/
theorem lt_iff_toReal (x y : LogVal) : x < y ↔ x.toReal < y.toReal := by
  show ltb x y = true ↔ _
  unfold ltb
  rw [signPos_iff, toReal, toReal, div_lt_div_iff₀ (by positivity) (by positivity)]
  push_cast
  constructor <;> intro h <;> linarith

theorem add_def (x y : LogVal) :
    x + y = ⟨x.a * 10 ^ y.s + y.a * 10 ^ x.s, x.b * 10 ^ y.s + y.b * 10 ^ x.s,
      x.c * 10 ^ y.s + y.c * 10 ^ x.s, x.s + y.s⟩ := rfl

theorem sub_def (x y : LogVal) :
    x - y = ⟨x.a * 10 ^ y.s - y.a * 10 ^ x.s, x.b * 10 ^ y.s - y.b * 10 ^ x.s,
      x.c * 10 ^ y.s - y.c * 10 ^ x.s, x.s + y.s⟩ := rfl

theorem mul_def (x y : LogVal) :
    x * y = if y.b = 0 ∧ y.c = 0 then ⟨x.a * y.a, x.b * y.a, x.c * y.a, x.s + y.s⟩
      else ⟨y.a * x.a, y.b * x.a, y.c * x.a, x.s + y.s⟩ := rfl

theorem natCast_def (n : ℕ) : (n : LogVal) = ⟨n, 0, 0, 0⟩ := rfl

theorem toReal_add (x y : LogVal) : (x + y).toReal = x.toReal + y.toReal := by
  show toReal ⟨_, _, _, _⟩ = _
  simp only [toReal]
  push_cast
  field_simp
  ring

theorem toReal_sub (x y : LogVal) : (x - y).toReal = x.toReal - y.toReal := by
  show toReal ⟨_, _, _, _⟩ = _
  simp only [toReal]
  push_cast
  field_simp
  ring

theorem toReal_neg (x : LogVal) : (-x).toReal = -x.toReal := by
  show toReal ⟨_, _, _, _⟩ = _
  simp only [toReal]
  push_cast
  field_simp
  ring

/-- A product is exact when its right factor is a decimal constant. -/
theorem toReal_mul_const (x y : LogVal) (hb : y.b = 0) (hc : y.c = 0) :
    (x * y).toReal = x.toReal * y.toReal := by
  show toReal (if y.b = 0 ∧ y.c = 0 then _ else _) = _
  rw [if_pos ⟨hb, hc⟩]
  simp only [toReal, hb, hc]
  push_cast
  field_simp
  ring

/-- A product is exact when its left factor is a decimal constant. -/
theorem toReal_const_mul (x y : LogVal) (hb : x.b = 0) (hc : x.c = 0) :
    (x * y).toReal = x.toReal * y.toReal := by
  show toReal (if y.b = 0 ∧ y.c = 0 then _ else _) = _
  split_ifs with h
  · simp only [toReal, hb, hc, h.1, h.2]
    push_cast
    rw [pow_add]
    field_simp
  · simp only [toReal, hb, hc]
    push_cast
    field_simp
    ring

theorem toReal_ofDecimal (m e : ℕ) : (ofDecimal m e).toReal = (m : ℝ) / 10 ^ e := by
  induction e generalizing m with
  | zero => simp [ofDecimal, toReal]
  | succ e ih =>
    rw [ofDecimal]
    split_ifs with h
    · rw [ih]
      have hm : (m : ℝ) = ((m / 10 : ℕ) : ℝ) * 10 := by
        have := Nat.div_mul_cancel (Nat.dvd_of_mod_eq_zero h)
        exact_mod_cast this.symm
      rw [hm, pow_succ]
      field_simp
      ring
    · simp [toReal]

theorem toReal_natCast (n : ℕ) : ((n : LogVal)).toReal = n := by
  show toReal ⟨_, _, _, _⟩ = _
  simp [toReal]

end LogVal

theorem toReal_lb3 : lb3.toReal = Real.logb 2 3 := by simp [lb3, LogVal.toReal]

theorem toReal_lb5 : lb5.toReal = Real.logb 2 5 := by simp [lb5, LogVal.toReal]

theorem coef2log2_eq (t : Arr3 ℕ) : coef2log2 t = ⟨t.x0, t.x1, t.x2, 0⟩ := by
  simp [coef2log2, LogVal.add_def, LogVal.mul_def, LogVal.natCast_def, lb3, lb5, Arr3.get]

/-- The function `coef2log2` gives `i + j * log2 3 + k * log2 5`. -/
theorem toReal_coef2log2 (t : Arr3 ℕ) :
    (coef2log2 t).toReal = t.x0 + t.x1 * Real.logb 2 3 + t.x2 * Real.logb 2 5 := by
  rw [coef2log2_eq]
  simp [LogVal.toReal]

theorem toReal_coef2log2_eq_logb (t : Arr3 ℕ) :
    (coef2log2 t).toReal = Real.logb 2 (tripleValue t) := by
  rw [toReal_coef2log2, tripleValue, LogVal.logb_two_pow_mul]

theorem tripleValue_pos (t : Arr3 ℕ) : 0 < tripleValue t := by
  unfold tripleValue; positivity

/-- Comparing the log2 values of two triples is comparing their numbers. -/
theorem coef2log2_lt_iff (t u : Arr3 ℕ) :
    coef2log2 t < coef2log2 u ↔ tripleValue t < tripleValue u := by
  rw [LogVal.lt_iff_toReal, toReal_coef2log2_eq_logb, toReal_coef2log2_eq_logb,
    Real.logb_lt_logb_iff (by norm_num) (by exact_mod_cast tripleValue_pos t)
      (by exact_mod_cast tripleValue_pos u)]
  exact Nat.cast_lt


/-! ### Numbers `3^j * 5^k` and the two merges of `get_regular_divide_conquer` -/

theorem IsJK.isRegular {m : ℕ} (h : IsJK m) : IsRegular m := by
  obtain ⟨j, k, rfl⟩ := h
  exact ⟨0, j, k, by simp⟩

theorem IsJK.jk_pos {m : ℕ} (h : IsJK m) : 0 < m := h.isRegular.pos

theorem IsJK.odd {m : ℕ} (h : IsJK m) : m % 2 = 1 := by
  obtain ⟨j, k, rfl⟩ := h
  have h3 : (3 ^ j) % 2 = 1 := by
    rw [Nat.pow_mod]; simp
  have h5 : (5 ^ k) % 2 = 1 := by
    rw [Nat.pow_mod]; simp
  rw [Nat.mul_mod, h3, h5]

theorem IsJK.three_mul {m : ℕ} (h : IsJK m) : IsJK (3 * m) := by
  obtain ⟨j, k, rfl⟩ := h
  exact ⟨j + 1, k, by ring⟩

theorem isJK_five_pow (q : ℕ) : IsJK (5 ^ q) := ⟨0, q, by simp⟩

theorem IsRegular.two_mul {m : ℕ} (h : IsRegular m) : IsRegular (2 * m) := by
  obtain ⟨i, j, k, rfl⟩ := h
  exact ⟨i + 1, j, k, by ring⟩

/-- A regular number is twice a regular number or is `3^j * 5^k`. -/
theorem IsRegular.even_or_jk {m : ℕ} (h : IsRegular m) :
    (∃ y, IsRegular y ∧ m = 2 * y) ∨ IsJK m := by
  obtain ⟨i, j, k, rfl⟩ := h
  cases i with
  | zero => exact Or.inr ⟨j, k, by simp⟩
  | succ i => exact Or.inl ⟨2 ^ i * 3 ^ j * 5 ^ k, ⟨i, j, k, rfl⟩, by ring⟩

/-- A number `3^j * 5^k` is three times such a number or is a power of 5. -/
theorem IsJK.three_or_pow {m : ℕ} (h : IsJK m) :
    (∃ y, IsJK y ∧ m = 3 * y) ∨ ∃ r, m = 5 ^ r := by
  obtain ⟨j, k, rfl⟩ := h
  cases j with
  | zero => exact Or.inr ⟨k, by simp⟩
  | succ j => exact Or.inl ⟨3 ^ j * 5 ^ k, ⟨j, k, rfl⟩, by ring⟩

theorem three_mul_ne_five_pow (y q : ℕ) : 3 * y ≠ 5 ^ q := by
  intro h
  have h1 : (3 * y) % 3 = 0 := Nat.mul_mod_right 3 y
  have h2 : (5 ^ q) % 3 ≠ 0 := by
    intro hc
    have := (Nat.Prime.dvd_of_dvd_pow Nat.prime_three (Nat.dvd_of_mod_eq_zero hc))
    omega
  rw [h] at h1
  exact h2 h1

/-- Between a number `p = 3^j * 5^k`, `p >= 3`, and `3 * p` lies another such number. -/
theorem IsJK.exists_between {p : ℕ} (h : IsJK p) (h3 : 3 ≤ p) :
    ∃ z, IsJK z ∧ p < z ∧ z < 3 * p := by
  obtain ⟨j, k, rfl⟩ := h
  cases j with
  | succ j =>
    refine ⟨3 ^ j * 5 ^ (k + 1), ⟨j, k + 1, rfl⟩, ?_, ?_⟩
    · have : 0 < 3 ^ j * 5 ^ k := by positivity
      rw [pow_succ, pow_succ]; nlinarith
    · have : 0 < 3 ^ j * 5 ^ k := by positivity
      rw [pow_succ, pow_succ]; nlinarith
  | zero =>
    cases k with
    | zero => simp at h3
    | succ k =>
      have h0 : 0 < 5 ^ k := by positivity
      have h1 : 3 ^ 2 * 5 ^ k = 9 * 5 ^ k := by norm_num
      have h2 : 3 ^ 0 * 5 ^ (k + 1) = 5 * 5 ^ k := by ring
      refine ⟨3 ^ 2 * 5 ^ k, ⟨2, k, rfl⟩, ?_, ?_⟩
      · rw [h1, h2]; omega
      · rw [h1, h2]; omega

/-- The outer merge: the regular number after `e` is the smaller of `2 * x`, the
least double of a regular number above `e`, and `M`, the least `3^j * 5^k`
above `e`. -/
theorem next_regular_merge {t x M e : ℕ} (hx : e = Nat.nth IsRegular t)
    (hx2 : e < 2 * x) (hxreg : IsRegular x)
    (hxmin : ∀ y, IsRegular y → y < x → 2 * y ≤ e)
    (hM : IsJK M) (hMe : e < M) (hMmin : ∀ m, IsJK m → m < M → m ≤ e) :
    (2 * x < M → Nat.nth IsRegular (t + 1) = 2 * x) ∧
    (¬ 2 * x < M → Nat.nth IsRegular (t + 1) = M ∧ M < 2 * x) := by
  have hne : 2 * x ≠ M := by
    have := hM.odd
    omega
  have key : ∀ m, IsRegular m → e < m → 2 * x ≤ m ∨ M ≤ m := by
    intro m hm hlt
    rcases hm.even_or_jk with ⟨y, hy, rfl⟩ | hjk
    · left
      by_contra hc
      have := hxmin y hy (by omega)
      omega
    · right
      by_contra hc
      have := hMmin m hjk (by omega)
      omega
  subst hx
  constructor
  · intro hlt
    apply nth_isRegular_succ hxreg.two_mul hx2
    intro m hm hgt
    rcases key m hm hgt with h | h <;> omega
  · intro hlt
    have hlt' : M < 2 * x := by omega
    refine ⟨?_, hlt'⟩
    apply nth_isRegular_succ hM.isRegular hMe
    intro m hm hgt
    rcases key m hm hgt with h | h <;> omega

/-- The inner merge: the number `3^j * 5^k` after `M` is the smaller of `3 * p`,
the least triple of such a number above `M`, and `5^q`, the least power of 5
above `M`. -/
theorem next_jk_merge {M p q : ℕ}
    (hpmin : ∀ y, IsJK y → y < p → 3 * y ≤ M) (hq1 : 1 ≤ q) (hqmin : 5 ^ (q - 1) ≤ M) :
    (3 * p < 5 ^ q → ∀ m, IsJK m → m < 3 * p → m ≤ M) ∧
    (¬ 3 * p < 5 ^ q → 5 ^ q < 3 * p ∧ ∀ m, IsJK m → m < 5 ^ q → m ≤ M) := by
  have key : ∀ m, IsJK m → M < m → 3 * p ≤ m ∨ 5 ^ q ≤ m := by
    intro m hm hlt
    rcases hm.three_or_pow with ⟨y, hy, rfl⟩ | ⟨r, rfl⟩
    · left
      by_contra hc
      have := hpmin y hy (by omega)
      omega
    · right
      by_contra hc
      push_neg at hc
      have hrq : r < q := (Nat.pow_lt_pow_iff_right (by norm_num : 1 < 5)).mp hc
      have : 5 ^ r ≤ 5 ^ (q - 1) := Nat.pow_le_pow_right (by norm_num) (by omega)
      omega
  have hne := three_mul_ne_five_pow p q
  constructor
  · intro hlt m hm hm3
    by_contra hc
    rcases key m hm (by omega) with h | h <;> omega
  · intro hlt
    refine ⟨by omega, ?_⟩
    intro m hm hm5
    by_contra hc
    rcases key m hm (by omega) with h | h <;> omega

/-- Taking the head off a sorted queue that lists the `P`-numbers in `(x, e]`. -/
theorem queue_pop {P : ℕ → Prop} {h x e : ℕ} {T : List ℕ}
    (hs : (h :: T).Sorted (· < ·)) (hm : ∀ m, m ∈ h :: T ↔ P m ∧ x < m ∧ m ≤ e) :
    P h ∧ x < h ∧ h ≤ e ∧ (∀ y, P y → y < h → y ≤ x) ∧ T.Sorted (· < ·) ∧
      ∀ m, m ∈ T ↔ P m ∧ h < m ∧ m ≤ e := by
  have hh := (hm h).mp (List.mem_cons_self _ _)
  have hsc := List.sorted_cons.mp hs
  refine ⟨hh.1, hh.2.1, hh.2.2, ?_, hsc.2, ?_⟩
  · intro y hy hlt
    by_contra hc
    have hy' : y ∈ h :: T := (hm y).mpr ⟨hy, by omega, by omega⟩
    rcases List.mem_cons.mp hy' with rfl | hyT
    · omega
    · have := hsc.1 y hyT
      omega
  · intro m
    constructor
    · intro hmT
      have h1 := (hm m).mp (List.mem_cons_of_mem _ hmT)
      exact ⟨h1.1, hsc.1 m hmT, h1.2.2⟩
    · rintro ⟨h1, h2, h3⟩
      have : m ∈ h :: T := (hm m).mpr ⟨h1, by omega, h3⟩
      rcases List.mem_cons.mp this with rfl | hmT
      · omega
      · exact hmT

/-- Appending the next `P`-number to a sorted queue that lists the `P`-numbers
in `(x, e]`. -/
theorem queue_push {P : ℕ → Prop} {x e w : ℕ} {L : List ℕ}
    (hs : L.Sorted (· < ·)) (hm : ∀ m, m ∈ L ↔ P m ∧ x < m ∧ m ≤ e)
    (hP : P w) (hlt : e < w) (hxe : x ≤ e) (hnext : ∀ m, P m → m < w → m ≤ e) :
    (L ++ [w]).Sorted (· < ·) ∧ ∀ m, m ∈ L ++ [w] ↔ P m ∧ x < m ∧ m ≤ w := by
  constructor
  · unfold List.Sorted
    rw [List.pairwise_append]
    refine ⟨hs, List.pairwise_singleton _ _, ?_⟩
    intro a ha b hb
    simp only [List.mem_singleton] at hb
    subst hb
    have := ((hm a).mp ha).2.2
    omega
  · intro m
    simp only [List.mem_append, List.mem_singleton, hm]
    constructor
    · rintro (⟨h1, h2, h3⟩ | rfl)
      · exact ⟨h1, h2, by omega⟩
      · exact ⟨hP, by omega, le_refl _⟩
    · rintro ⟨h1, h2, h3⟩
      by_cases hme : m = w
      · exact Or.inr hme
      · exact Or.inl ⟨h1, h2, hnext m h1 (by omega)⟩


/-! ### The loop of `get_regular_divide_conquer` -/

theorem dc_manage_series_spec {st : DCState} {e : ℕ} (h : DCCore st e) :
    ∃ st1, dc_manage_series st = some st1 ∧ DCCore st1 e ∧
      st1.coef_ijk = st.coef_ijk ∧ st1.coef_minjk = st.coef_minjk := by
  unfold dc_manage_series
  split_ifs with hc
  · refine ⟨{ st with series := ⟨st.series.data.drop st.ii, st.series.cap⟩, ii := 0 }, ?_, ?_, rfl, rfl⟩
    · simp [Vec.erase_front, h.ii_le]
    · exact { h with
        ii_le := Nat.zero_le _
        chain_i := by simpa [DCState.queue_i] using h.chain_i
        chain_jk := by simpa [DCState.queue_jk] using h.chain_jk }
  · exact ⟨st, rfl, h, rfl, rfl⟩

theorem tripleValue_incr_0 (c : Arr3 ℕ) :
    tripleValue (c.set 0 (c.get 0 + 1)) = 2 * tripleValue c := by
  simp only [Arr3.set, Arr3.get, tripleValue]; ring

theorem tripleValue_incr_1 (c : Arr3 ℕ) :
    tripleValue (c.set 1 (c.get 1 + 1)) = 3 * tripleValue c := by
  simp only [Arr3.set, Arr3.get, tripleValue]; ring

theorem tripleValue_incr_2 (c : Arr3 ℕ) :
    tripleValue (c.set 2 (c.get 2 + 1)) = 5 * tripleValue c := by
  simp only [Arr3.set, Arr3.get, tripleValue]; ring

/-- Reading `v[i]` right after `push_back(c)`, in terms of the queue from `i`. -/
theorem read_after_push {α : Type} (D : List α) (c : α) (i : ℕ) (hi : i ≤ D.length) :
    ∃ c0 T, (D ++ [c])[i]? = some c0 ∧ (D ++ [c]).drop (i + 1) = T ∧
      D.drop i ++ [c] = c0 :: T := by
  have hdrop : (D ++ [c]).drop i = D.drop i ++ [c] := List.drop_append_of_le_length hi
  cases hq : D.drop i ++ [c] with
  | nil => simp at hq
  | cons c0 T =>
    refine ⟨c0, T, ?_, ?_, rfl⟩
    · rw [← List.head?_drop, hdrop, hq]; rfl
    · rw [← List.tail_drop, hdrop, hq]; rfl

theorem nth_isRegular_le_of_lt_succ {t m : ℕ} (hm : IsRegular m)
    (hlt : m < Nat.nth IsRegular (t + 1)) : m ≤ Nat.nth IsRegular t :=
  Nat.le_nth_of_lt_nth_succ hlt hm

theorem dc_emit_i_spec {grow : ℕ → ℕ} {st : DCState} {t : ℕ}
    (h : DCCore st (Nat.nth IsRegular t)) (hlt : st.log_ijk < st.min_jk) :
    ∃ st', dc_emit_i grow st = some st' ∧ DCInv st' (t + 1) := by
  obtain ⟨x, hxreg, hxv, hx2, hxmin, hxe, hqs, hqm⟩ := h.chain_i
  have hcmp : 2 * x < tripleValue st.coef_minjk := by
    rw [h.log_ijk, h.min_jk, coef2log2_lt_iff, hxv] at hlt
    exact hlt
  have hnth := (next_regular_merge rfl hx2 hxreg hxmin h.min_isJK h.min_gt h.min_least).1 hcmp
  obtain ⟨hps, hpm⟩ := queue_push (P := IsRegular) (w := 2 * x) hqs hqm hxreg.two_mul hx2 hxe
    (fun m hm hlt' => nth_isRegular_le_of_lt_succ hm (hnth ▸ hlt'))
  obtain ⟨c0, T, hread, hdrop, hcons⟩ := read_after_push st.series.data st.coef_ijk st.ii h.ii_le
  have hq' : st.queue_i ++ [2 * x] = tripleValue c0 :: T.map tripleValue := by
    have := congrArg (List.map tripleValue) hcons
    simpa [DCState.queue_i, hxv] using this
  rw [hq'] at hps hpm
  obtain ⟨p1, p2, p3, p4, p5, p6⟩ := queue_pop hps hpm
  refine ⟨_, by simp only [dc_emit_i, Vec.elem, Vec.push_back, hread, Option.map_some']; rfl, ?_⟩
  refine ⟨?_, ?_⟩
  · refine
      { log_ijk := rfl
        log_jk := h.log_jk
        log_k := h.log_k
        min_jk := h.min_jk
        ii_le := ?_
        jj_le := h.jj_le
        chain_i := ?_
        min_isJK := h.min_isJK
        min_gt := by rw [hnth]; exact hcmp
        min_least := ?_
        chain_jk := h.chain_jk
        chain_k := h.chain_k }
    · have := h.ii_le
      simp only [List.length_append, List.length_singleton]
      omega
    · refine ⟨tripleValue c0, p1, tripleValue_incr_0 c0, by rw [hnth]; omega, ?_, by rw [hnth]; exact p3, ?_, ?_⟩
      · intro y hy hylt
        have := p4 y hy hylt
        rw [hnth]; omega
      · simp only [DCState.queue_i, hdrop]; exact p5
      · simp only [DCState.queue_i, hdrop, hnth]; exact p6
    · intro m hm hmlt
      have := h.min_least m hm hmlt
      rw [hnth]; omega
  · intro _
    exact ⟨st.coef_ijk, by simp [Vec.back], by rw [hnth, hxv]⟩

theorem dc_manage_jk_spec (st : DCState) (hjj : st.jj ≤ st.jk_series.data.length) :
    ∃ jk jj', dc_manage_jk st = some { st with jk_series := jk, jj := jj' } ∧
      jk.data.drop jj' = st.jk_series.data.drop st.jj ∧ jj' ≤ jk.data.length := by
  unfold dc_manage_jk
  split_ifs with hc
  · exact ⟨⟨st.jk_series.data.drop st.jj, st.jk_series.cap⟩, 0,
      by simp [Vec.erase_front, hjj], rfl, Nat.zero_le _⟩
  · exact ⟨st.jk_series, st.jj, rfl, rfl, hjj⟩

theorem dc_emit_jk_spec {grow : ℕ → ℕ} {st : DCState} {t : ℕ}
    (h : DCCore st (Nat.nth IsRegular t)) (hlt : ¬ st.log_ijk < st.min_jk) :
    ∃ st', dc_emit_jk grow st = some st' ∧ DCInv st' (t + 1) := by
  obtain ⟨x, hxreg, hxv, hx2, hxmin, hxe, hqs, hqm⟩ := h.chain_i
  obtain ⟨p, hpjk, hp3, hpv, hpM, hpmin, hpe, hjs, hjm⟩ := h.chain_jk
  obtain ⟨hk0, hk1, hkq, hkM, hkmin⟩ := h.chain_k
  have hcmp : ¬ 2 * x < tripleValue st.coef_minjk := by
    rw [h.log_ijk, h.min_jk, coef2log2_lt_iff, hxv] at hlt
    exact hlt
  obtain ⟨hnth, hM2⟩ :=
    (next_regular_merge rfl hx2 hxreg hxmin h.min_isJK h.min_gt h.min_least).2 hcmp
  have hkv : tripleValue st.coef_k = 5 ^ st.coef_k.x2 := by
    simp [tripleValue, hk0, hk1]
  have hMe := h.min_gt
  -- the queue of `series` after the push
  obtain ⟨hps, hpm⟩ := queue_push (P := IsRegular) (w := tripleValue st.coef_minjk) hqs hqm
    h.min_isJK.isRegular h.min_gt hxe
    (fun m hm hlt' => nth_isRegular_le_of_lt_succ hm (hnth ▸ hlt'))
  have hdropi : ((st.series.data ++ [st.coef_minjk]).drop st.ii).map tripleValue
      = st.queue_i ++ [tripleValue st.coef_minjk] := by
    rw [List.drop_append_of_le_length h.ii_le]
    simp [DCState.queue_i]
  have hmerge := next_jk_merge hpmin hkq hkmin
  by_cases hjk : st.log_jk < st.log_k
  · -- the next number of the jk-chain is `coef_jk`
    have hjk' : 3 * p < 5 ^ st.coef_k.x2 := by
      rw [h.log_jk, h.log_k, coef2log2_lt_iff, hpv, hkv] at hjk
      exact hjk
    have hnext := hmerge.1 hjk'
    obtain ⟨z, hzjk, hz1, hz2⟩ := hpjk.exists_between hp3
    have hzmem : z ∈ st.queue_jk := (hjm z).mpr ⟨hzjk, hz1, hnext z hzjk hz2⟩
    cases hq : st.jk_series.data.drop st.jj with
    | nil => simp [DCState.queue_jk, hq] at hzmem
    | cons c0 T =>
      have hread : st.jk_series.data[st.jj]? = some c0 := by
        rw [← List.head?_drop, hq]; rfl
      have hdrop : st.jk_series.data.drop (st.jj + 1) = T := by
        rw [← List.tail_drop, hq]; rfl
      have hqjk : st.queue_jk = tripleValue c0 :: T.map tripleValue := by
        simp [DCState.queue_jk, hq]
      rw [hqjk] at hjs hjm
      obtain ⟨p1, p2, p3, p4, p5, p6⟩ := queue_pop hjs hjm
      obtain ⟨r5, r6⟩ := queue_push (P := IsJK) (w := 3 * p) p5 p6 hpjk.three_mul hpM p3 hnext
      have hjjlt : st.jj + 1 ≤ st.jk_series.data.length := by
        have := List.getElem?_eq_some_iff.mp hread
        obtain ⟨hl, -⟩ := this
        omega
      obtain ⟨jk, jj', hman, hmd, hml⟩ := dc_manage_jk_spec
        { st with
          series := st.series.push_back grow st.coef_minjk
          coef_minjk := st.coef_jk
          coef_jk := c0.set 1 (c0.get 1 + 1)
          jj := st.jj + 1
          log_jk := coef2log2 (c0.set 1 (c0.get 1 + 1)) } hjjlt
      have hfq : ((jk.data ++ [st.coef_jk]).drop jj').map tripleValue
          = T.map tripleValue ++ [3 * p] := by
        rw [List.drop_append_of_le_length hml, hmd]
        simp only [hdrop, List.map_append, List.map_cons, List.map_nil, hpv]
      refine ⟨_, by
        simp only [dc_emit_jk, dc_advance_jk, if_pos hjk, Vec.elem, hread, Option.map_some',
          Option.some_bind, hman]; rfl, ?_⟩
      refine ⟨?_, ?_⟩
      · refine
          { log_ijk := h.log_ijk
            log_jk := rfl
            log_k := h.log_k
            min_jk := rfl
            ii_le := ?_
            jj_le := ?_
            chain_i := ?_
            min_isJK := ?_
            min_gt := ?_
            min_least := ?_
            chain_jk := ?_
            chain_k := ?_ }
        · have := h.ii_le
          simp only [Vec.push_back, List.length_append, List.length_singleton]
          omega
        · simp only [Vec.push_back, List.length_append, List.length_singleton]
          omega
        · refine ⟨x, hxreg, hxv, by rw [hnth]; exact hM2, ?_, by rw [hnth]; omega, ?_, ?_⟩
          · intro y hy hylt
            have := hxmin y hy hylt
            rw [hnth]; omega
          · simp only [DCState.queue_i, Vec.push_back, hdropi]; exact hps
          · simp only [DCState.queue_i, Vec.push_back, hdropi, hnth]; exact hpm
        · show IsJK (tripleValue st.coef_jk)
          rw [hpv]; exact hpjk.three_mul
        · show _ < tripleValue st.coef_jk
          rw [hnth, hpv]; exact hpM
        · intro m hm hmlt
          rw [hnth]
          exact hnext m hm (by simpa [hpv] using hmlt)
        · refine ⟨tripleValue c0, p1, by omega, tripleValue_incr_1 c0, ?_, ?_, ?_, ?_, ?_⟩
          · show tripleValue st.coef_jk < _
            rw [hpv]; omega
          · intro y hy hylt
            show _ ≤ tripleValue st.coef_jk
            have := p4 y hy hylt
            rw [hpv]; omega
          · show _ ≤ tripleValue st.coef_jk
            rw [hpv]; omega
          · simp only [DCState.queue_jk, Vec.push_back, hfq]; exact r5
          · simp only [DCState.queue_jk, Vec.push_back, hfq, hpv]; exact r6
        · refine ⟨hk0, hk1, hkq, ?_, ?_⟩
          · show tripleValue st.coef_jk < _
            rw [hpv]; exact hjk'
          · show 5 ^ (st.coef_k.x2 - 1) ≤ tripleValue st.coef_jk
            rw [hpv]; omega
      · intro _
        exact ⟨st.coef_minjk, by simp [Vec.back, Vec.push_back], hnth.symm⟩
  · -- the next number of the jk-chain is `coef_k`
    have hjk' : ¬ 3 * p < 5 ^ st.coef_k.x2 := by
      rw [h.log_jk, h.log_k, coef2log2_lt_iff, hpv, hkv] at hjk
      exact hjk
    obtain ⟨hlt5, hnext⟩ := hmerge.2 hjk'
    obtain ⟨r5, r6⟩ := queue_push (P := IsJK) (w := 5 ^ st.coef_k.x2) hjs hjm
      (isJK_five_pow _) hkM hpe hnext
    obtain ⟨jk, jj', hman, hmd, hml⟩ := dc_manage_jk_spec
      { st with
        series := st.series.push_back grow st.coef_minjk
        coef_minjk := st.coef_k
        coef_k := st.coef_k.set 2 (st.coef_k.get 2 + 1)
        log_k := coef2log2 (st.coef_k.set 2 (st.coef_k.get 2 + 1)) } h.jj_le
    have hfq : ((jk.data ++ [st.coef_k]).drop jj').map tripleValue
        = st.queue_jk ++ [5 ^ st.coef_k.x2] := by
      rw [List.drop_append_of_le_length hml, hmd]
      simp only [DCState.queue_jk, List.map_append, List.map_cons, List.map_nil, hkv]
    refine ⟨_, by
      simp only [dc_emit_jk, dc_advance_jk, if_neg hjk, Option.some_bind, hman,
        Option.map_some']; rfl, ?_⟩
    refine ⟨?_, ?_⟩
    · refine
        { log_ijk := h.log_ijk
          log_jk := h.log_jk
          log_k := rfl
          min_jk := rfl
          ii_le := ?_
          jj_le := ?_
          chain_i := ?_
          min_isJK := ?_
          min_gt := ?_
          min_least := ?_
          chain_jk := ?_
          chain_k := ?_ }
      · have := h.ii_le
        simp only [Vec.push_back, List.length_append, List.length_singleton]
        omega
      · simp only [Vec.push_back, List.length_append, List.length_singleton]
        omega
      · refine ⟨x, hxreg, hxv, by rw [hnth]; exact hM2, ?_, by rw [hnth]; omega, ?_, ?_⟩
        · intro y hy hylt
          have := hxmin y hy hylt
          rw [hnth]; omega
        · simp only [DCState.queue_i, Vec.push_back, hdropi]; exact hps
        · simp only [DCState.queue_i, Vec.push_back, hdropi, hnth]; exact hpm
      · show IsJK (tripleValue st.coef_k)
        rw [hkv]; exact isJK_five_pow _
      · show _ < tripleValue st.coef_k
        rw [hnth, hkv]; exact hkM
      · intro m hm hmlt
        rw [hnth]
        exact hnext m hm (by simpa [hkv] using hmlt)
      · refine ⟨p, hpjk, hp3, hpv, ?_, ?_, ?_, ?_, ?_⟩
        · show tripleValue st.coef_k < _
          rw [hkv]; exact hlt5
        · intro y hy hylt
          show _ ≤ tripleValue st.coef_k
          have := hpmin y hy hylt
          rw [hkv]; omega
        · show _ ≤ tripleValue st.coef_k
          rw [hkv]; omega
        · simp only [DCState.queue_jk, Vec.push_back, hfq]; exact r5
        · simp only [DCState.queue_jk, Vec.push_back, hfq, hkv]; exact r6
      · refine ⟨hk0, hk1, ?_, ?_, ?_⟩
        · show 1 ≤ st.coef_k.x2 + 1
          omega
        · show tripleValue st.coef_k < 5 ^ (st.coef_k.x2 + 1)
          rw [hkv, pow_succ]
          have : 0 < 5 ^ st.coef_k.x2 := by positivity
          omega
        · show 5 ^ (st.coef_k.x2 + 1 - 1) ≤ tripleValue st.coef_k
          rw [hkv]; simp
    · intro _
      exact ⟨st.coef_minjk, by simp [Vec.back, Vec.push_back], hnth.symm⟩

theorem dc_step_spec (grow : ℕ → ℕ) {st : DCState} {t : ℕ} (h : DCInv st t) :
    ∃ st', dc_step grow st = some st' ∧ DCInv st' (t + 1) := by
  obtain ⟨st1, h1, hc1, -, -⟩ := dc_manage_series_spec h.core
  unfold dc_step
  rw [h1, Option.some_bind]
  split_ifs with hlt
  · exact dc_emit_i_spec hc1 hlt
  · exact dc_emit_jk_spec hc1 hlt

theorem IsJK.eq_one_of_lt_three {m : ℕ} (h : IsJK m) (hlt : m < 3) : m = 1 := by
  obtain ⟨j, k, rfl⟩ := h
  cases j with
  | succ j =>
    have : 0 < 3 ^ j * 5 ^ k := by positivity
    have : 3 ^ (j + 1) * 5 ^ k = 3 * (3 ^ j * 5 ^ k) := by ring
    omega
  | zero =>
    cases k with
    | zero => simp
    | succ k =>
      have : 0 < 5 ^ k := by positivity
      have : 3 ^ 0 * 5 ^ (k + 1) = 5 * 5 ^ k := by ring
      omega

theorem dcInv_init (cap : ℕ) : DCInv (dc_init cap) 0 := by
  have h2 : tripleValue (dc_init cap).coef_ijk = 2 * 1 := by
    show tripleValue ⟨1, 0, 0⟩ = 2 * 1
    decide
  have h3 : tripleValue (dc_init cap).coef_minjk = 3 := by
    show tripleValue ⟨0, 1, 0⟩ = 3
    decide
  have h9 : tripleValue (dc_init cap).coef_jk = 3 * 3 := by
    show tripleValue ⟨0, 2, 0⟩ = 3 * 3
    decide
  refine ⟨?_, fun h => absurd h (lt_irrefl 0)⟩
  rw [nth_isRegular_zero]
  refine
    { log_ijk := ?_
      log_jk := ?_
      log_k := ?_
      min_jk := ?_
      ii_le := Nat.zero_le _
      jj_le := Nat.zero_le _
      chain_i := ?_
      min_isJK := ?_
      min_gt := by rw [h3]; decide
      min_least := ?_
      chain_jk := ?_
      chain_k := ?_ }
  · show (1.0 : LogVal) = coef2log2 ⟨1, 0, 0⟩
    decide
  · show (2.0 : LogVal) * lb3 = coef2log2 ⟨0, 2, 0⟩
    decide
  · show lb5 = coef2log2 ⟨0, 0, 1⟩
    decide
  · show lb3 = coef2log2 ⟨0, 1, 0⟩
    decide
  · refine ⟨1, isRegular_one, h2, by decide, ?_, le_refl 1, ?_, ?_⟩
    · intro y hy hlt
      have := hy.pos
      omega
    · simp [DCState.queue_i, dc_init, Vec.reserved]
    · intro m
      simp only [DCState.queue_i, dc_init, Vec.reserved, List.drop_nil, List.map_nil,
        List.not_mem_nil, false_iff]
      omega
  · rw [h3]; exact ⟨1, 0, by decide⟩
  · intro m hm hlt
    rw [h3] at hlt
    exact le_of_eq (hm.eq_one_of_lt_three hlt)
  · rw [h3]
    refine ⟨3, ⟨1, 0, by decide⟩, le_refl 3, h9, by decide, ?_, le_refl 3, ?_, ?_⟩
    · intro y hy hlt
      have := hy.eq_one_of_lt_three hlt
      omega
    · simp [DCState.queue_jk, dc_init, Vec.reserved]
    · intro m
      simp only [DCState.queue_jk, dc_init, Vec.reserved, List.drop_nil, List.map_nil,
        List.not_mem_nil, false_iff]
      omega
  · rw [h3]
    show (0 : ℕ) = 0 ∧ (0 : ℕ) = 0 ∧ 1 ≤ 1 ∧ 3 < 5 ^ 1 ∧ 5 ^ (1 - 1) ≤ 3
    decide

theorem dc_loop_spec (grow : ℕ → ℕ) (iters : ℕ) : ∀ (st : DCState) (t : ℕ), DCInv st t →
    ∃ st', dc_loop grow iters st = some st' ∧ DCInv st' (t + iters) := by
  induction iters with
  | zero => intro st t h; exact ⟨st, rfl, h⟩
  | succ k ih =>
    intro st t h
    obtain ⟨st1, h1, hinv1⟩ := dc_step_spec grow h
    obtain ⟨st2, h2, hinv2⟩ := ih st1 (t + 1) hinv1
    refine ⟨st2, ?_, by rwa [show t + (k + 1) = t + 1 + k by omega]⟩
    rw [dc_loop, h1, Option.some_bind, h2]

/-- For `n >= 2`, `get_regular_divide_conquer` returns the log2 value and the
exponent triple of the regular number of index `n - 1`. -/
theorem get_regular_divide_conquer_with_spec (cap : ℕ) (grow : ℕ → ℕ) (n : ℕ) (hn : 2 ≤ n) :
    ∃ l, get_regular_divide_conquer_with cap grow n = some (coef2log2 l, l) ∧
      tripleValue l = Nat.nth IsRegular (n - 1) := by
  have hit : whileNeOneIters n = n - 1 := by
    simp [whileNeOneIters]; omega
  obtain ⟨st', h1, hinv⟩ := dc_loop_spec grow (n - 1) (dc_init cap) 0 (dcInv_init cap)
  rw [Nat.zero_add] at hinv
  obtain ⟨l, hl, hv⟩ := hinv.last (by omega)
  exact ⟨l, by simp [get_regular_divide_conquer_with, hit, h1, hl], hv⟩


/-! ### `get_regular_compact` below its capacity -/

theorem compact_manage_series {st st1 : CompactState} (h : compact_manage st = some st1) :
    st1.series.cap = st.series.cap ∧ st1.series.data.length ≤ st.series.data.length := by
  unfold compact_manage at h
  split_ifs at h with hc
  · simp only [Vec.erase_front] at h
    split_ifs at h with hk
    · simp only [Option.map_some', Option.some.injEq] at h
      subst h
      simp
    · simp at h
  · simp only [Option.some.injEq] at h
    subst h
    exact ⟨rfl, le_refl _⟩

theorem compact_replace_series {current : LogVal} {st st1 : CompactState} {i : ℕ}
    (h : compact_replace current st i = some st1) : st1.series = st.series := by
  unfold compact_replace at h
  split_ifs at h with hc
  · cases hv : st.series.elem (st.series_idx.get i) with
    | none => simp [hv] at h
    | some v =>
      simp only [hv, Option.map_some', Option.some.injEq] at h
      subst h; rfl
  · simp only [Option.some.injEq] at h
    subst h; rfl

theorem compact_push_below_cap (grow : ℕ → ℕ) (st : CompactState)
    (h : st.series.data.length < st.series.cap) :
    compact_push grow st = compact_push id st := by
  simp [compact_push, Vec.push_back, h]

/-- While the vector is below its capacity, a step does not depend on how the
vector would grow, keeps the capacity and adds one element at most. -/
theorem compact_step_below_cap (grow : ℕ → ℕ) (st : CompactState)
    (h : st.series.data.length < st.series.cap) :
    compact_step grow st = compact_step id st ∧
      ∀ st', compact_step id st = some st' →
        st'.series.cap = st.series.cap ∧
          st'.series.data.length ≤ st.series.data.length + 1 := by
  unfold compact_step
  cases hm : compact_manage st with
  | none => simp
  | some st1 =>
    obtain ⟨hcap, hlen⟩ := compact_manage_series hm
    have hlt : st1.series.data.length < st1.series.cap := by omega
    simp only [Option.some_bind, compact_push_below_cap grow st1 hlt, true_and]
    intro st' hst'
    cases hb : (compact_push id st1).series.back with
    | none => simp [hb] at hst'
    | some current =>
      simp only [hb, Option.some_bind] at hst'
      cases h0 : compact_replace current (compact_push id st1) 0 with
      | none => simp [h0] at hst'
      | some s0 =>
        simp only [h0, Option.some_bind] at hst'
        cases h1 : compact_replace current s0 1 with
        | none => simp [h1] at hst'
        | some s1 =>
          simp only [h1, Option.some_bind] at hst'
          cases h2 : compact_replace current s1 2 with
          | none => simp [h2] at hst'
          | some s2 =>
            simp only [h2, Option.map_some', Option.some.injEq] at hst'
            subst hst'
            have e : s2.series = (compact_push id st1).series := by
              rw [compact_replace_series h2, compact_replace_series h1,
                compact_replace_series h0]
            show s2.series.cap = _ ∧ s2.series.data.length ≤ _
            rw [e]
            simp only [compact_push, Vec.push_back, hlt, if_true, List.length_append,
              List.length_singleton]
            omega

theorem compact_loop_below_cap (grow : ℕ → ℕ) (iters : ℕ) : ∀ st : CompactState,
    st.series.data.length + iters ≤ st.series.cap →
    compact_loop grow iters st = compact_loop id iters st := by
  induction iters with
  | zero => intro st _; rfl
  | succ k ih =>
    intro st h
    obtain ⟨h1, h2⟩ := compact_step_below_cap grow st (by omega)
    rw [compact_loop, compact_loop, h1]
    cases hs : compact_step id st with
    | none => rfl
    | some st' =>
      obtain ⟨hc, hl⟩ := h2 st' hs
      simp only [Option.some_bind]
      exact ih st' (by omega)

theorem get_regular_compact_below_cap (grow : ℕ → ℕ) (n : ℕ) (h1 : 1 ≤ n) (hn : n ≤ 65536) :
    get_regular_compact grow n = get_regular_compact id n := by
  have hit : whileNeOneIters n = n - 1 := by
    simp [whileNeOneIters]; omega
  unfold get_regular_compact get_regular_compact_with
  rw [hit, compact_loop_below_cap]
  show 0 + (n - 1) ≤ 65536
  omega


/-! ### The band scan of `get_regular_fast_geometric` -/

section GeometricScan

variable {R : Type} [LinearOrderedField R] [FloorRing R]

theorem foldl_flatMap_eq {α β σ : Type} (f : α → List β) (g : σ → β → σ) (l : List α) (s : σ) :
    (l.flatMap f).foldl g s = l.foldl (fun s a => (f a).foldl g s) s := by
  induction l generalizing s with
  | nil => rfl
  | cons a l ih => simp [List.flatMap_cons, List.foldl_append, ih]

theorem geo_inner_foldl (lb3 lb5 high low : R) (ps : List (ℕ × ℕ)) (st : GeoState R) :
    ps.foldl (fun st p => geo_inner lb3 high low (lb5 * (p.2 : R)) p.2 st p.1) st =
      ⟨st.count + (ps.map fun p => ⌊geo_twos lb3 lb5 high p⌋₊ + 1).sum,
        st.series ++ (ps.filter fun p => decide (geo_candidate lb3 lb5 high p ≥ low)).map
          (geo_candidate lb3 lb5 high),
        st.coeffs ++ (ps.filter fun p => decide (geo_candidate lb3 lb5 high p ≥ low)).map
          (geo_top lb3 lb5 high)⟩ := by
  induction ps generalizing st with
  | nil => simp
  | cons p ps ih =>
    rw [List.foldl_cons, ih]
    by_cases hc : geo_candidate lb3 lb5 high p ≥ low
    · have hc' : lb5 * (p.2 : R) + (p.1 : R) * lb3 +
          (⌊high - (lb5 * (p.2 : R) + (p.1 : R) * lb3)⌋ : R) ≥ low := hc
      simp only [geo_inner, hc', if_true, List.filter_cons, hc, decide_True, List.map_cons,
        List.sum_cons, List.append_assoc, List.singleton_append, GeoState.mk.injEq]
      refine ⟨by simp only [geo_twos]; ring, rfl, rfl⟩
    · have hc' : ¬ lb5 * (p.2 : R) + (p.1 : R) * lb3 +
          (⌊high - (lb5 * (p.2 : R) + (p.1 : R) * lb3)⌋ : R) ≥ low := hc
      simp only [geo_inner, hc', if_false, List.filter_cons, hc, decide_False, List.map_cons,
        List.sum_cons, GeoState.mk.injEq]
      refine ⟨by simp only [geo_twos]; ring, ?_, ?_⟩ <;> simp

/-- The scan in closed form: `count` sums `⌊twos⌋ + 1` over the pairs visited,
and `series`, `coeffs` hold the candidates and the triples of the pairs kept. -/
theorem geo_scan_eq (lb3 lb5 high low : R) :
    geo_scan lb3 lb5 high low =
      ⟨((geo_pairs lb3 lb5 high).map fun p => ⌊geo_twos lb3 lb5 high p⌋₊ + 1).sum,
        (geo_kept lb3 lb5 high low).map (geo_candidate lb3 lb5 high),
        (geo_kept lb3 lb5 high low).map (geo_top lb3 lb5 high)⟩ := by
  have h := geo_inner_foldl lb3 lb5 high low (geo_pairs lb3 lb5 high) ⟨0, [], []⟩
  simp only [Nat.zero_add, List.nil_append] at h
  unfold geo_kept
  rw [← h, geo_pairs, foldl_flatMap_eq]
  simp only [geo_scan, List.foldl_map]
  rfl

end GeometricScan

section GeometricPairs

variable {R : Type} [LinearOrderedField R] [FloorRing R]

/-- The loops visit exactly the pairs `(j, k)` with `k * lb5 + j * lb3 <= high`. -/
theorem mem_geo_pairs {lb3 lb5 high : R} (h3 : 0 < lb3) (h5 : 0 < lb5) (hh : 0 ≤ high)
    (p : ℕ × ℕ) :
    p ∈ geo_pairs lb3 lb5 high ↔ lb5 * (p.2 : R) + (p.1 : R) * lb3 ≤ high := by
  obtain ⟨j, k⟩ := p
  simp only [geo_pairs, List.mem_flatMap, List.mem_range, List.mem_map, Prod.mk.injEq]
  constructor
  · rintro ⟨k', hk', j', hj', rfl, rfl⟩
    have hk : (k' : R) ≤ high / lb5 :=
      (Nat.le_floor_iff (div_nonneg hh h5.le)).mp (Nat.lt_succ_iff.mp hk')
    have hk2 : lb5 * (k' : R) ≤ high := by
      rw [le_div_iff₀ h5] at hk; linarith
    have hj : (j' : R) ≤ (high - lb5 * (k' : R)) / lb3 :=
      (Nat.le_floor_iff (div_nonneg (by linarith) h3.le)).mp (Nat.lt_succ_iff.mp hj')
    rw [le_div_iff₀ h3] at hj
    linarith
  · intro h
    have hj0 : (0 : R) ≤ (j : R) * lb3 := mul_nonneg (Nat.cast_nonneg j) h3.le
    have hk0 : (0 : R) ≤ lb5 * (k : R) := mul_nonneg h5.le (Nat.cast_nonneg k)
    refine ⟨k, ?_, j, ?_, rfl, rfl⟩
    · apply Nat.lt_succ_iff.mpr
      apply (Nat.le_floor_iff (div_nonneg hh h5.le)).mpr
      rw [le_div_iff₀ h5]; linarith
    · apply Nat.lt_succ_iff.mpr
      apply (Nat.le_floor_iff (div_nonneg (by linarith) h3.le)).mpr
      rw [le_div_iff₀ h3]; linarith

theorem nodup_geo_pairs (lb3 lb5 high : R) : (geo_pairs lb3 lb5 high).Nodup := by
  unfold geo_pairs
  rw [List.nodup_flatMap]
  constructor
  · intro k _
    apply List.Nodup.map _ (List.nodup_range _)
    intro a b hab
    exact (Prod.mk.inj hab).1
  · apply List.Pairwise.imp _ (List.nodup_range _)
    intro a b hab
    simp only [Function.onFun, List.Disjoint, List.mem_map, List.mem_range]
    rintro ⟨j, k⟩ ⟨j1, -, h1⟩ ⟨j2, -, h2⟩
    exact hab ((Prod.mk.inj h1).2.trans (Prod.mk.inj h2).2.symm)

theorem geo_twos_nonneg {lb3 lb5 high : R} (h3 : 0 < lb3) (h5 : 0 < lb5) (hh : 0 ≤ high)
    {p : ℕ × ℕ} (hp : p ∈ geo_pairs lb3 lb5 high) : 0 ≤ geo_twos lb3 lb5 high p := by
  have := (mem_geo_pairs h3 h5 hh p).mp hp
  unfold geo_twos
  linarith

/-- At a visited pair the candidate is the log2 value of the triple formed. -/
theorem geo_candidate_eq {lb3 lb5 high : R} (h3 : 0 < lb3) (h5 : 0 < lb5) (hh : 0 ≤ high)
    {p : ℕ × ℕ} (hp : p ∈ geo_pairs lb3 lb5 high) :
    geo_candidate lb3 lb5 high p = tripleLog lb3 lb5 (geo_top lb3 lb5 high p) := by
  have h := natCast_floor_eq_intCast_floor (geo_twos_nonneg h3 h5 hh hp)
  simp only [geo_candidate, tripleLog, geo_top, ← h]
  ring

theorem geo_candidate_nonneg {lb3 lb5 high : R} (h3 : 0 < lb3) (h5 : 0 < lb5) (hh : 0 ≤ high)
    {p : ℕ × ℕ} (hp : p ∈ geo_pairs lb3 lb5 high) : 0 ≤ geo_candidate lb3 lb5 high p := by
  rw [geo_candidate_eq h3 h5 hh hp]
  unfold tripleLog
  positivity

theorem mem_geo_pairs_of_kept {lb3 lb5 high low : R} {p : ℕ × ℕ}
    (hp : p ∈ geo_kept lb3 lb5 high low) : p ∈ geo_pairs lb3 lb5 high :=
  (List.mem_filter.mp hp).1

theorem getD_map_eq {α β : Type} (f : α → β) (l : List α) (i : ℕ) (d : β) :
    (l.map f).getD i d = (l[i]?.map f).getD d := by
  simp [List.getD_eq_getElem?_getD]

/-- The result of `get_regular_fast_geometric` for `n >= 3`: the zero result of
the two band errors, or the candidate and the triple of a pair kept. -/
theorem get_regular_fast_geometric_cases (log2 : R → R) (pow : R → R → R) (sqrt : R → R)
    (n : ℕ) (hn : 3 ≤ n) :
    get_regular_fast_geometric log2 pow sqrt n = (0, ⟨0, 0, 0⟩) ∨
      ∃ p ∈ geo_kept (log2 3) (log2 5) (geo_high log2 pow sqrt n) (geo_low log2 pow sqrt n),
        get_regular_fast_geometric log2 pow sqrt n =
          (geo_candidate (log2 3) (log2 5) (geo_high log2 pow sqrt n) p,
            geo_top (log2 3) (log2 5) (geo_high log2 pow sqrt n) p) := by
  have h1 : ¬ n < 1 := by omega
  have h2 : ¬ n < 2 := by omega
  have h3 : ¬ n < 3 := by omega
  simp only [get_regular_fast_geometric, h1, h2, h3, if_false, geo_scan_eq]
  split_ifs with hc ht
  · exact Or.inl rfl
  · exact Or.inl rfl
  · rw [getD_map_eq, getD_map_eq]
    cases hk : (geo_kept (log2 3) (log2 5) (geo_high log2 pow sqrt n)
        (geo_low log2 pow sqrt n))[(geo_sort_idx (List.map (geo_candidate (log2 3) (log2 5)
          (geo_high log2 pow sqrt n)) (geo_kept (log2 3) (log2 5) (geo_high log2 pow sqrt n)
          (geo_low log2 pow sqrt n)))).getD ((List.map (fun p => ⌊geo_twos (log2 3) (log2 5)
          (geo_high log2 pow sqrt n) p⌋₊ + 1) (geo_pairs (log2 3) (log2 5)
          (geo_high log2 pow sqrt n))).sum - n) 0]? with
    | none => exact Or.inl rfl
    | some p => exact Or.inr ⟨p, List.getElem?_mem hk, rfl⟩

end GeometricPairs

/-! ### The band of `get_regular_fast_geometric` over the real numbers -/

theorem logb_two_three_pos : 0 < Real.logb 2 3 := by
  have := LogVal.logb_two_three_bounds.1
  linarith

theorem logb_two_five_pos : 0 < Real.logb 2 5 := by
  have := LogVal.logb_two_five_bounds.1
  linarith

theorem logb_two_sqrt_thirty_lt : Real.logb 2 (Real.sqrt 30) < 5 / 2 := by
  have h1 : Real.logb 2 (Real.sqrt 30) = Real.logb 2 30 / 2 := by
    unfold Real.logb
    rw [Real.log_sqrt (by norm_num)]
    ring
  have h2 : Real.logb 2 30 < Real.logb 2 ((2 : ℝ) ^ (5 : ℕ)) :=
    Real.logb_lt_logb (by norm_num) (by norm_num) (by norm_num)
  rw [Real.logb_pow, Real.logb_self_eq_one (by norm_num)] at h2
  rw [h1]
  push_cast at h2
  linarith

theorem geo_numerator_gt (n : ℕ) (hn : 3 ≤ n) :
    (5 : ℝ) / 2 < (6 * Real.logb 2 3 * Real.logb 2 5 * (n : ℝ)) ^ ((1 : ℝ) / 3) := by
  have l3 := LogVal.logb_two_three_bounds.1
  have l5 := LogVal.logb_two_five_bounds.1
  have hn' : (3 : ℝ) ≤ n := by exact_mod_cast hn
  have hprod : (3 : ℝ) ≤ Real.logb 2 3 * Real.logb 2 5 := by nlinarith
  have hbig : ((5 : ℝ) / 2) ^ (3 : ℕ) < 6 * Real.logb 2 3 * Real.logb 2 5 * (n : ℝ) := by
    have : (54 : ℝ) ≤ 6 * (Real.logb 2 3 * Real.logb 2 5) * (n : ℝ) := by nlinarith
    have h2 : ((5 : ℝ) / 2) ^ (3 : ℕ) < 54 := by norm_num
    linarith
  have hroot : (((5 : ℝ) / 2) ^ (3 : ℕ)) ^ ((1 : ℝ) / 3) = 5 / 2 := by
    have := Real.pow_rpow_inv_natCast (x := (5 : ℝ) / 2) (n := 3) (by norm_num) (by norm_num)
    have e : (1 : ℝ) / 3 = (((3 : ℕ) : ℝ))⁻¹ := by norm_num
    rw [e]
    exact this
  rw [← hroot]
  exact Real.rpow_lt_rpow (by positivity) hbig (by norm_num)

/-- For `n >= 3` the upper end of the band is positive. -/
theorem geo_high_pos (n : ℕ) (hn : 3 ≤ n) :
    0 < geo_high (Real.logb 2) (fun x y => x ^ y) Real.sqrt n := by
  have h1 := geo_numerator_gt n hn
  have h2 := logb_two_sqrt_thirty_lt
  have hest : 0 < (6 * Real.logb 2 3 * Real.logb 2 5 * (n : ℝ)) ^ ((1 : ℝ) / 3)
      - Real.logb 2 (Real.sqrt 30) := by linarith
  have hinv : 0 < 1 / ((6 * Real.logb 2 3 * Real.logb 2 5 * (n : ℝ)) ^ ((1 : ℝ) / 3)
      - Real.logb 2 (Real.sqrt 30)) := by positivity
  simp only [geo_high]
  linarith

/-- The result of `get_regular_fast_geometric`, over the real numbers and for
`n >= 3`, is the zero result or the log2 value and the triple of a pair kept. -/
theorem geo_real_cases (n : ℕ) (hn : 3 ≤ n) :
    get_regular_fast_geometric (Real.logb 2) (fun x y => x ^ y) Real.sqrt n = (0, ⟨0, 0, 0⟩) ∨
      ∃ c : Arr3 ℕ,
        get_regular_fast_geometric (Real.logb 2) (fun x y => x ^ y) Real.sqrt n =
          (tripleLog (Real.logb 2 3) (Real.logb 2 5) c, c) := by
  rcases get_regular_fast_geometric_cases (Real.logb 2) (fun x y => x ^ y) Real.sqrt n hn with
    h | ⟨p, hp, h⟩
  · exact Or.inl h
  · refine Or.inr ⟨geo_top (Real.logb 2 3) (Real.logb 2 5)
      (geo_high (Real.logb 2) (fun x y => x ^ y) Real.sqrt n) p, ?_⟩
    rw [h, geo_candidate_eq logb_two_three_pos logb_two_five_pos (geo_high_pos n hn).le
      (mem_geo_pairs_of_kept hp)]

theorem tripleLog_nonneg (c : Arr3 ℕ) :
    0 ≤ tripleLog (Real.logb 2 3) (Real.logb 2 5) c := by
  have := logb_two_three_pos
  have := logb_two_five_pos
  unfold tripleLog
  positivity


/-! ### Exponent triples and regular numbers -/

theorem tripleValue_factorization (t : Arr3 ℕ) :
    (tripleValue t).factorization 2 = t.x0 ∧ (tripleValue t).factorization 3 = t.x1 ∧
      (tripleValue t).factorization 5 = t.x2 := by
  have h2 : (2 : ℕ) ^ t.x0 ≠ 0 := by positivity
  have h3 : (3 : ℕ) ^ t.x1 ≠ 0 := by positivity
  have h5 : (5 : ℕ) ^ t.x2 ≠ 0 := by positivity
  have h23 : (2 : ℕ) ^ t.x0 * 3 ^ t.x1 ≠ 0 := by positivity
  have p3 : Nat.Prime 3 := Nat.prime_three
  have p5 : Nat.Prime 5 := Nat.prime_five
  unfold tripleValue
  rw [Nat.factorization_mul h23 h5, Nat.factorization_mul h2 h3,
    Nat.Prime.factorization_pow Nat.prime_two, Nat.Prime.factorization_pow p3,
    Nat.Prime.factorization_pow p5]
  simp

theorem tripleValue_injective : Function.Injective tripleValue := by
  intro t u h
  obtain ⟨a1, a2, a3⟩ := tripleValue_factorization t
  obtain ⟨b1, b2, b3⟩ := tripleValue_factorization u
  rw [h] at a1 a2 a3
  cases t; cases u
  simp only [Arr3.mk.injEq]
  exact ⟨a1.symm.trans b1, a2.symm.trans b2, a3.symm.trans b3⟩

theorem isRegular_tripleValue (t : Arr3 ℕ) : IsRegular (tripleValue t) :=
  ⟨t.x0, t.x1, t.x2, rfl⟩

theorem tripleLog_eq_logb (t : Arr3 ℕ) :
    tripleLog (Real.logb 2 3) (Real.logb 2 5) t = Real.logb 2 (tripleValue t) := by
  rw [tripleValue, LogVal.logb_two_pow_mul]
  rfl

theorem tripleLog_lt_iff (t u : Arr3 ℕ) :
    tripleLog (Real.logb 2 3) (Real.logb 2 5) t < tripleLog (Real.logb 2 3) (Real.logb 2 5) u ↔
      tripleValue t < tripleValue u := by
  rw [tripleLog_eq_logb, tripleLog_eq_logb,
    Real.logb_lt_logb_iff (by norm_num) (by exact_mod_cast tripleValue_pos t)
      (by exact_mod_cast tripleValue_pos u)]
  exact Nat.cast_lt

theorem tripleLog_injective :
    Function.Injective (tripleLog (Real.logb 2 3) (Real.logb 2 5)) := by
  intro t u h
  apply tripleValue_injective
  apply le_antisymm
  · exact not_lt.mp fun hlt => absurd h (ne_of_gt ((tripleLog_lt_iff u t).mpr hlt))
  · exact not_lt.mp fun hlt => absurd h (ne_of_lt ((tripleLog_lt_iff t u).mpr hlt))

section GeometricAllLemmas

variable {R : Type} [LinearOrderedField R] [FloorRing R]

theorem length_geo_all (lb3 lb5 high : R) :
    (geo_all lb3 lb5 high).length =
      ((geo_pairs lb3 lb5 high).map fun p => ⌊geo_twos lb3 lb5 high p⌋₊ + 1).sum := by
  unfold geo_all
  rw [List.length_flatMap]
  congr 1
  apply List.map_congr_left
  intro p _
  simp

theorem nodup_geo_all (lb3 lb5 high : R) : (geo_all lb3 lb5 high).Nodup := by
  unfold geo_all
  rw [List.nodup_flatMap]
  constructor
  · intro p _
    apply List.Nodup.map _ (List.nodup_range _)
    intro a b hab
    exact (Arr3.mk.inj hab).1
  · apply List.Pairwise.imp _ (nodup_geo_pairs lb3 lb5 high)
    intro a b hab
    simp only [Function.onFun, List.Disjoint, List.mem_map, List.mem_range]
    rintro t ⟨i1, -, h1⟩ ⟨i2, -, h2⟩
    apply hab
    have e := h1.trans h2.symm
    have e1 := (Arr3.mk.inj e).2
    exact Prod.ext e1.1 e1.2

/-- The scan counts exactly the triples whose log2 value is at most `high`. -/
theorem mem_geo_all {lb3 lb5 high : R} (h3 : 0 < lb3) (h5 : 0 < lb5) (hh : 0 ≤ high)
    (t : Arr3 ℕ) : t ∈ geo_all lb3 lb5 high ↔ tripleLog lb3 lb5 t ≤ high := by
  simp only [geo_all, List.mem_flatMap, List.mem_map, List.mem_range]
  constructor
  · rintro ⟨p, hp, i, hi, rfl⟩
    have htw := geo_twos_nonneg h3 h5 hh hp
    have hi' : (i : R) ≤ geo_twos lb3 lb5 high p :=
      (Nat.le_floor_iff htw).mp (Nat.lt_succ_iff.mp hi)
    simp only [geo_twos] at hi'
    simp only [tripleLog]
    linarith
  · intro h
    have h0 : (0 : R) ≤ (t.x0 : R) := Nat.cast_nonneg _
    simp only [tripleLog] at h
    have hp : (t.x1, t.x2) ∈ geo_pairs lb3 lb5 high :=
      (mem_geo_pairs h3 h5 hh (t.x1, t.x2)).mpr (by simp only; linarith)
    refine ⟨(t.x1, t.x2), hp, t.x0, ?_, rfl⟩
    apply Nat.lt_succ_iff.mpr
    apply (Nat.le_floor_iff (geo_twos_nonneg h3 h5 hh hp)).mpr
    simp only [geo_twos]
    linarith

/-- Every candidate is above `high - 1`. -/
theorem geo_candidate_gt (lb3 lb5 high : R) (p : ℕ × ℕ) :
    high - 1 < geo_candidate lb3 lb5 high p := by
  have := Int.lt_floor_add_one (geo_twos lb3 lb5 high p)
  simp only [geo_twos] at this
  simp only [geo_candidate, geo_twos]
  linarith

/-- A counted triple whose log2 value is above that of a kept candidate is
itself kept: it is the top triple of its pair, inside the band. -/
theorem mem_kept_of_gt {lb3 lb5 high low : R} (h3 : 0 < lb3) (h5 : 0 < lb5) (hh : 0 ≤ high)
    {p0 : ℕ × ℕ} (hp0 : p0 ∈ geo_kept lb3 lb5 high low) {t : Arr3 ℕ}
    (ht : t ∈ geo_all lb3 lb5 high)
    (hgt : geo_candidate lb3 lb5 high p0 < tripleLog lb3 lb5 t) :
    t ∈ (geo_kept lb3 lb5 high low).map (geo_top lb3 lb5 high) := by
  have hle := (mem_geo_all h3 h5 hh t).mp ht
  have h0 : (0 : R) ≤ (t.x0 : R) := Nat.cast_nonneg _
  have hp : (t.x1, t.x2) ∈ geo_pairs lb3 lb5 high := by
    apply (mem_geo_pairs h3 h5 hh (t.x1, t.x2)).mpr
    simp only [tripleLog] at hle
    simp only
    linarith
  have htw := geo_twos_nonneg h3 h5 hh hp
  have hlow : low ≤ geo_candidate lb3 lb5 high p0 := by
    have := (List.mem_filter.mp hp0).2
    simpa using this
  have hgt1 := geo_candidate_gt lb3 lb5 high p0
  have htop : t.x0 = ⌊geo_twos lb3 lb5 high (t.x1, t.x2)⌋₊ := by
    apply le_antisymm
    · apply (Nat.le_floor_iff htw).mpr
      simp only [geo_twos]
      simp only [tripleLog] at hle
      linarith
    · by_contra hc
      push_neg at hc
      have h1 : ((t.x0 + 1 : ℕ) : R) ≤ geo_twos lb3 lb5 high (t.x1, t.x2) :=
        (Nat.le_floor_iff htw).mp hc
      push_cast at h1
      simp only [geo_twos] at h1
      simp only [tripleLog] at hgt
      linarith
  have heq : geo_top lb3 lb5 high (t.x1, t.x2) = t := by
    cases t
    simp only [geo_top] at htop ⊢
    rw [← htop]
  have hc : geo_candidate lb3 lb5 high (t.x1, t.x2) = tripleLog lb3 lb5 t := by
    rw [geo_candidate_eq h3 h5 hh hp, heq]
  refine List.mem_map.mpr ⟨(t.x1, t.x2), ?_, heq⟩
  apply List.mem_filter.mpr
  refine ⟨hp, ?_⟩
  rw [hc]
  simp only [ge_iff_le, decide_eq_true_eq]
  linarith

end GeometricAllLemmas

/-! ### Sorting the indices by `series[i1] > series[i2]` -/

section SortLemmas

variable {R : Type} [LinearOrder R]

theorem sorted_orderedInsert_gt {α : Type} (key : α → R)
    [DecidableRel (fun x y : α => key x > key y)] (a : α) (l : List α)
    (hs : l.Sorted (fun x y => key x > key y)) (hd : ∀ b ∈ l, key a ≠ key b) :
    (l.orderedInsert (fun x y => key x > key y) a).Sorted (fun x y => key x > key y) := by
  induction l with
  | nil => simp
  | cons b l ih =>
    have hsc := List.sorted_cons.mp hs
    rw [List.orderedInsert]
    split_ifs with hab
    · refine List.sorted_cons.mpr ⟨?_, hs⟩
      intro x hx
      rcases List.mem_cons.mp hx with rfl | hx
      · exact hab
      · exact lt_trans (hsc.1 x hx) hab
    · refine List.sorted_cons.mpr ⟨?_, ih hsc.2 (fun x hx => hd x (List.mem_cons_of_mem _ hx))⟩
      intro x hx
      rcases (List.mem_orderedInsert _).mp hx with rfl | hx
      · have hne := hd b (List.mem_cons_self _ _)
        exact lt_of_le_of_ne (not_lt.mp hab) hne
      · exact hsc.1 x hx

theorem sorted_insertionSort_gt {α : Type} (key : α → R)
    [DecidableRel (fun x y : α => key x > key y)] (l : List α)
    (hd : l.Pairwise (fun a b => key a ≠ key b)) :
    (l.insertionSort (fun x y => key x > key y)).Sorted (fun x y => key x > key y) := by
  induction l with
  | nil => simp
  | cons a l ih =>
    have hp := List.pairwise_cons.mp hd
    rw [List.insertionSort]
    apply sorted_orderedInsert_gt key a _ (ih hp.2)
    intro b hb
    exact hp.1 b ((List.perm_insertionSort _ l).mem_iff.mp hb)

/-- In a strictly descending list, the element at position `i` has exactly `i`
elements above it. -/
theorem countP_gt_of_sorted_gt (l : List R) (hs : l.Sorted (· > ·)) (i : ℕ)
    (hi : i < l.length) : l.countP (fun x => decide (x > l[i])) = i := by
  induction l generalizing i with
  | nil => simp at hi
  | cons a l ih =>
    have hsc := List.sorted_cons.mp hs
    cases i with
    | zero =>
      simp only [List.getElem_cons_zero, List.countP_eq_zero, decide_eq_true_eq, not_lt]
      intro x hx
      rcases List.mem_cons.mp hx with rfl | hx
      · exact le_refl _
      · exact le_of_lt (hsc.1 x hx)
    | succ i =>
      have hi' : i < l.length := by simpa using hi
      have hgt : a > l[i] := hsc.1 _ (List.getElem_mem _)
      simp only [List.getElem_cons_succ, List.countP_cons, hgt, decide_True, if_true]
      rw [ih hsc.2 i hi']

theorem map_getD_range {α : Type} (l : List α) (d : α) :
    (List.range l.length).map (fun i => l.getD i d) = l := by
  apply List.ext_getElem
  · simp
  · intro i h1 h2
    simp [List.getD_eq_getElem?_getD, List.getElem?_eq_getElem h2]

/-- The position `target` of the sorted indices holds an index of `series`
whose value has exactly `target` values of `series` above it, when the values
of `series` are distinct. -/
theorem geo_sort_idx_spec {S : Type} [LinearOrderedField S] (series : List S)
    (hnd : series.Nodup) (target : ℕ) (ht : target < series.length) :
    ∃ idx, (geo_sort_idx series).getD target 0 = idx ∧ ∃ h : idx < series.length,
      series.countP (fun x => decide (x > series[idx])) = target := by
  have hperm : (geo_sort_idx series).Perm (List.range series.length) :=
    List.perm_insertionSort _ _
  have hlen : (geo_sort_idx series).length = series.length := by
    rw [hperm.length_eq, List.length_range]
  have ht' : target < (geo_sort_idx series).length := by omega
  have hget : (geo_sort_idx series).getD target 0 = (geo_sort_idx series)[target] := by
    simp [List.getD_eq_getElem?_getD, List.getElem?_eq_getElem ht']
  have hmem : (geo_sort_idx series)[target] ∈ List.range series.length :=
    hperm.mem_iff.mp (List.getElem_mem _)
  have hidx : (geo_sort_idx series)[target] < series.length := List.mem_range.mp hmem
  refine ⟨_, hget, hidx, ?_⟩
  -- the keys of the range are distinct
  have hdist : (List.range series.length).Pairwise
      (fun a b => series.getD a 0 ≠ series.getD b 0) := by
    rw [List.pairwise_iff_getElem]
    intro i j hi hj hij
    simp only [List.length_range] at hi hj
    simp only [List.getElem_range, List.getD_eq_getElem?_getD, List.getElem?_eq_getElem hi,
      List.getElem?_eq_getElem hj, Option.getD_some]
    intro heq
    have := (List.Nodup.getElem_inj_iff hnd).mp heq
    omega
  have hsorted := sorted_insertionSort_gt (fun i => series.getD i 0) (List.range series.length)
    hdist
  have hkeys : ((geo_sort_idx series).map (fun i => series.getD i 0)).Sorted (· > ·) := by
    unfold List.Sorted
    rw [List.pairwise_map]
    exact hsorted
  have hcount := countP_gt_of_sorted_gt _ hkeys target (by simpa using ht')
  have hkperm : ((geo_sort_idx series).map (fun i => series.getD i 0)).Perm series := by
    have := hperm.map (fun i => series.getD i 0)
    rwa [map_getD_range] at this
  have hval : series.getD (geo_sort_idx series)[target] 0
      = series[(geo_sort_idx series)[target]] := by
    simp [List.getD_eq_getElem?_getD, List.getElem?_eq_getElem hidx]
  simp only [List.getElem_map, hval] at hcount
  rw [← hkperm.countP_eq]
  exact hcount

end SortLemmas

/-! ### The result of `get_regular_fast_geometric` outside the band errors -/

section GeometricCount

variable {R : Type} [LinearOrderedField R] [FloorRing R]

theorem geo_top_injective (lb3 lb5 high : R) : Function.Injective (geo_top lb3 lb5 high) := by
  intro p q h
  have := (Arr3.mk.inj h).2
  exact Prod.ext this.1 this.2

theorem geo_candidate_le {lb3 lb5 high : R} (h3 : 0 < lb3) (h5 : 0 < lb5) (hh : 0 ≤ high)
    {p : ℕ × ℕ} (hp : p ∈ geo_pairs lb3 lb5 high) : geo_candidate lb3 lb5 high p ≤ high := by
  have h1 := Int.floor_le (geo_twos lb3 lb5 high p)
  have h2 := geo_twos_nonneg h3 h5 hh hp
  simp only [geo_candidate]
  simp only [geo_twos] at h1 h2 ⊢
  linarith

/-- The counted triples above a kept candidate are as many as the values of
`series` above it. -/
theorem geo_count_above {lb3 lb5 high low : R} (h3 : 0 < lb3) (h5 : 0 < lb5) (hh : 0 ≤ high)
    {p0 : ℕ × ℕ} (hp0 : p0 ∈ geo_kept lb3 lb5 high low) :
    (geo_all lb3 lb5 high).countP
        (fun t => decide (tripleLog lb3 lb5 t > geo_candidate lb3 lb5 high p0)) =
      ((geo_kept lb3 lb5 high low).map (geo_candidate lb3 lb5 high)).countP
        (fun x => decide (x > geo_candidate lb3 lb5 high p0)) := by
  have hK : (geo_kept lb3 lb5 high low).Nodup :=
    List.Nodup.filter _ (nodup_geo_pairs lb3 lb5 high)
  have hC : ((geo_kept lb3 lb5 high low).map (geo_top lb3 lb5 high)).Nodup :=
    List.Nodup.map (geo_top_injective lb3 lb5 high) hK
  have h1 : ((geo_kept lb3 lb5 high low).map (geo_candidate lb3 lb5 high)).countP
        (fun x => decide (x > geo_candidate lb3 lb5 high p0)) =
      ((geo_kept lb3 lb5 high low).map (geo_top lb3 lb5 high)).countP
        (fun t => decide (tripleLog lb3 lb5 t > geo_candidate lb3 lb5 high p0)) := by
    rw [List.countP_map, List.countP_map]
    apply List.countP_congr
    intro p hp
    simp only [Function.comp_apply,
      geo_candidate_eq h3 h5 hh (mem_geo_pairs_of_kept hp)]
  rw [h1, List.countP_eq_length_filter, List.countP_eq_length_filter]
  apply List.Perm.length_eq
  rw [List.perm_ext_iff_of_nodup (List.Nodup.filter _ (nodup_geo_all lb3 lb5 high))
    (List.Nodup.filter _ hC)]
  intro t
  simp only [List.mem_filter, decide_eq_true_eq]
  constructor
  · rintro ⟨ht, hgt⟩
    exact ⟨mem_kept_of_gt h3 h5 hh hp0 ht hgt, hgt⟩
  · rintro ⟨ht, hgt⟩
    refine ⟨?_, hgt⟩
    obtain ⟨p, hp, rfl⟩ := List.mem_map.mp ht
    have hpp := mem_geo_pairs_of_kept hp
    apply (mem_geo_all h3 h5 hh _).mpr
    rw [← geo_candidate_eq h3 h5 hh hpp]
    exact geo_candidate_le h3 h5 hh hpp

end GeometricCount

/-- A counted triple splits the counted triples into itself, those below it and
those above it. -/
theorem geo_count_split {l : List (Arr3 ℕ)} (hnd : l.Nodup) {c : Arr3 ℕ} (hc : c ∈ l) :
    l.countP (fun t => decide (tripleLog (Real.logb 2 3) (Real.logb 2 5) t
        < tripleLog (Real.logb 2 3) (Real.logb 2 5) c)) +
      l.countP (fun t => decide (tripleLog (Real.logb 2 3) (Real.logb 2 5) t
        > tripleLog (Real.logb 2 3) (Real.logb 2 5) c)) + 1 = l.length := by
  have hperm : l.Perm (c :: l.erase c) := List.perm_cons_erase hc
  have hne : ∀ t ∈ l.erase c, t ≠ c := fun t ht => (List.Nodup.mem_erase_iff hnd).mp ht |>.1
  rw [hperm.countP_eq, hperm.countP_eq, hperm.length_eq]
  simp only [List.countP_cons, lt_self_iff_false, decide_False, gt_iff_lt, List.length_cons,
    Bool.false_eq_true, if_false, Nat.add_zero]
  have hsplit := List.length_eq_countP_add_countP
    (fun t => decide (tripleLog (Real.logb 2 3) (Real.logb 2 5) t
        < tripleLog (Real.logb 2 3) (Real.logb 2 5) c)) (l.erase c)
  have hcongr : (l.erase c).countP (fun t => ! decide (tripleLog (Real.logb 2 3)
        (Real.logb 2 5) t < tripleLog (Real.logb 2 3) (Real.logb 2 5) c)) =
      (l.erase c).countP (fun t => decide (tripleLog (Real.logb 2 3) (Real.logb 2 5) c
        < tripleLog (Real.logb 2 3) (Real.logb 2 5) t)) := by
    apply List.countP_congr
    intro t ht
    have hne' : tripleLog (Real.logb 2 3) (Real.logb 2 5) t
        ≠ tripleLog (Real.logb 2 3) (Real.logb 2 5) c :=
      fun h => hne t ht (tripleLog_injective h)
    simp only [Bool.not_eq_true', decide_eq_false_iff_not, not_lt, decide_eq_true_eq]
    exact ⟨fun h => lt_of_le_of_ne h (Ne.symm hne'), le_of_lt⟩
  rw [hsplit]
  simp only [hcongr, Bool.not_eq_true, Bool.decide_eq_false] at *


/-- The regular numbers below the number of a counted triple are as many as the
counted triples with a smaller log2 value. -/
theorem geo_count_below {high : ℝ} (hh : 0 ≤ high) {c : Arr3 ℕ}
    (hc : c ∈ geo_all (Real.logb 2 3) (Real.logb 2 5) high)
    [DecidablePred IsRegular] :
    Nat.count IsRegular (tripleValue c) =
      (geo_all (Real.logb 2 3) (Real.logb 2 5) high).countP
        (fun t => decide (tripleLog (Real.logb 2 3) (Real.logb 2 5) t
          < tripleLog (Real.logb 2 3) (Real.logb 2 5) c)) := by
  have h3 := logb_two_three_pos
  have h5 := logb_two_five_pos
  have hcle := (mem_geo_all h3 h5 hh c).mp hc
  rw [Nat.count_eq_card_filter_range, List.countP_eq_length_filter,
    ← List.length_map _ tripleValue]
  have hnd : (((geo_all (Real.logb 2 3) (Real.logb 2 5) high).filter
      (fun t => decide (tripleLog (Real.logb 2 3) (Real.logb 2 5) t
          < tripleLog (Real.logb 2 3) (Real.logb 2 5) c))).map tripleValue).Nodup :=
    List.Nodup.map tripleValue_injective (List.Nodup.filter _ (nodup_geo_all _ _ _))
  rw [← List.toFinset_card_of_nodup hnd]
  congr 1
  ext m
  simp only [Finset.mem_filter, Finset.mem_range, List.mem_toFinset, List.mem_map,
    List.mem_filter, decide_eq_true_eq]
  constructor
  · rintro ⟨hlt, i, j, k, rfl⟩
    have hlt' : tripleLog (Real.logb 2 3) (Real.logb 2 5) ⟨i, j, k⟩
        < tripleLog (Real.logb 2 3) (Real.logb 2 5) c :=
      (tripleLog_lt_iff ⟨i, j, k⟩ c).mpr hlt
    exact ⟨⟨i, j, k⟩, ⟨(mem_geo_all h3 h5 hh _).mpr (by linarith), hlt'⟩, rfl⟩
  · rintro ⟨t, ⟨-, hlt⟩, rfl⟩
    exact ⟨(tripleLog_lt_iff t c).mp hlt, isRegular_tripleValue t⟩

/-- Outside the band errors and for `n >= 3`, the triple that
`get_regular_fast_geometric` returns is that of the regular number of index
`n - 1`. -/
theorem get_regular_fast_geometric_nth (n : ℕ) (hn : 3 ≤ n)
    (hne : ¬ geo_band_error (Real.logb 2) (fun x y => x ^ y) Real.sqrt n) :
    tripleValue (get_regular_fast_geometric (Real.logb 2) (fun x y => x ^ y) Real.sqrt n).2
      = Nat.nth IsRegular (n - 1) := by
  classical
  have h3 := logb_two_three_pos
  have h5 := logb_two_five_pos
  have hh := (geo_high_pos n hn).le
  have h1 : ¬ n < 1 := by omega
  have h2 : ¬ n < 2 := by omega
  have h3' : ¬ n < 3 := by omega
  simp only [geo_band_error, hn, true_and, geo_scan_eq, not_or, not_lt, ge_iff_le, gt_iff_lt,
    not_le] at hne
  obtain ⟨hcount, htarget⟩ := hne
  simp only [get_regular_fast_geometric, h1, h2, h3', if_false, geo_scan_eq, gt_iff_lt,
    ge_iff_le, not_lt.mpr hcount, not_le.mpr htarget]
  generalize hhigh : geo_high (Real.logb 2) (fun x y => x ^ y) Real.sqrt n = high at *
  generalize hlow : geo_low (Real.logb 2) (fun x y => x ^ y) Real.sqrt n = low at *
  -- the values of `series` are distinct
  have hK : (geo_kept (Real.logb 2 3) (Real.logb 2 5) high low).Nodup :=
    List.Nodup.filter _ (nodup_geo_pairs _ _ _)
  have hseries : (geo_kept (Real.logb 2 3) (Real.logb 2 5) high low).map
      (geo_candidate (Real.logb 2 3) (Real.logb 2 5) high) =
      ((geo_kept (Real.logb 2 3) (Real.logb 2 5) high low).map
        (geo_top (Real.logb 2 3) (Real.logb 2 5) high)).map
          (tripleLog (Real.logb 2 3) (Real.logb 2 5)) := by
    rw [List.map_map]
    apply List.map_congr_left
    intro p hp
    exact geo_candidate_eq h3 h5 hh (mem_geo_pairs_of_kept hp)
  have hnd : ((geo_kept (Real.logb 2 3) (Real.logb 2 5) high low).map
      (geo_candidate (Real.logb 2 3) (Real.logb 2 5) high)).Nodup := by
    rw [hseries]
    exact List.Nodup.map tripleLog_injective
      (List.Nodup.map (geo_top_injective _ _ _) hK)
  obtain ⟨idx, hidx, hlt, hcnt⟩ := geo_sort_idx_spec _ hnd _ htarget
  rw [hidx]
  have hlt' : idx < (geo_kept (Real.logb 2 3) (Real.logb 2 5) high low).length := by
    simpa using hlt
  have hp0 : (geo_kept (Real.logb 2 3) (Real.logb 2 5) high low)[idx]
      ∈ geo_kept (Real.logb 2 3) (Real.logb 2 5) high low := List.getElem_mem _
  have hpp := mem_geo_pairs_of_kept hp0
  have hres : (List.map (geo_top (Real.logb 2 3) (Real.logb 2 5) high)
      (geo_kept (Real.logb 2 3) (Real.logb 2 5) high low)).getD idx ⟨0, 0, 0⟩ =
      geo_top (Real.logb 2 3) (Real.logb 2 5) high
        (geo_kept (Real.logb 2 3) (Real.logb 2 5) high low)[idx] := by
    simp [List.getD_eq_getElem?_getD, List.getElem?_eq_getElem hlt']
  rw [hres]
  have hcand := geo_candidate_eq h3 h5 hh hpp
  simp only [List.getElem_map] at hcnt
  have hmemall : geo_top (Real.logb 2 3) (Real.logb 2 5) high
      (geo_kept (Real.logb 2 3) (Real.logb 2 5) high low)[idx]
        ∈ geo_all (Real.logb 2 3) (Real.logb 2 5) high := by
    apply (mem_geo_all h3 h5 hh _).mpr
    rw [← hcand]
    exact geo_candidate_le h3 h5 hh hpp
  have habove := geo_count_above h3 h5 hh hp0
  rw [hcnt, hcand] at habove
  have hsplit := geo_count_split (nodup_geo_all (Real.logb 2 3) (Real.logb 2 5) high) hmemall
  have hbelow := geo_count_below hh hmemall
  rw [length_geo_all] at hsplit
  have hfinal : Nat.count IsRegular (tripleValue (geo_top (Real.logb 2 3) (Real.logb 2 5) high
      (geo_kept (Real.logb 2 3) (Real.logb 2 5) high low)[idx])) = n - 1 := by
    rw [hbelow]
    simp only [gt_iff_lt] at habove hsplit
    omega
  rw [← hfinal]
  exact (Nat.nth_count (isRegular_tripleValue _)).symm

/-! ### The band for `n = 3` -/

theorem logb_two_sqrt_thirty_bounds :
    (24534 : ℝ) / 10000 < Real.logb 2 (Real.sqrt 30) ∧
      Real.logb 2 (Real.sqrt 30) < 24535 / 10000 := by
  have h1 : Real.logb 2 (Real.sqrt 30) = Real.logb 2 30 / 2 := by
    unfold Real.logb
    rw [Real.log_sqrt (by norm_num)]
    ring
  have h30 : Real.logb 2 30 = 1 + Real.logb 2 3 + Real.logb 2 5 := by
    have := LogVal.logb_two_pow_mul 1 1 1
    norm_num at this
    linarith
  obtain ⟨l3, u3⟩ := LogVal.logb_two_three_bounds
  obtain ⟨l5, u5⟩ := LogVal.logb_two_five_bounds
  rw [h1, h30]
  constructor <;> linarith

theorem geo_numerator_three_bounds :
    (404 : ℝ) / 100 < (6 * Real.logb 2 3 * Real.logb 2 5 * ((3 : ℕ) : ℝ)) ^ ((1 : ℝ) / 3) ∧
      (6 * Real.logb 2 3 * Real.logb 2 5 * ((3 : ℕ) : ℝ)) ^ ((1 : ℝ) / 3) < 405 / 100 := by
  obtain ⟨l3, u3⟩ := LogVal.logb_two_three_bounds
  obtain ⟨l5, u5⟩ := LogVal.logb_two_five_bounds
  have e : (1 : ℝ) / 3 = (((3 : ℕ) : ℝ))⁻¹ := by norm_num
  have hlo : (((404 : ℝ) / 100) ^ (3 : ℕ)) ^ ((1 : ℝ) / 3) = 404 / 100 := by
    rw [e]
    exact Real.pow_rpow_inv_natCast (by norm_num) (by norm_num)
  have hhi : (((405 : ℝ) / 100) ^ (3 : ℕ)) ^ ((1 : ℝ) / 3) = 405 / 100 := by
    rw [e]
    exact Real.pow_rpow_inv_natCast (by norm_num) (by norm_num)
  have hprod1 : (36799 : ℝ) / 10000 < Real.logb 2 3 * Real.logb 2 5 := by
    have := mul_lt_mul'' l3 l5 (by norm_num) (by norm_num)
    have h : (36799 : ℝ) / 10000 < 15849 / 10000 * (23219 / 10000) := by norm_num
    linarith
  have hprod2 : Real.logb 2 3 * Real.logb 2 5 < (36804 : ℝ) / 10000 := by
    have := mul_lt_mul'' u3 u5 (by linarith) (by linarith)
    have h : (15850 : ℝ) / 10000 * (23220 / 10000) < 36804 / 10000 := by norm_num
    linarith
  have hpos : (0 : ℝ) < 6 * Real.logb 2 3 * Real.logb 2 5 * ((3 : ℕ) : ℝ) := by
    push_cast; nlinarith
  constructor
  · rw [← hlo]
    apply Real.rpow_lt_rpow (by positivity) _ (by norm_num)
    push_cast
    have : ((404 : ℝ) / 100) ^ (3 : ℕ) < 66 := by norm_num
    nlinarith
  · rw [← hhi]
    apply Real.rpow_lt_rpow hpos.le _ (by norm_num)
    push_cast
    have : (663 : ℝ) / 10 < ((405 : ℝ) / 100) ^ (3 : ℕ) := by norm_num
    nlinarith

theorem geo_band_three :
    (22 : ℝ) / 10 < geo_high (Real.logb 2) (fun x y => x ^ y) Real.sqrt 3 ∧
      geo_high (Real.logb 2) (fun x y => x ^ y) Real.sqrt 3 < 23 / 10 ∧
      geo_low (Real.logb 2) (fun x y => x ^ y) Real.sqrt 3 < 1 := by
  obtain ⟨n1, n2⟩ := geo_numerator_three_bounds
  obtain ⟨d1, d2⟩ := logb_two_sqrt_thirty_bounds
  have he1 : (158 : ℝ) / 100 < (6 * Real.logb 2 3 * Real.logb 2 5 * ((3 : ℕ) : ℝ)) ^ ((1 : ℝ) / 3)
      - Real.logb 2 (Real.sqrt 30) := by linarith
  have he2 : (6 * Real.logb 2 3 * Real.logb 2 5 * ((3 : ℕ) : ℝ)) ^ ((1 : ℝ) / 3)
      - Real.logb 2 (Real.sqrt 30) < 160 / 100 := by linarith
  simp only [geo_high, geo_low]
  generalize (6 * Real.logb 2 3 * Real.logb 2 5 * ((3 : ℕ) : ℝ)) ^ ((1 : ℝ) / 3)
      - Real.logb 2 (Real.sqrt 30) = est at he1 he2
  have hpos : 0 < est := by linarith
  have hi1 : (100 : ℝ) / 160 < 1 / est := by
    rw [div_lt_div_iff₀ (by norm_num) hpos]; linarith
  have hi2 : 1 / est < (100 : ℝ) / 158 := by
    rw [div_lt_div_iff₀ hpos (by norm_num)]; linarith
  refine ⟨by linarith, ?_, ?_⟩
  · have : (100 : ℝ) / 158 < 64 / 100 := by norm_num
    linarith
  · have : (62 : ℝ) / 100 < 100 / 160 := by norm_num
    linarith

/-- The third term is found: `get_regular_fast_geometric 3` takes neither of the
band-error branches. -/
theorem not_geo_band_error_three :
    ¬ geo_band_error (Real.logb 2) (fun x y => x ^ y) Real.sqrt 3 := by
  obtain ⟨hh1, hh2, hlow⟩ := geo_band_three
  obtain ⟨l3, u3⟩ := LogVal.logb_two_three_bounds
  obtain ⟨l5, u5⟩ := LogVal.logb_two_five_bounds
  simp only [geo_band_error, geo_scan_eq, le_refl, true_and, not_or, not_lt, ge_iff_le,
    gt_iff_lt, not_le]
  generalize geo_high (Real.logb 2) (fun x y => x ^ y) Real.sqrt 3 = high at hh1 hh2
  generalize geo_low (Real.logb 2) (fun x y => x ^ y) Real.sqrt 3 = low at hlow
  have hk : ⌊high / Real.logb 2 5⌋₊ = 0 := by
    rw [Nat.floor_eq_zero, div_lt_one (by linarith)]
    linarith
  have hj : ⌊(high - Real.logb 2 5 * ((0 : ℕ) : ℝ)) / Real.logb 2 3⌋₊ = 1 := by
    rw [Nat.floor_eq_iff (div_nonneg (by push_cast; linarith) (by linarith))]
    push_cast
    constructor
    · rw [le_div_iff₀ (by linarith)]; linarith
    · rw [div_lt_iff₀ (by linarith)]; linarith
  have hpairs : geo_pairs (Real.logb 2 3) (Real.logb 2 5) high = [(0, 0), (1, 0)] := by
    have r1 : List.range 1 = [0] := rfl
    have r2 : List.range 2 = [0, 1] := rfl
    simp only [geo_pairs, hk, Nat.zero_add, r1, List.flatMap_cons,
      List.flatMap_nil, List.append_nil, hj, r2, List.map_cons, List.map_nil]
  have ht0 : ⌊geo_twos (Real.logb 2 3) (Real.logb 2 5) high (0, 0)⌋₊ = 2 := by
    rw [Nat.floor_eq_iff (by simp only [geo_twos]; push_cast; linarith)]
    simp only [geo_twos]
    push_cast
    constructor <;> linarith
  have ht1 : ⌊geo_twos (Real.logb 2 3) (Real.logb 2 5) high (1, 0)⌋₊ = 0 := by
    rw [Nat.floor_eq_zero]
    simp only [geo_twos]
    push_cast
    linarith
  have hc0 : geo_candidate (Real.logb 2 3) (Real.logb 2 5) high (0, 0) ≥ low := by
    have hf : ⌊geo_twos (Real.logb 2 3) (Real.logb 2 5) high (0, 0)⌋ = 2 := by
      rw [Int.floor_eq_iff]
      simp only [geo_twos]
      push_cast
      constructor <;> linarith
    simp only [geo_candidate, hf]
    push_cast
    linarith
  have hc1 : geo_candidate (Real.logb 2 3) (Real.logb 2 5) high (1, 0) ≥ low := by
    have hf : ⌊geo_twos (Real.logb 2 3) (Real.logb 2 5) high (1, 0)⌋ = 0 := by
      rw [Int.floor_eq_iff]
      simp only [geo_twos]
      push_cast
      constructor <;> linarith
    simp only [geo_candidate, hf]
    push_cast
    linarith
  have hkept : geo_kept (Real.logb 2 3) (Real.logb 2 5) high low = [(0, 0), (1, 0)] := by
    simp only [geo_kept, hpairs, List.filter_cons, hc0, hc1, decide_True, if_true,
      List.filter_nil]
  simp only [hpairs, hkept, List.map_cons, List.map_nil, ht0, ht1, List.sum_cons, List.sum_nil,
    List.length_cons, List.length_nil]
  omega


/-! ### The first fifteen regular numbers -/

theorem get_regular_set_canonical :
    ∀ i, i < 15 → get_regular_set (i + 1) = canonical15[i]? := by
  decide

theorem canonical15_le : ∀ x ∈ canonical15, x ≤ 24 := by
  decide

theorem nth_isRegular_canonical (i : ℕ) (hi : i < 15) :
    canonical15[i]? = some (Nat.nth IsRegular i) := by
  induction i with
  | zero => rw [nth_isRegular_zero]; rfl
  | succ i ih =>
    have h1 := ih (by omega)
    have hmem : Nat.nth IsRegular i ∈ canonical15 := List.getElem?_mem h1
    have hle := canonical15_le _ hmem
    have hb : Nat.nth IsRegular (i + 2 - 2) * 5 < WORD := by
      have : WORD = 2 ^ 64 := rfl
      simp only [Nat.add_sub_cancel]
      omega
    have := get_regular_set_eq_nth (i + 2) (by omega) hb
    rw [← get_regular_set_canonical (i + 1) hi]
    exact this

/-! ### The claims -/

/-- Claim C1. For `n >= 1` such that no product `smallest * 5` of the loop
exceeds `2^64 - 1` (the largest is five times the regular number of 1-based
index `n - 1`), `get_regular_set n` is the `n`-th smallest number
`2^i * 3^j * 5^k`, 1 being the first; for `n` from 1 to 15 that is
1, 2, 3, 4, 5, 6, 8, 9, 10, 12, 15, 16, 18, 20, 24. -/
theorem get_regular_set_correct (n : ℕ) (hn : 1 ≤ n)
    (hno : Nat.nth IsRegular (n - 2) * 5 < WORD) :
    get_regular_set n = some (Nat.nth IsRegular (n - 1)) ∧
      (n ≤ 15 → get_regular_set n = canonical15[n - 1]?) := by
  refine ⟨get_regular_set_eq_nth n hn hno, fun h15 => ?_⟩
  have := get_regular_set_canonical (n - 1) (by omega)
  rwa [Nat.sub_add_cancel hn] at this

theorem get_regular_set_correct_witness :
    1 ≤ 15 ∧ Nat.nth IsRegular (15 - 2) * 5 < WORD ∧
      get_regular_set 15 = some (Nat.nth IsRegular (15 - 1)) ∧
      (15 ≤ 15 → get_regular_set 15 = canonical15[15 - 1]?) := by
  have h13 : Nat.nth IsRegular 13 = 20 := by
    have := nth_isRegular_canonical 13 (by decide)
    exact (Option.some.inj this).symm
  have hno : Nat.nth IsRegular (15 - 2) * 5 < WORD := by
    rw [show 15 - 2 = 13 from rfl, h13]
    decide
  exact ⟨by decide, hno, get_regular_set_correct 15 (by decide) hno⟩

/-- Claim C2. For `n >= 2`, with exact comparisons, `get_regular_divide_conquer`
returns a pair whose exponent triple `[i, j, k]` has `2^i * 3^j * 5^k` equal to
the `n`-th smallest regular number; for `n` from 2 to 8 that is 2, 3, 4, 5, 6,
8, 9. -/
theorem get_regular_divide_conquer_correct (grow : ℕ → ℕ) (n : ℕ) (hn : 2 ≤ n) :
    ∃ v t, get_regular_divide_conquer grow n = some (v, t) ∧
      tripleValue t = Nat.nth IsRegular (n - 1) ∧
      (n ≤ 8 → canonical15[n - 1]? = some (tripleValue t)) := by
  obtain ⟨l, h1, h2⟩ := get_regular_divide_conquer_with_spec 65536 grow n hn
  refine ⟨coef2log2 l, l, h1, h2, fun h8 => ?_⟩
  rw [h2]
  exact nth_isRegular_canonical (n - 1) (by omega)

theorem get_regular_divide_conquer_correct_witness :
    2 ≤ 8 ∧ ∃ v t, get_regular_divide_conquer (fun c => 2 * c) 8 = some (v, t) ∧
      tripleValue t = Nat.nth IsRegular (8 - 1) ∧
      (8 ≤ 8 → canonical15[8 - 1]? = some (tripleValue t)) :=
  ⟨by decide, get_regular_divide_conquer_correct (fun c => 2 * c) 8 (by decide)⟩

/-- Claim C3. For `1 <= n <= 1500` and integers held exactly,
`get_regular_factor n` returns, once the loop has fuel for its
`(n-th regular number) - 1` iterations, the `n`-th positive integer in
increasing order whose only prime factors are 2, 3 and 5. -/
theorem get_regular_factor_correct (n fuel : ℕ) (hn : 1 ≤ n) (hle : n ≤ 1500)
    (hfuel : Nat.nth FiveSmooth (n - 1) ≤ fuel + 1) :
    get_regular_factor fuel n = some (Nat.nth FiveSmooth (n - 1)) := by
  rw [nth_fiveSmooth_eq] at hfuel ⊢
  exact get_regular_factor_eq_nth n fuel hn hle hfuel

theorem get_regular_factor_correct_witness :
    1 ≤ 15 ∧ 15 ≤ 1500 ∧ Nat.nth FiveSmooth (15 - 1) ≤ 23 + 1 ∧
      get_regular_factor 23 15 = some (Nat.nth FiveSmooth (15 - 1)) ∧
      Nat.nth FiveSmooth (15 - 1) = 24 := by
  have h14 : Nat.nth IsRegular 14 = 24 := by
    have h := nth_isRegular_canonical 14 (by decide)
    have e : canonical15[14]? = some 24 := by decide
    rw [e] at h
    exact (Option.some.inj h).symm
  have h24 : Nat.nth FiveSmooth (15 - 1) = 24 := by
    rw [nth_fiveSmooth_eq]
    exact h14
  have h0 : Nat.nth FiveSmooth (15 - 1) ≤ 23 + 1 := le_of_eq h24
  exact ⟨by decide, by decide, h0,
    get_regular_factor_correct 15 23 (by decide) (by decide) h0, h24⟩

/-- Claim C8. For `n >= 2`, with exact comparisons, the log2 value that
`get_regular_divide_conquer` returns for `n + 1` is strictly greater, as a real
number, than the one it returns for `n`, and so is the number of the triple. -/
theorem get_regular_divide_conquer_increasing (grow : ℕ → ℕ) (n : ℕ) (hn : 2 ≤ n) :
    ∃ v t v' t', get_regular_divide_conquer grow n = some (v, t) ∧
      get_regular_divide_conquer grow (n + 1) = some (v', t') ∧
      v < v' ∧ v.toReal < v'.toReal ∧ tripleValue t < tripleValue t' := by
  obtain ⟨l, h1, h2⟩ := get_regular_divide_conquer_with_spec 65536 grow n hn
  obtain ⟨l', h1', h2'⟩ := get_regular_divide_conquer_with_spec 65536 grow (n + 1) (by omega)
  have hlt : tripleValue l < tripleValue l' := by
    rw [h2, h2']
    exact Nat.nth_strictMono infinite_isRegular (by omega)
  have hv : coef2log2 l < coef2log2 l' := (coef2log2_lt_iff l l').mpr hlt
  exact ⟨_, _, _, _, h1, h1', hv, (LogVal.lt_iff_toReal _ _).mp hv, hlt⟩

theorem get_regular_divide_conquer_increasing_witness :
    2 ≤ 2 ∧ ∃ v t v' t', get_regular_divide_conquer (fun c => 2 * c) 2 = some (v, t) ∧
      get_regular_divide_conquer (fun c => 2 * c) (2 + 1) = some (v', t') ∧
      v < v' ∧ v.toReal < v'.toReal ∧ tripleValue t < tripleValue t' :=
  ⟨by decide, get_regular_divide_conquer_increasing (fun c => 2 * c) 2 (by decide)⟩

/-- Claim C9. With integers held exactly, `get_regular_factor n` returns the
sentinel 0 exactly for `n > 1500`, for which it returns at once (with no fuel);
for `n <= 1500` the result is a positive integer, and for `n = 0` it is 1. -/
theorem get_regular_factor_sentinel (n fuel : ℕ)
    (hfuel : Nat.nth IsRegular (n - 1) ≤ fuel + 1) :
    (get_regular_factor fuel n = some 0 ↔ 1500 < n) ∧
      (1500 < n → get_regular_factor 0 n = some 0) ∧
      (n ≤ 1500 → ∃ r, get_regular_factor fuel n = some r ∧ 0 < r) ∧
      get_regular_factor fuel 0 = some 1 := by
  have hpos : n ≤ 1500 → ∃ r, get_regular_factor fuel n = some r ∧ 0 < r := by
    intro hle
    rcases Nat.eq_zero_or_pos n with h0 | h1
    · subst h0
      exact ⟨1, get_regular_factor_zero fuel, by decide⟩
    · exact ⟨_, get_regular_factor_eq_nth n fuel h1 hle hfuel, (isRegular_nth _).pos⟩
  have hbig : ∀ f, 1500 < n → get_regular_factor f n = some 0 := by
    intro f h
    simp [get_regular_factor, h]
  refine ⟨⟨fun h => ?_, hbig fuel⟩, hbig 0, hpos, get_regular_factor_zero fuel⟩
  by_contra hc
  obtain ⟨r, hr, hr0⟩ := hpos (by omega)
  rw [hr] at h
  have : r = 0 := by simpa using h
  omega

theorem get_regular_factor_sentinel_witness :
    Nat.nth IsRegular (1501 - 1) ≤ Nat.nth IsRegular (1501 - 1) + 1 ∧
      get_regular_factor 0 1501 = some 0 :=
  ⟨Nat.le_succ _,
    (get_regular_factor_sentinel 1501 (Nat.nth IsRegular (1501 - 1)) (Nat.le_succ _)).2.1
      (by decide)⟩

theorem canonicalTriples15_value : canonicalTriples15.map tripleValue = canonical15 := by
  decide

theorem get_regular_log_set_canonical :
    ∀ i, i < 15 → get_regular_log_set (i + 1) = (canonicalTriples15[i]?).map coef2log2 := by
  decide

theorem get_regular_compact_canonical :
    ∀ i, i < 14 → get_regular_compact id (i + 2) = (canonicalTriples15[i + 1]?).map coef2log2 := by
  decide

/-- Claim C5 (the code departs from it). For `n = 1`, `get_regular_factor`,
`get_regular_set`, `get_regular_log_set` and `get_regular_fast_geometric` return
1, 1, 0.0 and (0.0, [0, 0, 0]); `get_regular_compact` and
`get_regular_divide_conquer` run their loop zero times and call `series.back()`
on the empty vector, which is undefined (`none`), not 0.0 and (0.0, [0, 0, 0]). -/
theorem first_term_results (fuel : ℕ) (grow : ℕ → ℕ) :
    get_regular_factor fuel 1 = some 1 ∧ get_regular_set 1 = some 1 ∧
      get_regular_log_set 1 = some 0.0 ∧
      get_regular_fast_geometric (Real.logb 2) (fun x y => x ^ y) Real.sqrt 1
        = (0, ⟨0, 0, 0⟩) ∧
      get_regular_compact grow 1 = none ∧ get_regular_divide_conquer grow 1 = none := by
  refine ⟨?_, by decide, by decide, ?_, rfl, rfl⟩
  · cases fuel <;> simp [get_regular_factor, get_regular_factor_loop]
  · simp [get_regular_fast_geometric]

/-- Claim C6. For `n` from 2 to 15, with exact log2 values and the tolerance
`1e-15` of the code, `get_regular_log_set` and `get_regular_compact` return the
same value, whose real number is log2 of the `n`-th term of 1, 2, 3, 4, 5, 6, 8,
9, 10, 12, 15, 16, 18, 20, 24, the term that `get_regular_set` returns. -/
theorem log_set_compact_canonical (grow : ℕ → ℕ) (n : ℕ) (h2 : 2 ≤ n) (h15 : n ≤ 15) :
    ∃ (v : LogVal) (m : ℕ), get_regular_log_set n = some v ∧
      get_regular_compact grow n = some v ∧ canonical15[n - 1]? = some m ∧
      v.toReal = Real.logb 2 m ∧ get_regular_set n = some m := by
  obtain ⟨i, rfl⟩ : ∃ i, n = i + 2 := ⟨n - 2, by omega⟩
  have hi : i + 1 < 15 := by omega
  have hlen : canonicalTriples15.length = 15 := rfl
  have ht : canonicalTriples15[i + 1]? = some (canonicalTriples15[i + 1]) :=
    List.getElem?_eq_getElem (by omega)
  have hm : canonical15[i + 1]? = some (tripleValue canonicalTriples15[i + 1]) := by
    rw [← canonicalTriples15_value, List.getElem?_map, ht]
    rfl
  refine ⟨coef2log2 canonicalTriples15[i + 1], tripleValue canonicalTriples15[i + 1],
    ?_, ?_, hm, toReal_coef2log2_eq_logb _, ?_⟩
  · rw [get_regular_log_set_canonical (i + 1) hi, ht]; rfl
  · rw [get_regular_compact_below_cap grow (i + 2) (by omega) (by omega),
      get_regular_compact_canonical i (by omega), ht]; rfl
  · rw [get_regular_set_canonical (i + 1) hi]; exact hm

theorem log_set_compact_canonical_witness :
    2 ≤ 15 ∧ 15 ≤ 15 ∧ ∃ (v : LogVal) (m : ℕ), get_regular_log_set 15 = some v ∧
      get_regular_compact (fun c => 2 * c) 15 = some v ∧ canonical15[15 - 1]? = some m ∧
      v.toReal = Real.logb 2 m ∧ get_regular_set 15 = some m :=
  ⟨by decide, by decide, log_set_compact_canonical (fun c => 2 * c) 15 (by decide) (by decide)⟩

/-- Claim C7. The log2 value and the exponent triple returned together denote
the same number: for `n >= 2` in `get_regular_divide_conquer`, and for `n >= 1`
in `get_regular_fast_geometric` over the real numbers (band-error results
included), the pair `(v, [i, j, k])` has `v = i + j * log2 3 + k * log2 5`. -/
theorem log_value_matches_triple (grow : ℕ → ℕ) (n : ℕ) :
    (2 ≤ n → ∃ v t, get_regular_divide_conquer grow n = some (v, t) ∧
      v.toReal = (t.x0 : ℝ) + (t.x1 : ℝ) * Real.logb 2 3 + (t.x2 : ℝ) * Real.logb 2 5) ∧
    (1 ≤ n → ∃ (v : ℝ) (t : Arr3 ℕ),
      get_regular_fast_geometric (Real.logb 2) (fun x y => x ^ y) Real.sqrt n = (v, t) ∧
      v = (t.x0 : ℝ) + (t.x1 : ℝ) * Real.logb 2 3 + (t.x2 : ℝ) * Real.logb 2 5) := by
  constructor
  · intro hn
    obtain ⟨l, h1, -⟩ := get_regular_divide_conquer_with_spec 65536 grow n hn
    exact ⟨coef2log2 l, l, h1, toReal_coef2log2 l⟩
  · intro hn
    rcases Nat.lt_or_ge n 3 with hlt | hge
    · rcases Nat.lt_or_ge n 2 with h1 | h2
      · have : n = 1 := by omega
        subst this
        exact ⟨0, ⟨0, 0, 0⟩, by simp [get_regular_fast_geometric], by simp⟩
      · have : n = 2 := by omega
        subst this
        exact ⟨1, ⟨1, 0, 0⟩, by simp [get_regular_fast_geometric], by simp⟩
    · rcases geo_real_cases n hge with h | ⟨c, h⟩
      · exact ⟨0, ⟨0, 0, 0⟩, h, by simp⟩
      · exact ⟨_, c, h, rfl⟩

theorem log_value_matches_triple_witness :
    (2 ≤ 2 ∧ ∃ v t, get_regular_divide_conquer (fun c => 2 * c) 2 = some (v, t) ∧
      v.toReal = (t.x0 : ℝ) + (t.x1 : ℝ) * Real.logb 2 3 + (t.x2 : ℝ) * Real.logb 2 5) ∧
    (1 ≤ 2 ∧ ∃ (v : ℝ) (t : Arr3 ℕ),
      get_regular_fast_geometric (Real.logb 2) (fun x y => x ^ y) Real.sqrt 2 = (v, t) ∧
      v = (t.x0 : ℝ) + (t.x1 : ℝ) * Real.logb 2 3 + (t.x2 : ℝ) * Real.logb 2 5) :=
  ⟨⟨by decide, (log_value_matches_triple (fun c => 2 * c) 2).1 (by decide)⟩,
    ⟨by decide, (log_value_matches_triple (fun c => 2 * c) 2).2 (by decide)⟩⟩

/-- Claim C10. Over the real numbers, `get_regular_fast_geometric 0` is the
sentinel `(-1.0, [0, 0, 0])`, and for `n >= 1` the log2 component of the result
is not negative, so the result is not that sentinel. -/
theorem get_regular_fast_geometric_sentinel (n : ℕ) :
    get_regular_fast_geometric (Real.logb 2) (fun x y => x ^ y) Real.sqrt 0
        = (-1, ⟨0, 0, 0⟩) ∧
      (1 ≤ n →
        0 ≤ (get_regular_fast_geometric (Real.logb 2) (fun x y => x ^ y) Real.sqrt n).1 ∧
        get_regular_fast_geometric (Real.logb 2) (fun x y => x ^ y) Real.sqrt n
          ≠ (-1, ⟨0, 0, 0⟩)) := by
  refine ⟨by simp [get_regular_fast_geometric], fun hn => ?_⟩
  have hnn : 0 ≤ (get_regular_fast_geometric (Real.logb 2) (fun x y => x ^ y)
      Real.sqrt n).1 := by
    rcases Nat.lt_or_ge n 3 with hlt | hge
    · rcases Nat.lt_or_ge n 2 with h1 | h2
      · have : n = 1 := by omega
        subst this
        simp [get_regular_fast_geometric]
      · have : n = 2 := by omega
        subst this
        simp [get_regular_fast_geometric]
    · rcases geo_real_cases n hge with h | ⟨c, h⟩
      · rw [h]
      · rw [h]; exact tripleLog_nonneg c
  refine ⟨hnn, fun h => ?_⟩
  rw [h] at hnn
  norm_num at hnn

theorem get_regular_fast_geometric_sentinel_witness :
    1 ≤ 2 ∧
      0 ≤ (get_regular_fast_geometric (Real.logb 2) (fun x y => x ^ y) Real.sqrt 2).1 ∧
      get_regular_fast_geometric (Real.logb 2) (fun x y => x ^ y) Real.sqrt 2
        ≠ (-1, ⟨0, 0, 0⟩) :=
  ⟨by decide, (get_regular_fast_geometric_sentinel 2).2 (by decide)⟩

/-- Claim C4. Over the real numbers and for `n >= 1`, whenever
`get_regular_fast_geometric n` takes neither of its two band-error branches,
the triple `[i, j, k]` it returns has `2^i * 3^j * 5^k` equal to the `n`-th
smallest regular number, and for `n >= 2` it is the triple that
`get_regular_divide_conquer n` returns. -/
theorem get_regular_fast_geometric_correct (n : ℕ) (hn : 1 ≤ n)
    (hne : ¬ geo_band_error (Real.logb 2) (fun x y => x ^ y) Real.sqrt n) :
    tripleValue (get_regular_fast_geometric (Real.logb 2) (fun x y => x ^ y) Real.sqrt n).2
        = Nat.nth IsRegular (n - 1) ∧
      ∀ grow : ℕ → ℕ, 2 ≤ n → ∃ v, get_regular_divide_conquer grow n =
        some (v, (get_regular_fast_geometric (Real.logb 2) (fun x y => x ^ y) Real.sqrt n).2) := by
  have hval : tripleValue (get_regular_fast_geometric (Real.logb 2) (fun x y => x ^ y)
      Real.sqrt n).2 = Nat.nth IsRegular (n - 1) := by
    rcases Nat.lt_or_ge n 3 with hlt | hge
    · rcases Nat.lt_or_ge n 2 with h1 | h2
      · have : n = 1 := by omega
        subst this
        have h0 : tripleValue (⟨0, 0, 0⟩ : Arr3 ℕ) = 1 := by decide
        simp [get_regular_fast_geometric, h0, nth_isRegular_zero]
      · have : n = 2 := by omega
        subst this
        have h0 : tripleValue (⟨1, 0, 0⟩ : Arr3 ℕ) = 2 := by decide
        have h1 : Nat.nth IsRegular 1 = 2 :=
          (Option.some.inj (nth_isRegular_canonical 1 (by decide))).symm
        simp [get_regular_fast_geometric, h0, h1]
    · exact get_regular_fast_geometric_nth n hge hne
  refine ⟨hval, fun grow h2 => ?_⟩
  obtain ⟨l, hl, hv⟩ := get_regular_divide_conquer_with_spec 65536 grow n h2
  have : l = (get_regular_fast_geometric (Real.logb 2) (fun x y => x ^ y) Real.sqrt n).2 :=
    tripleValue_injective (hv.trans hval.symm)
  exact ⟨coef2log2 l, by rw [← this]; exact hl⟩

theorem get_regular_fast_geometric_correct_witness :
    1 ≤ 3 ∧ ¬ geo_band_error (Real.logb 2) (fun x y => x ^ y) Real.sqrt 3 ∧
      (tripleValue (get_regular_fast_geometric (Real.logb 2) (fun x y => x ^ y) Real.sqrt 3).2
          = Nat.nth IsRegular (3 - 1) ∧
        ∀ grow : ℕ → ℕ, 2 ≤ 3 → ∃ v, get_regular_divide_conquer grow 3 =
          some (v, (get_regular_fast_geometric (Real.logb 2) (fun x y => x ^ y) Real.sqrt 3).2)) :=
  ⟨by decide, not_geo_band_error_three,
    get_regular_fast_geometric_correct 3 (by decide) not_geo_band_error_three⟩

/-! ### The branches of `get_regular_fast_geometric` -/

theorem geo_sort_idx_lt {R : Type} [LinearOrderedField R] (series : List R) (target : ℕ)
    (ht : target < series.length) :
    (geo_sort_idx series).getD target 0 < series.length := by
  have hperm : (geo_sort_idx series).Perm (List.range series.length) :=
    List.perm_insertionSort _ _
  have hlen : (geo_sort_idx series).length = series.length := by
    rw [hperm.length_eq, List.length_range]
  have ht' : target < (geo_sort_idx series).length := by omega
  have hget : (geo_sort_idx series).getD target 0 = (geo_sort_idx series)[target] := by
    simp [List.getD_eq_getElem?_getD, List.getElem?_eq_getElem ht']
  rw [hget]
  exact List.mem_range.mp (hperm.mem_iff.mp (List.getElem_mem _))

section GeometricBranches

variable {R : Type} [LinearOrderedField R] [FloorRing R]

/-- In a band-error branch the result is the zero result. -/
theorem geo_result_of_error (log2 : R → R) (pow : R → R → R) (sqrt : R → R) (n : ℕ)
    (he : geo_band_error log2 pow sqrt n) :
    get_regular_fast_geometric log2 pow sqrt n = (0, ⟨0, 0, 0⟩) := by
  obtain ⟨hn, he⟩ := he
  have h1 : ¬ n < 1 := by omega
  have h2 : ¬ n < 2 := by omega
  have h3 : ¬ n < 3 := by omega
  simp only [get_regular_fast_geometric, h1, h2, h3, if_false]
  rcases he with he | he
  · simp only [gt_iff_lt] at he
    simp only [gt_iff_lt, he, if_true]
  · split_ifs <;> rfl

/-- Outside the band-error branches the result is the candidate and the triple
of a pair kept by the scan. -/
theorem geo_result_of_not_error (log2 : R → R) (pow : R → R → R) (sqrt : R → R) (n : ℕ)
    (hn : 3 ≤ n) (he : ¬ geo_band_error log2 pow sqrt n) :
    ∃ p ∈ geo_kept (log2 3) (log2 5) (geo_high log2 pow sqrt n) (geo_low log2 pow sqrt n),
      get_regular_fast_geometric log2 pow sqrt n =
        (geo_candidate (log2 3) (log2 5) (geo_high log2 pow sqrt n) p,
          geo_top (log2 3) (log2 5) (geo_high log2 pow sqrt n) p) := by
  have h1 : ¬ n < 1 := by omega
  have h2 : ¬ n < 2 := by omega
  have h3 : ¬ n < 3 := by omega
  simp only [geo_band_error, hn, true_and, not_or, not_lt, ge_iff_le, gt_iff_lt, not_le] at he
  obtain ⟨hcount, htarget⟩ := he
  have hidx := geo_sort_idx_lt _ _ htarget
  simp only [get_regular_fast_geometric, h1, h2, h3, if_false, gt_iff_lt, ge_iff_le,
    not_lt.mpr hcount, not_le.mpr htarget]
  rw [geo_scan_eq] at hidx htarget ⊢
  simp only [List.length_map] at hidx
  refine ⟨(geo_kept (log2 3) (log2 5) (geo_high log2 pow sqrt n)
    (geo_low log2 pow sqrt n))[_], List.getElem_mem hidx, ?_⟩
  simp only [getD_map_eq, List.getElem?_eq_getElem hidx, Option.map_some', Option.getD_some]

/-- What the scan retains: the triples of the band `[low, high]` that lie above
`high - 1`, each once. -/
theorem mem_geo_scan_coeffs {lb3 lb5 high low : R} (h3 : 0 < lb3) (h5 : 0 < lb5)
    (hh : 0 ≤ high) (t : Arr3 ℕ) :
    t ∈ (geo_scan lb3 lb5 high low).coeffs ↔
      low ≤ tripleLog lb3 lb5 t ∧ tripleLog lb3 lb5 t ≤ high ∧
        high - 1 < tripleLog lb3 lb5 t := by
  rw [geo_scan_eq]
  simp only [List.mem_map]
  constructor
  · rintro ⟨p, hp, rfl⟩
    have hpp := mem_geo_pairs_of_kept hp
    have hlow : low ≤ geo_candidate lb3 lb5 high p := by
      simpa using (List.mem_filter.mp hp).2
    rw [← geo_candidate_eq h3 h5 hh hpp]
    exact ⟨hlow, geo_candidate_le h3 h5 hh hpp, geo_candidate_gt lb3 lb5 high p⟩
  · rintro ⟨hlow, hle, hgt⟩
    have h0 : (0 : R) ≤ (t.x0 : R) := Nat.cast_nonneg _
    have hp : (t.x1, t.x2) ∈ geo_pairs lb3 lb5 high := by
      apply (mem_geo_pairs h3 h5 hh (t.x1, t.x2)).mpr
      simp only [tripleLog] at hle
      simp only
      linarith
    have htw := geo_twos_nonneg h3 h5 hh hp
    have htop : t.x0 = ⌊geo_twos lb3 lb5 high (t.x1, t.x2)⌋₊ := by
      apply le_antisymm
      · apply (Nat.le_floor_iff htw).mpr
        simp only [geo_twos]
        simp only [tripleLog] at hle
        linarith
      · by_contra hc
        push_neg at hc
        have h1 : ((t.x0 + 1 : ℕ) : R) ≤ geo_twos lb3 lb5 high (t.x1, t.x2) :=
          (Nat.le_floor_iff htw).mp hc
        push_cast at h1
        simp only [geo_twos] at h1
        simp only [tripleLog] at hgt
        linarith
    have heq : geo_top lb3 lb5 high (t.x1, t.x2) = t := by
      cases t
      simp only [geo_top] at htop ⊢
      rw [← htop]
    refine ⟨(t.x1, t.x2), ?_, heq⟩
    apply List.mem_filter.mpr
    refine ⟨hp, ?_⟩
    rw [geo_candidate_eq h3 h5 hh hp, heq]
    simpa using hlow

theorem nodup_geo_scan_coeffs (lb3 lb5 high low : R) :
    (geo_scan lb3 lb5 high low).coeffs.Nodup := by
  rw [geo_scan_eq]
  exact List.Nodup.map (geo_top_injective lb3 lb5 high)
    (List.Nodup.filter _ (nodup_geo_pairs lb3 lb5 high))

/-- What the scan counts: the triples with a log2 value of at most `high`. -/
theorem geo_scan_count_eq {lb3 lb5 high low : R} (h3 : 0 < lb3) (h5 : 0 < lb5)
    (hh : 0 ≤ high) :
    (geo_scan lb3 lb5 high low).count =
      Set.ncard {t : Arr3 ℕ | tripleLog lb3 lb5 t ≤ high} := by
  have hset : {t : Arr3 ℕ | tripleLog lb3 lb5 t ≤ high}
      = ((geo_all lb3 lb5 high).toFinset : Set (Arr3 ℕ)) := by
    ext t
    simp [mem_geo_all h3 h5 hh]
  rw [hset, Set.ncard_coe_Finset, List.toFinset_card_of_nodup (nodup_geo_all lb3 lb5 high),
    length_geo_all, geo_scan_eq]

end GeometricBranches

theorem geo_estval_gt_one (n : ℕ) (hn : 3 ≤ n) :
    1 < (6 * Real.logb 2 3 * Real.logb 2 5 * (n : ℝ)) ^ ((1 : ℝ) / 3)
      - Real.logb 2 (Real.sqrt 30) := by
  have l3 := LogVal.logb_two_three_bounds.1
  have l5 := LogVal.logb_two_five_bounds.1
  have hn' : (3 : ℝ) ≤ n := by exact_mod_cast hn
  have hprod : (3 : ℝ) ≤ Real.logb 2 3 * Real.logb 2 5 := by nlinarith
  have hbig : ((7 : ℝ) / 2) ^ (3 : ℕ) < 6 * Real.logb 2 3 * Real.logb 2 5 * (n : ℝ) := by
    have : (54 : ℝ) ≤ 6 * (Real.logb 2 3 * Real.logb 2 5) * (n : ℝ) := by nlinarith
    have h2 : ((7 : ℝ) / 2) ^ (3 : ℕ) < 54 := by norm_num
    linarith
  have hroot : (((7 : ℝ) / 2) ^ (3 : ℕ)) ^ ((1 : ℝ) / 3) = 7 / 2 := by
    have := Real.pow_rpow_inv_natCast (x := (7 : ℝ) / 2) (n := 3) (by norm_num) (by norm_num)
    have e : (1 : ℝ) / 3 = (((3 : ℕ) : ℝ))⁻¹ := by norm_num
    rw [e]
    exact this
  have hnum : (7 : ℝ) / 2 < (6 * Real.logb 2 3 * Real.logb 2 5 * (n : ℝ)) ^ ((1 : ℝ) / 3) := by
    rw [← hroot]
    exact Real.rpow_lt_rpow (by positivity) hbig (by norm_num)
  have := logb_two_sqrt_thirty_lt
  linarith

/-- For `n >= 3` the lower end of the band is positive. -/
theorem geo_low_pos (n : ℕ) (hn : 3 ≤ n) :
    0 < geo_low (Real.logb 2) (fun x y => x ^ y) Real.sqrt n := by
  have h1 := geo_estval_gt_one n hn
  simp only [geo_low]
  generalize (6 * Real.logb 2 3 * Real.logb 2 5 * (n : ℝ)) ^ ((1 : ℝ) / 3)
      - Real.logb 2 (Real.sqrt 30) = est at h1
  have hpos : 0 < est := by linarith
  have hinv : 1 / est < 1 := by
    rw [div_lt_one hpos]; exact h1
  linarith


/-! ### `get_regular_compact`: the `manage memory` block -/

theorem Arr3.min_element_le_get (arr : Arr3 ℕ) (i : ℕ) : arr.min_element ≤ arr.get i := by
  unfold Arr3.min_element
  rcases i with _ | _ | i <;> simp only [Arr3.get] <;> split_ifs <;> omega

theorem Arr3.get_set (arr : Arr3 ℕ) (i j v : ℕ) (hi : i < 3) (hj : j < 3) :
    (arr.set i v).get j = if i = j then v else arr.get j := by
  interval_cases i <;> interval_cases j <;> simp [Arr3.get, Arr3.set]

theorem Arr3.get_ge_three {α : Type} (arr : Arr3 α) (i : ℕ) (hi : 2 ≤ i) :
    arr.get i = arr.get 2 := by
  rcases i with _ | _ | i
  · omega
  · omega
  · rfl

theorem compact_manage_sim {pre : List LogVal} {st plain : CompactState}
    (h : CompactSim pre st plain)
    (hb : ∀ j, j < 3 → st.series_idx.get j ≤ st.series.data.length) :
    ∃ st1 pre1, compact_manage st = some st1 ∧ CompactSim pre1 st1 plain ∧
      ∀ j, j < 3 → st1.series_idx.get j ≤ st1.series.data.length := by
  unfold compact_manage
  split_ifs with hc
  · have hm0 := Arr3.min_element_le_get st.series_idx 0
    have hm1 := Arr3.min_element_le_get st.series_idx 1
    have hm2 := Arr3.min_element_le_get st.series_idx 2
    have hb0 := hb 0 (by omega)
    have hb1 := hb 1 (by omega)
    have hb2 := hb 2 (by omega)
    have hml : st.series_idx.min_element ≤ st.series.data.length := le_trans hm0 hb0
    simp only [Vec.erase_front, if_pos hml, Option.map_some']
    refine ⟨_, pre ++ st.series.data.take st.series_idx.min_element, rfl, ?_, ?_⟩
    · refine ⟨h.cand, ?_, ?_⟩
      · show plain.series.data = _ ++ st.series.data.drop _
        rw [List.append_assoc, List.take_append_drop]
        exact h.data
      · intro i
        have hi := h.idx i
        rw [List.length_append, List.length_take, min_eq_left hml]
        rcases i with _ | _ | i
        · simp only [Arr3.get] at hi hm0 ⊢
          omega
        · simp only [Arr3.get] at hi hm1 ⊢
          omega
        · simp only [Arr3.get] at hi hm2 ⊢
          omega
    · intro j hj
      show _ ≤ (st.series.data.drop _).length
      rw [List.length_drop]
      interval_cases j
      · simp only [Arr3.get] at hb0 ⊢
        omega
      · simp only [Arr3.get] at hb1 ⊢
        omega
      · simp only [Arr3.get] at hb2 ⊢
        omega
  · exact ⟨st, pre, rfl, h, hb⟩

theorem compact_replace_sim {pre : List LogVal} {st plain : CompactState} (current : LogVal)
    (i : ℕ) (hi : i < 3) (h : CompactSim pre st plain)
    (hb : ∀ j, j < 3 → st.series_idx.get j + (if i ≤ j then 1 else 0) ≤ st.series.data.length) :
    ∃ s s', compact_replace current st i = some s ∧
      compact_replace current plain i = some s' ∧ CompactSim pre s s' ∧
      s.series = st.series ∧ s'.series = plain.series ∧
      ∀ j, j < 3 → s.series_idx.get j + (if i + 1 ≤ j then 1 else 0) ≤ st.series.data.length := by
  unfold compact_replace
  rw [h.cand]
  split_ifs with hc
  · have hlt : st.series_idx.get i < st.series.data.length := by
      have := hb i hi
      rw [if_pos le_rfl] at this
      omega
    have hread : plain.series.elem (plain.series_idx.get i) =
        st.series.elem (st.series_idx.get i) := by
      unfold Vec.elem
      rw [h.data, h.idx i, List.getElem?_append_right (by omega)]
      congr 1
      omega
    rw [hread]
    unfold Vec.elem
    rw [List.getElem?_eq_getElem hlt]
    refine ⟨_, _, rfl, rfl, ⟨rfl, h.data, ?_⟩, rfl, rfl, ?_⟩
    · intro j
      show (plain.series_idx.set i _).get j = (st.series_idx.set i _).get j + _
      by_cases hj : j < 3
      · rw [Arr3.get_set _ _ _ _ hi hj, Arr3.get_set _ _ _ _ hi hj, h.idx i]
        split_ifs
        · omega
        · exact h.idx j
      · rw [Arr3.get_ge_three _ j (by omega), Arr3.get_ge_three _ j (by omega),
          Arr3.get_set _ _ _ _ hi (by omega), Arr3.get_set _ _ _ _ hi (by omega), h.idx i]
        split_ifs
        · omega
        · exact h.idx 2
    · intro j hj
      show (st.series_idx.set i _).get j + _ ≤ _
      rw [Arr3.get_set _ _ _ _ hi hj]
      have := hb j hj
      split_ifs at this ⊢ <;> omega
  · refine ⟨st, plain, rfl, rfl, h, rfl, rfl, ?_⟩
    intro j hj
    have := hb j hj
    split_ifs at this ⊢ <;> omega

theorem compact_step_sim {pre : List LogVal} {st plain : CompactState} (grow grow' : ℕ → ℕ)
    (h : CompactSim pre st plain)
    (hb : ∀ j, j < 3 → st.series_idx.get j ≤ st.series.data.length) :
    ∃ pre1 s s' v, compact_step grow st = some s ∧
      compact_step_plain grow' plain = some s' ∧ CompactSim pre1 s s' ∧
      (∀ j, j < 3 → s.series_idx.get j ≤ s.series.data.length) ∧
      s.series.back = some v ∧ s'.series.back = some v := by
  obtain ⟨st1, pre1, hm, h1, hb1⟩ := compact_manage_sim h hb
  have h2 : CompactSim pre1 (compact_push grow st1) (compact_push grow' plain) := by
    refine ⟨h1.cand, ?_, h1.idx⟩
    show plain.series.data ++ [_] = pre1 ++ (st1.series.data ++ [_])
    rw [h1.data, h1.cand, List.append_assoc]
  have hlen : (compact_push grow st1).series.data.length = st1.series.data.length + 1 := by
    show (st1.series.data ++ [_]).length = _
    simp
  have hback : (compact_push grow st1).series.back = some st1.candidates.min_element := by
    show (st1.series.data ++ [_]).getLast? = _
    simp
  have hback' : (compact_push grow' plain).series.back = some st1.candidates.min_element := by
    show (plain.series.data ++ [_]).getLast? = _
    rw [h1.cand]
    simp
  have hb2 : ∀ j, j < 3 → (compact_push grow st1).series_idx.get j +
      (if 0 ≤ j then 1 else 0) ≤ (compact_push grow st1).series.data.length := by
    intro j hj
    rw [hlen, if_pos (Nat.zero_le j)]
    exact Nat.succ_le_succ (hb1 j hj)
  obtain ⟨a, a', ha, ha', hsa, hsera, hsera', hba⟩ :=
    compact_replace_sim st1.candidates.min_element 0 (by omega) h2 hb2
  rw [← hsera] at hba
  obtain ⟨b, b', hb, hb', hsb, hserb, hserb', hbb⟩ :=
    compact_replace_sim st1.candidates.min_element 1 (by omega) hsa hba
  rw [← hserb] at hbb
  obtain ⟨c, c', hc, hc', hsc, hserc, hserc', hbc⟩ :=
    compact_replace_sim st1.candidates.min_element 2 (by omega) hsb hbb
  refine ⟨pre1, { c with vec_cnt := c.vec_cnt + 1 }, { c' with vec_cnt := c'.vec_cnt + 1 },
    st1.candidates.min_element, ?_, ?_, ⟨hsc.cand, hsc.data, hsc.idx⟩, ?_, ?_, ?_⟩
  · unfold compact_step
    simp only [hm, Option.some_bind, hback, ha, hb, hc, Option.map_some']
  · unfold compact_step_plain
    simp only [hback', Option.some_bind, ha', hb', hc', Option.map_some']
  · intro j hj
    have := hbc j hj
    rw [if_neg (by omega), add_zero, ← hserc] at this
    exact this
  · show c.series.back = _
    rw [hserc, hserb, hsera, hback]
  · show c'.series.back = _
    rw [hserc', hserb', hsera', hback']

theorem compact_loop_sim (grow grow' : ℕ → ℕ) (iters : ℕ) :
    ∀ {pre : List LogVal} {st plain : CompactState}, CompactSim pre st plain →
      (∀ j, j < 3 → st.series_idx.get j ≤ st.series.data.length) →
      ∃ pre1 s s', compact_loop grow iters st = some s ∧
        compact_loop_plain grow' iters plain = some s' ∧ CompactSim pre1 s s' ∧
        (∀ j, j < 3 → s.series_idx.get j ≤ s.series.data.length) ∧
        (0 < iters → ∃ v, s.series.back = some v ∧ s'.series.back = some v) := by
  induction iters with
  | zero =>
    intro pre st plain h hb
    exact ⟨pre, st, plain, rfl, rfl, h, hb, fun h0 => absurd h0 (lt_irrefl 0)⟩
  | succ k ih =>
    intro pre st plain h hb
    obtain ⟨pre1, s, s', v, hs, hs', hsim, hbs, hv, hv'⟩ := compact_step_sim grow grow' h hb
    obtain ⟨pre2, t, t', ht, ht', hsim2, hbt, hlast⟩ := ih hsim hbs
    refine ⟨pre2, t, t', ?_, ?_, hsim2, hbt, fun _ => ?_⟩
    · simp only [compact_loop, hs, Option.some_bind, ht]
    · simp only [compact_loop_plain, hs', Option.some_bind, ht']
    · rcases Nat.eq_zero_or_pos k with hk | hk
      · subst hk
        simp only [compact_loop, Option.some.injEq] at ht
        simp only [compact_loop_plain, Option.some.injEq] at ht'
        subst ht
        subst ht'
        exact ⟨v, hv, hv'⟩
      · exact hlast hk

theorem compactSim_init (cap cap' : ℕ) :
    CompactSim [] (⟨⟨1.0, lb3, lb5⟩, ⟨0, 0, 0⟩, Vec.reserved cap, 0⟩ : CompactState)
      ⟨⟨1.0, lb3, lb5⟩, ⟨0, 0, 0⟩, Vec.reserved cap', 0⟩ :=
  ⟨rfl, rfl, fun _ => rfl⟩

theorem whileNeOneIters_pos (n : ℕ) (hn : 2 ≤ n) : 0 < whileNeOneIters n := by
  unfold whileNeOneIters
  split_ifs <;> omega

/-! ### `get_regular_divide_conquer`: the erase blocks -/

theorem read_drop_sim {α : Type} (l l' : List α) (i i' : ℕ) (hq : l'.drop i' = l.drop i) :
    l'[i']? = l[i]? ∧ l'.drop (i' + 1) = l.drop (i + 1) := by
  constructor
  · rw [← List.head?_drop, ← List.head?_drop, hq]
  · rw [← List.tail_drop, ← List.tail_drop, hq]

theorem push_drop_sim {α : Type} (l l' : List α) (i i' : ℕ) (c : α) (hi : i ≤ l.length)
    (hi' : i' ≤ l'.length) (hq : l'.drop i' = l.drop i) :
    (l' ++ [c]).drop i' = (l ++ [c]).drop i := by
  rw [List.drop_append_of_le_length hi', List.drop_append_of_le_length hi, hq]

theorem dc_manage_series_sim {st plain : DCState} (h : DCSim st plain) :
    ∃ st1, dc_manage_series st = some st1 ∧ DCSim st1 plain := by
  unfold dc_manage_series
  split_ifs with hc
  · simp only [Vec.erase_front, if_pos h.ii_le, Option.map_some']
    refine ⟨_, rfl, ?_⟩
    exact { h with
      queue_i := by
        show _ = (st.series.data.drop st.ii).drop 0
        rw [List.drop_zero]
        exact h.queue_i
      ii_le := Nat.zero_le _ }
  · exact ⟨st, rfl, h⟩

theorem dc_manage_jk_sim {st plain : DCState} (h : DCSim st plain) :
    ∃ st1, dc_manage_jk st = some st1 ∧ DCSim st1 plain ∧ st1.series = st.series ∧
      st1.coef_minjk = st.coef_minjk := by
  unfold dc_manage_jk
  split_ifs with hc
  · simp only [Vec.erase_front, if_pos h.jj_le, Option.map_some']
    refine ⟨_, rfl, ?_, rfl, rfl⟩
    exact { h with
      queue_jk := by
        show _ = (st.jk_series.data.drop st.jj).drop 0
        rw [List.drop_zero]
        exact h.queue_jk
      jj_le := Nat.zero_le _ }
  · exact ⟨st, rfl, h, rfl, rfl⟩

theorem dc_emit_i_sim {st plain : DCState} (grow grow' : ℕ → ℕ) (h : DCSim st plain) :
    ∃ s s' v, dc_emit_i grow st = some s ∧ dc_emit_i grow' plain = some s' ∧ DCSim s s' ∧
      s.series.back = some v ∧ s'.series.back = some v := by
  have hq := push_drop_sim st.series.data plain.series.data st.ii plain.ii st.coef_ijk
    h.ii_le h.ii_le_plain h.queue_i
  obtain ⟨hread, hdrop⟩ := read_drop_sim _ _ _ _ hq
  have hlt : st.ii < (st.series.data ++ [st.coef_ijk]).length := by
    rw [List.length_append, List.length_singleton]
    exact Nat.lt_succ_of_le h.ii_le
  have hsome := List.getElem?_eq_getElem hlt
  unfold dc_emit_i
  simp only [Vec.push_back, Vec.elem, h.coef_ijk, hread, hsome, Option.map_some']
  refine ⟨_, _, st.coef_ijk, rfl, rfl, ?_, ?_, ?_⟩
  · exact { h with
      coef_ijk := rfl
      log_ijk := rfl
      queue_i := hdrop
      ii_le := by
        show st.ii + 1 ≤ (st.series.data ++ [st.coef_ijk]).length
        omega
      ii_le_plain := by
        show plain.ii + 1 ≤ (plain.series.data ++ [st.coef_ijk]).length
        rw [List.length_append, List.length_singleton]
        exact Nat.succ_le_succ h.ii_le_plain }
  · show (st.series.data ++ [st.coef_ijk]).getLast? = _
    simp
  · show (plain.series.data ++ [st.coef_ijk]).getLast? = _
    simp

theorem dc_advance_jk_sim {st plain : DCState} (h : DCSim st plain) :
    (dc_advance_jk st = none ∧ dc_advance_jk plain = none) ∨
      ∃ s s', dc_advance_jk st = some s ∧ dc_advance_jk plain = some s' ∧ DCSim s s' ∧
        s.series = st.series ∧ s'.series = plain.series := by
  obtain ⟨hread, hdrop⟩ := read_drop_sim _ _ _ _ h.queue_jk
  have hcond : (plain.log_jk < plain.log_k) ↔ (st.log_jk < st.log_k) := by
    rw [h.log_jk, h.log_k]
  unfold dc_advance_jk
  by_cases hc : st.log_jk < st.log_k
  · simp only [if_pos hc, if_pos (hcond.mpr hc), Vec.elem, hread]
    rcases hget : st.jk_series.data[st.jj]? with _ | c
    · left
      exact ⟨rfl, rfl⟩
    · right
      have hlt : st.jj < st.jk_series.data.length := by
        by_contra hge
        rw [List.getElem?_eq_none (not_lt.mp hge)] at hget
        exact Option.noConfusion hget
      have hlt' : plain.jj < plain.jk_series.data.length := by
        by_contra hge
        rw [← hread, List.getElem?_eq_none (not_lt.mp hge)] at hget
        exact Option.noConfusion hget
      refine ⟨_, _, rfl, rfl, ?_, rfl, rfl⟩
      exact { h with
        coef_minjk := h.coef_jk
        coef_jk := rfl
        log_jk := rfl
        queue_jk := hdrop
        jj_le := hlt
        jj_le_plain := hlt' }
  · right
    simp only [if_neg hc, if_neg (fun hp => hc (hcond.mp hp))]
    refine ⟨_, _, rfl, rfl, ?_, rfl, rfl⟩
    exact { h with
      coef_minjk := h.coef_k
      coef_k := by
        show plain.coef_k.set 2 (plain.coef_k.get 2 + 1) = st.coef_k.set 2 (st.coef_k.get 2 + 1)
        rw [h.coef_k]
      log_k := by
        show coef2log2 (plain.coef_k.set 2 (plain.coef_k.get 2 + 1)) =
          coef2log2 (st.coef_k.set 2 (st.coef_k.get 2 + 1))
        rw [h.coef_k] }

theorem dc_emit_jk_sim {st plain : DCState} (grow grow' : ℕ → ℕ) (h : DCSim st plain) :
    (dc_emit_jk grow st = none ∧ dc_emit_jk_plain grow' plain = none) ∨
      ∃ s s' v, dc_emit_jk grow st = some s ∧ dc_emit_jk_plain grow' plain = some s' ∧
        DCSim s s' ∧ s.series.back = some v ∧ s'.series.back = some v := by
  have h1 : DCSim { st with series := st.series.push_back grow st.coef_minjk }
      { plain with series := plain.series.push_back grow' plain.coef_minjk } :=
    { h with
      queue_i := by
        show (plain.series.data ++ [plain.coef_minjk]).drop plain.ii =
          (st.series.data ++ [st.coef_minjk]).drop st.ii
        rw [h.coef_minjk]
        exact push_drop_sim _ _ _ _ _ h.ii_le h.ii_le_plain h.queue_i
      ii_le := by
        show st.ii ≤ (st.series.data ++ [st.coef_minjk]).length
        rw [List.length_append]
        exact Nat.le_add_right_of_le h.ii_le
      ii_le_plain := by
        show plain.ii ≤ (plain.series.data ++ [plain.coef_minjk]).length
        rw [List.length_append]
        exact Nat.le_add_right_of_le h.ii_le_plain }
  rcases dc_advance_jk_sim h1 with ⟨hn, hn'⟩ | ⟨a, a', ha, ha', hsa, hsera, hsera'⟩
  · left
    unfold dc_emit_jk dc_emit_jk_plain
    simp only [hn, hn', Option.none_bind, Option.map_none', and_self]
  · right
    obtain ⟨b, hb, hsb, hserb, hminb⟩ := dc_manage_jk_sim hsa
    refine ⟨{ b with jk_series := b.jk_series.push_back grow b.coef_minjk,
                     min_jk := coef2log2 b.coef_minjk },
      { a' with jk_series := a'.jk_series.push_back grow' a'.coef_minjk,
                min_jk := coef2log2 a'.coef_minjk }, st.coef_minjk, ?_, ?_, ?_, ?_, ?_⟩
    · unfold dc_emit_jk
      simp only [ha, Option.some_bind, hb, Option.map_some']
    · unfold dc_emit_jk_plain
      simp only [ha', Option.map_some']
    · exact { hsb with
        min_jk := by
          show coef2log2 a'.coef_minjk = coef2log2 b.coef_minjk
          rw [hsb.coef_minjk]
        queue_jk := by
          show (a'.jk_series.data ++ [a'.coef_minjk]).drop a'.jj =
            (b.jk_series.data ++ [b.coef_minjk]).drop b.jj
          rw [hsb.coef_minjk]
          exact push_drop_sim _ _ _ _ _ hsb.jj_le hsb.jj_le_plain hsb.queue_jk
        jj_le := by
          show b.jj ≤ (b.jk_series.data ++ [b.coef_minjk]).length
          rw [List.length_append]
          exact Nat.le_add_right_of_le hsb.jj_le
        jj_le_plain := by
          show a'.jj ≤ (a'.jk_series.data ++ [a'.coef_minjk]).length
          rw [List.length_append]
          exact Nat.le_add_right_of_le hsb.jj_le_plain }
    · show b.series.back = _
      rw [hserb, hsera]
      show (st.series.data ++ [st.coef_minjk]).getLast? = _
      simp
    · show a'.series.back = _
      rw [hsera']
      show (plain.series.data ++ [plain.coef_minjk]).getLast? = _
      rw [h.coef_minjk]
      simp

theorem dc_step_sim {st plain : DCState} (grow grow' : ℕ → ℕ) (h : DCSim st plain) :
    (dc_step grow st = none ∧ dc_step_plain grow' plain = none) ∨
      ∃ s s' v, dc_step grow st = some s ∧ dc_step_plain grow' plain = some s' ∧
        DCSim s s' ∧ s.series.back = some v ∧ s'.series.back = some v := by
  obtain ⟨st1, hm, h1⟩ := dc_manage_series_sim h
  unfold dc_step dc_step_plain
  simp only [hm, Option.some_bind, h1.log_ijk, h1.min_jk]
  split_ifs with hc
  · right
    exact dc_emit_i_sim grow grow' h1
  · exact dc_emit_jk_sim grow grow' h1

theorem dc_loop_sim (grow grow' : ℕ → ℕ) (iters : ℕ) :
    ∀ {st plain : DCState}, DCSim st plain →
      (dc_loop grow iters st = none ∧ dc_loop_plain grow' iters plain = none) ∨
        ∃ s s', dc_loop grow iters st = some s ∧ dc_loop_plain grow' iters plain = some s' ∧
          DCSim s s' ∧ (0 < iters → ∃ v, s.series.back = some v ∧ s'.series.back = some v) := by
  induction iters with
  | zero =>
    intro st plain h
    exact Or.inr ⟨st, plain, rfl, rfl, h, fun h0 => absurd h0 (lt_irrefl 0)⟩
  | succ k ih =>
    intro st plain h
    rcases dc_step_sim grow grow' h with ⟨hn, hn'⟩ | ⟨s, s', v, hs, hs', hsim, hv, hv'⟩
    · left
      simp only [dc_loop, dc_loop_plain, hn, hn', Option.none_bind, and_self]
    · rcases ih hsim with ⟨hn, hn'⟩ | ⟨t, t', ht, ht', hsim2, hlast⟩
      · left
        simp only [dc_loop, dc_loop_plain, hs, hs', Option.some_bind, hn, hn', and_self]
      · right
        refine ⟨t, t', ?_, ?_, hsim2, fun _ => ?_⟩
        · simp only [dc_loop, hs, Option.some_bind, ht]
        · simp only [dc_loop_plain, hs', Option.some_bind, ht']
        · rcases Nat.eq_zero_or_pos k with hk | hk
          · subst hk
            simp only [dc_loop, Option.some.injEq] at ht
            simp only [dc_loop_plain, Option.some.injEq] at ht'
            subst ht
            subst ht'
            exact ⟨v, hv, hv'⟩
          · exact hlast hk

theorem dcSim_init (cap_i cap_jk cap : ℕ) : DCSim (dc_init_caps cap_i cap_jk) (dc_init cap) where
  coef_ijk := rfl
  coef_jk := rfl
  coef_k := rfl
  coef_minjk := rfl
  log_ijk := rfl
  log_jk := rfl
  log_k := rfl
  min_jk := rfl
  queue_i := rfl
  queue_jk := rfl
  ii_le := Nat.le_refl _
  jj_le := Nat.le_refl _
  ii_le_plain := Nat.le_refl _
  jj_le_plain := Nat.le_refl _

theorem dc_init_caps_self (cap : ℕ) : dc_init_caps cap cap = dc_init cap := rfl

/-- The loop without the erase blocks, and the loop with them for any two
capacities, run without a failure for any number of iterations. -/
theorem dc_loop_caps_some (cap_i cap_jk cap : ℕ) (grow grow' : ℕ → ℕ) (iters : ℕ) :
    ∃ s s', dc_loop grow iters (dc_init_caps cap_i cap_jk) = some s ∧
      dc_loop_plain grow' iters (dc_init cap) = some s' ∧ DCSim s s' ∧
      (0 < iters → ∃ v, s.series.back = some v ∧ s'.series.back = some v) := by
  obtain ⟨r, hr, -⟩ := dc_loop_spec grow iters (dc_init cap) 0 (dcInv_init cap)
  have hplain : ∃ s', dc_loop_plain grow' iters (dc_init cap) = some s' := by
    have hs := dcSim_init cap cap cap
    rw [dc_init_caps_self] at hs
    rcases dc_loop_sim grow grow' iters hs with ⟨hn, -⟩ | ⟨s, s', -, hs', -, -⟩
    · rw [hr] at hn
      exact Option.noConfusion hn
    · exact ⟨s', hs'⟩
  obtain ⟨p, hp⟩ := hplain
  rcases dc_loop_sim grow grow' iters (dcSim_init cap_i cap_jk cap) with
    ⟨-, hn'⟩ | ⟨s, s', hs, hs', hsim, hlast⟩
  · rw [hp] at hn'
    exact Option.noConfusion hn'
  · exact ⟨s, s', hs, hs', hsim, hlast⟩

/-! ### The range of `int` in `get_regular_factor` -/

theorem mem_tripleBox (I J K : ℕ) (t : Arr3 ℕ) :
    t ∈ tripleBox I J K ↔ t.x0 < I ∧ t.x1 < J ∧ t.x2 < K := by
  simp only [tripleBox, List.mem_flatMap, List.mem_map, List.mem_range]
  constructor
  · rintro ⟨i, hi, j, hj, k, hk, rfl⟩
    exact ⟨hi, hj, hk⟩
  · rintro ⟨hi, hj, hk⟩
    exact ⟨t.x0, hi, t.x1, hj, t.x2, hk, rfl⟩

theorem nodup_tripleBox (I J K : ℕ) : (tripleBox I J K).Nodup := by
  unfold tripleBox
  rw [List.nodup_flatMap]
  constructor
  · intro i _
    rw [List.nodup_flatMap]
    constructor
    · intro j _
      apply List.Nodup.map _ (List.nodup_range _)
      intro a b hab
      exact (Arr3.mk.inj hab).2.2
    · apply List.Pairwise.imp _ (List.nodup_range _)
      intro a b hab
      simp only [Function.onFun, List.Disjoint, List.mem_map, List.mem_range]
      rintro t ⟨k1, -, h1⟩ ⟨k2, -, h2⟩
      exact hab (Arr3.mk.inj (h1.trans h2.symm)).2.1
  · apply List.Pairwise.imp _ (List.nodup_range _)
    intro a b hab
    simp only [Function.onFun, List.Disjoint, List.mem_flatMap, List.mem_map, List.mem_range]
    rintro t ⟨j1, -, k1, -, h1⟩ ⟨j2, -, k2, -, h2⟩
    exact hab (Arr3.mk.inj (h1.trans h2.symm)).1

theorem lt_of_pow_le_tripleValue {N I J K : ℕ} (hI : N ≤ 2 ^ I) (hJ : N ≤ 3 ^ J)
    (hK : N ≤ 5 ^ K) (t : Arr3 ℕ) (ht : tripleValue t < N) :
    t.x0 < I ∧ t.x1 < J ∧ t.x2 < K := by
  have p2 : 0 < 2 ^ t.x0 := Nat.pow_pos (by norm_num)
  have p3 : 0 < 3 ^ t.x1 := Nat.pow_pos (by norm_num)
  have p5 : 0 < 5 ^ t.x2 := Nat.pow_pos (by norm_num)
  have h2 : 2 ^ t.x0 ≤ tripleValue t := by
    unfold tripleValue
    calc 2 ^ t.x0 = 2 ^ t.x0 * 1 * 1 := by ring
      _ ≤ 2 ^ t.x0 * 3 ^ t.x1 * 5 ^ t.x2 :=
        Nat.mul_le_mul (Nat.mul_le_mul le_rfl p3) p5
  have h3 : 3 ^ t.x1 ≤ tripleValue t := by
    unfold tripleValue
    calc 3 ^ t.x1 = 1 * 3 ^ t.x1 * 1 := by ring
      _ ≤ 2 ^ t.x0 * 3 ^ t.x1 * 5 ^ t.x2 :=
        Nat.mul_le_mul (Nat.mul_le_mul p2 le_rfl) p5
  have h5 : 5 ^ t.x2 ≤ tripleValue t := by
    unfold tripleValue
    calc 5 ^ t.x2 = 1 * 1 * 5 ^ t.x2 := by ring
      _ ≤ 2 ^ t.x0 * 3 ^ t.x1 * 5 ^ t.x2 :=
        Nat.mul_le_mul (Nat.mul_le_mul p2 p3) le_rfl
  refine ⟨?_, ?_, ?_⟩
  · exact (Nat.pow_lt_pow_iff_right (show 1 < 2 by norm_num)).mp
      (lt_of_le_of_lt h2 (lt_of_lt_of_le ht hI))
  · exact (Nat.pow_lt_pow_iff_right (show 1 < 3 by norm_num)).mp
      (lt_of_le_of_lt h3 (lt_of_lt_of_le ht hJ))
  · exact (Nat.pow_lt_pow_iff_right (show 1 < 5 by norm_num)).mp
      (lt_of_le_of_lt h5 (lt_of_lt_of_le ht hK))

/-- The regular numbers below `N` are as many as the triples of a box that holds
them all whose number is below `N`. -/
theorem count_isRegular_eq_box [DecidablePred IsRegular] {N I J K : ℕ} (hI : N ≤ 2 ^ I)
    (hJ : N ≤ 3 ^ J) (hK : N ≤ 5 ^ K) :
    Nat.count IsRegular N =
      ((tripleBox I J K).filter (fun t => decide (tripleValue t < N))).length := by
  rw [Nat.count_eq_card_filter_range, ← List.length_map _ tripleValue]
  have hnd : (((tripleBox I J K).filter (fun t => decide (tripleValue t < N))).map
      tripleValue).Nodup :=
    List.Nodup.map tripleValue_injective (List.Nodup.filter _ (nodup_tripleBox I J K))
  rw [← List.toFinset_card_of_nodup hnd]
  congr 1
  ext m
  simp only [Finset.mem_filter, Finset.mem_range, List.mem_toFinset, List.mem_map,
    List.mem_filter, decide_eq_true_eq]
  constructor
  · rintro ⟨hlt, i, j, k, rfl⟩
    exact ⟨⟨i, j, k⟩, ⟨(mem_tripleBox I J K _).mpr
      (lt_of_pow_le_tripleValue hI hJ hK ⟨i, j, k⟩ hlt), hlt⟩, rfl⟩
  · rintro ⟨t, ⟨-, hlt⟩, rfl⟩
    exact ⟨hlt, isRegular_tripleValue t⟩

set_option maxRecDepth 100000 in
theorem box_count_1500 :
    ((tripleBox 30 19 13).filter (fun t => decide (tripleValue t < 859963392))).length
      = 1499 := by
  decide!

/-- The regular number of index 1499, the 1500-th, is 859963392. -/
theorem nth_isRegular_1499 : Nat.nth IsRegular 1499 = 859963392 := by
  classical
  have hreg : IsRegular 859963392 := ⟨17, 8, 0, by norm_num⟩
  have hcount : Nat.count IsRegular 859963392 = 1499 := by
    rw [count_isRegular_eq_box (show 859963392 ≤ 2 ^ 30 by norm_num)
      (show 859963392 ≤ 3 ^ 19 by norm_num) (show 859963392 ≤ 5 ^ 13 by norm_num)]
    exact box_count_1500
  rw [← hcount]
  exact Nat.nth_count hreg

theorem get_regular_factor_states_bound (n : ℕ) (hn : n ≤ 1500) :
    ∀ (fuel : ℕ) (series : List ℕ) (num : ℕ), FactorInv series num →
      (∀ x ∈ series, x < num) → num ≤ 859963393 →
      ∀ s ∈ get_regular_factor_states n fuel series num,
        s.2 ≤ 859963393 ∧ ∀ x ∈ s.1, x < s.2 := by
  intro fuel
  induction fuel with
  | zero =>
    intro series num _ hser hnum s hs
    simp only [get_regular_factor_states, List.mem_singleton] at hs
    subst hs
    exact ⟨hnum, hser⟩
  | succ f ih =>
    intro series num hinv hser hnum s hs
    rw [get_regular_factor_states, List.mem_cons] at hs
    rcases hs with hs | hs
    · subst hs
      exact ⟨hnum, hser⟩
    · by_cases hc : series.length < n
      · rw [if_pos hc] at hs
        obtain ⟨t, ht, hlast, hlt, hall⟩ := hinv
        have h1 : Nat.nth IsRegular (t + 1) ≤ Nat.nth IsRegular 1499 :=
          Nat.nth_monotone infinite_isRegular (by omega)
        have h3 : ¬ Nat.nth IsRegular (t + 1) < num := fun h =>
          absurd (hall _ (isRegular_nth _) h)
            (not_le.mpr (Nat.nth_strictMono infinite_isRegular (Nat.lt_succ_self t)))
        rw [nth_isRegular_1499] at h1
        have hpos : 0 < num := by omega
        obtain ⟨a, b, c, r, hf, -⟩ := factor_spec num hpos
        rw [hf] at hs
        simp only at hs
        have hser' : ∀ x ∈ (if r = 1 then series ++ [num] else series), x < num + 1 := by
          intro x hx
          split_ifs at hx with hr
          · rcases List.mem_append.mp hx with hx | hx
            · exact Nat.lt_succ_of_lt (hser x hx)
            · rw [List.mem_singleton.mp hx]
              exact Nat.lt_succ_self _
          · exact Nat.lt_succ_of_lt (hser x hx)
        have hinv' : FactorInv (if r = 1 then series ++ [num] else series) (num + 1) := by
          by_cases hr : r = 1
          · rw [if_pos hr]
            have hreg : IsRegular num := (factor_eq_one_iff num hpos).mp (by rw [hf, hr])
            have hnth : Nat.nth IsRegular (t + 1) = num := by
              apply nth_isRegular_succ hreg hlt
              intro m hm hgt
              by_contra hcon
              exact absurd (hall m hm (not_le.mp hcon)) (not_le.mpr hgt)
            refine ⟨t + 1, by simp [ht], by simp [hnth], by omega, ?_⟩
            intro m hm hmlt
            rw [hnth]
            omega
          · rw [if_neg hr]
            have hnreg : ¬ IsRegular num := fun hreg =>
              hr (by
                have := (factor_eq_one_iff num hpos).mpr hreg
                rw [hf] at this
                exact Option.some.inj this)
            refine ⟨t, ht, hlast, by omega, ?_⟩
            intro m hm hmlt
            rcases Nat.lt_succ_iff_lt_or_eq.mp hmlt with h | h
            · exact hall m hm h
            · subst h
              exact absurd hm hnreg
        exact ih _ _ hinv' hser' (by omega) s hs
      · rw [if_neg hc] at hs
        exact absurd hs (List.not_mem_nil s)

theorem get_regular_factor_loop_mem_states (n : ℕ) :
    ∀ (fuel : ℕ) (series : List ℕ) (num : ℕ) (st : List ℕ × ℕ),
      get_regular_factor_loop n fuel series num = some st →
      st ∈ get_regular_factor_states n fuel series num := by
  intro fuel
  induction fuel with
  | zero =>
    intro series num st h
    simp only [get_regular_factor_loop] at h
    split_ifs at h
    simp only [Option.some.injEq] at h
    subst h
    simp [get_regular_factor_states]
  | succ f ih =>
    intro series num st h
    rw [get_regular_factor_loop] at h
    rw [get_regular_factor_states]
    split_ifs at h ⊢ with hc
    · rcases hf : factor num with _ | r
      · rw [hf] at h
        exact Option.noConfusion h
      · rw [hf] at h
        simp only at h ⊢
        exact List.mem_cons_of_mem _ (ih _ _ _ h)
    · simp only [Option.some.injEq] at h
      subst h
      exact List.mem_cons_self _ _

/-- Claim C11. Over the real numbers and for `n >= 3`,
`get_regular_fast_geometric n` returns the zero result `(0.0, [0, 0, 0])`
exactly when `n > count` or the target index `count - n` is not below the number
of retained triples; otherwise it returns a retained triple with its log2
value, which is at least `low` and positive. -/
theorem geo_zero_result_iff (n : ℕ) (hn : 3 ≤ n) :
    (get_regular_fast_geometric (Real.logb 2) (fun x y => x ^ y) Real.sqrt n = (0, ⟨0, 0, 0⟩) ↔
      geo_band_error (Real.logb 2) (fun x y => x ^ y) Real.sqrt n) ∧
    (geo_band_error (Real.logb 2) (fun x y => x ^ y) Real.sqrt n ↔
      (n > (geo_scan (Real.logb 2 3) (Real.logb 2 5)
          (geo_high (Real.logb 2) (fun x y => x ^ y) Real.sqrt n)
          (geo_low (Real.logb 2) (fun x y => x ^ y) Real.sqrt n)).count ∨
        (geo_scan (Real.logb 2 3) (Real.logb 2 5)
          (geo_high (Real.logb 2) (fun x y => x ^ y) Real.sqrt n)
          (geo_low (Real.logb 2) (fun x y => x ^ y) Real.sqrt n)).count - n ≥
        (geo_scan (Real.logb 2 3) (Real.logb 2 5)
          (geo_high (Real.logb 2) (fun x y => x ^ y) Real.sqrt n)
          (geo_low (Real.logb 2) (fun x y => x ^ y) Real.sqrt n)).series.length)) ∧
    (¬ geo_band_error (Real.logb 2) (fun x y => x ^ y) Real.sqrt n →
      (get_regular_fast_geometric (Real.logb 2) (fun x y => x ^ y) Real.sqrt n).2 ∈
        (geo_scan (Real.logb 2 3) (Real.logb 2 5)
          (geo_high (Real.logb 2) (fun x y => x ^ y) Real.sqrt n)
          (geo_low (Real.logb 2) (fun x y => x ^ y) Real.sqrt n)).coeffs ∧
      (get_regular_fast_geometric (Real.logb 2) (fun x y => x ^ y) Real.sqrt n).1 =
        tripleLog (Real.logb 2 3) (Real.logb 2 5)
          (get_regular_fast_geometric (Real.logb 2) (fun x y => x ^ y) Real.sqrt n).2 ∧
      geo_low (Real.logb 2) (fun x y => x ^ y) Real.sqrt n ≤
        (get_regular_fast_geometric (Real.logb 2) (fun x y => x ^ y) Real.sqrt n).1 ∧
      0 < (get_regular_fast_geometric (Real.logb 2) (fun x y => x ^ y) Real.sqrt n).1) := by
  have h3 := logb_two_three_pos
  have h5 := logb_two_five_pos
  have hh := (geo_high_pos n hn).le
  have hlow := geo_low_pos n hn
  have hgood : ¬ geo_band_error (Real.logb 2) (fun x y => x ^ y) Real.sqrt n →
      (get_regular_fast_geometric (Real.logb 2) (fun x y => x ^ y) Real.sqrt n).2 ∈
        (geo_scan (Real.logb 2 3) (Real.logb 2 5)
          (geo_high (Real.logb 2) (fun x y => x ^ y) Real.sqrt n)
          (geo_low (Real.logb 2) (fun x y => x ^ y) Real.sqrt n)).coeffs ∧
      (get_regular_fast_geometric (Real.logb 2) (fun x y => x ^ y) Real.sqrt n).1 =
        tripleLog (Real.logb 2 3) (Real.logb 2 5)
          (get_regular_fast_geometric (Real.logb 2) (fun x y => x ^ y) Real.sqrt n).2 ∧
      geo_low (Real.logb 2) (fun x y => x ^ y) Real.sqrt n ≤
        (get_regular_fast_geometric (Real.logb 2) (fun x y => x ^ y) Real.sqrt n).1 ∧
      0 < (get_regular_fast_geometric (Real.logb 2) (fun x y => x ^ y) Real.sqrt n).1 := by
    intro he
    obtain ⟨p, hp, hr⟩ := geo_result_of_not_error (Real.logb 2) (fun x y => x ^ y)
      Real.sqrt n hn he
    have hpp := mem_geo_pairs_of_kept hp
    have hge : geo_low (Real.logb 2) (fun x y => x ^ y) Real.sqrt n ≤
        geo_candidate (Real.logb 2 3) (Real.logb 2 5)
          (geo_high (Real.logb 2) (fun x y => x ^ y) Real.sqrt n) p := by
      simpa using (List.mem_filter.mp hp).2
    rw [hr]
    refine ⟨?_, geo_candidate_eq h3 h5 hh hpp, hge, lt_of_lt_of_le hlow hge⟩
    rw [geo_scan_eq]
    exact List.mem_map.mpr ⟨p, hp, rfl⟩
  refine ⟨⟨fun hz => ?_, geo_result_of_error _ _ _ n⟩, ⟨fun he => he.2, fun h => ⟨hn, h⟩⟩, hgood⟩
  by_contra he
  have := (hgood he).2.2.2
  rw [hz] at this
  exact lt_irrefl _ this

theorem geo_zero_result_iff_witness :
    3 ≤ 3 ∧
      ¬ (get_regular_fast_geometric (Real.logb 2) (fun x y => x ^ y) Real.sqrt 3
        = (0, ⟨0, 0, 0⟩)) ∧
      0 < (get_regular_fast_geometric (Real.logb 2) (fun x y => x ^ y) Real.sqrt 3).1 :=
  ⟨by decide,
    fun hz => not_geo_band_error_three ((geo_zero_result_iff 3 (by decide)).1.mp hz),
    ((geo_zero_result_iff 3 (by decide)).2.2 not_geo_band_error_three).2.2.2⟩

/-- Claim C12, as stated, fails at `n = 3`: the triple `[1, 0, 0]` (the number 2)
has its log2 value 1 inside `[low, high]`, and the scan does not retain it. -/
theorem geo_coeffs_not_all_band_three :
    ¬ (∀ t : Arr3 ℕ,
      t ∈ (geo_scan (Real.logb 2 3) (Real.logb 2 5)
          (geo_high (Real.logb 2) (fun x y => x ^ y) Real.sqrt 3)
          (geo_low (Real.logb 2) (fun x y => x ^ y) Real.sqrt 3)).coeffs ↔
        geo_low (Real.logb 2) (fun x y => x ^ y) Real.sqrt 3 ≤
            tripleLog (Real.logb 2 3) (Real.logb 2 5) t ∧
          tripleLog (Real.logb 2 3) (Real.logb 2 5) t ≤
            geo_high (Real.logb 2) (fun x y => x ^ y) Real.sqrt 3) := by
  intro h
  obtain ⟨hh1, hh2, hlow⟩ := geo_band_three
  have hv : tripleLog (Real.logb 2 3) (Real.logb 2 5) ⟨1, 0, 0⟩ = 1 := by
    simp [tripleLog]
  have hmem := (h ⟨1, 0, 0⟩).mpr (by rw [hv]; constructor <;> linarith)
  have := ((mem_geo_scan_coeffs logb_two_three_pos logb_two_five_pos (by linarith) _).mp
    hmem).2.2
  rw [hv] at this
  linarith

/-- Claim C12, amended. Over the real numbers and for `n >= 3`, the list
`coeffs` holds, each exactly once, the triples whose log2 value lies in
`[low, high]` and above `high - 1` (the top triple of each pair `(j, k)`); these
are all the triples of `[low, high]` when `high - low < 1`. -/
theorem geo_coeffs_characterization (n : ℕ) (hn : 3 ≤ n) :
    (geo_scan (Real.logb 2 3) (Real.logb 2 5)
        (geo_high (Real.logb 2) (fun x y => x ^ y) Real.sqrt n)
        (geo_low (Real.logb 2) (fun x y => x ^ y) Real.sqrt n)).coeffs.Nodup ∧
    (∀ t : Arr3 ℕ,
      t ∈ (geo_scan (Real.logb 2 3) (Real.logb 2 5)
          (geo_high (Real.logb 2) (fun x y => x ^ y) Real.sqrt n)
          (geo_low (Real.logb 2) (fun x y => x ^ y) Real.sqrt n)).coeffs ↔
        geo_low (Real.logb 2) (fun x y => x ^ y) Real.sqrt n ≤
            tripleLog (Real.logb 2 3) (Real.logb 2 5) t ∧
          tripleLog (Real.logb 2 3) (Real.logb 2 5) t ≤
            geo_high (Real.logb 2) (fun x y => x ^ y) Real.sqrt n ∧
          geo_high (Real.logb 2) (fun x y => x ^ y) Real.sqrt n - 1 <
            tripleLog (Real.logb 2 3) (Real.logb 2 5) t) ∧
    (geo_high (Real.logb 2) (fun x y => x ^ y) Real.sqrt n
        - geo_low (Real.logb 2) (fun x y => x ^ y) Real.sqrt n < 1 →
      ∀ t : Arr3 ℕ,
        t ∈ (geo_scan (Real.logb 2 3) (Real.logb 2 5)
            (geo_high (Real.logb 2) (fun x y => x ^ y) Real.sqrt n)
            (geo_low (Real.logb 2) (fun x y => x ^ y) Real.sqrt n)).coeffs ↔
          geo_low (Real.logb 2) (fun x y => x ^ y) Real.sqrt n ≤
              tripleLog (Real.logb 2 3) (Real.logb 2 5) t ∧
            tripleLog (Real.logb 2 3) (Real.logb 2 5) t ≤
              geo_high (Real.logb 2) (fun x y => x ^ y) Real.sqrt n) := by
  have h3 := logb_two_three_pos
  have h5 := logb_two_five_pos
  have hh := (geo_high_pos n hn).le
  refine ⟨nodup_geo_scan_coeffs _ _ _ _, fun t => mem_geo_scan_coeffs h3 h5 hh t,
    fun hw t => ?_⟩
  rw [mem_geo_scan_coeffs h3 h5 hh t]
  constructor
  · rintro ⟨a, b, -⟩
    exact ⟨a, b⟩
  · rintro ⟨a, b⟩
    exact ⟨a, b, by linarith⟩

theorem geo_coeffs_characterization_witness :
    3 ≤ 3 ∧
      (geo_scan (Real.logb 2 3) (Real.logb 2 5)
        (geo_high (Real.logb 2) (fun x y => x ^ y) Real.sqrt 3)
        (geo_low (Real.logb 2) (fun x y => x ^ y) Real.sqrt 3)).coeffs.Nodup :=
  ⟨by decide, (geo_coeffs_characterization 3 (by decide)).1⟩

/-- Claim C13, as stated, fails at `n = 3`: `count` also counts the triple
`[0, 0, 0]`, whose log2 value 0 is below `low`, so it is not the number of
triples with a log2 value in `[low, high]`. -/
theorem geo_count_not_band_three :
    (geo_scan (Real.logb 2 3) (Real.logb 2 5)
        (geo_high (Real.logb 2) (fun x y => x ^ y) Real.sqrt 3)
        (geo_low (Real.logb 2) (fun x y => x ^ y) Real.sqrt 3)).count ≠
      Set.ncard {t : Arr3 ℕ |
        geo_low (Real.logb 2) (fun x y => x ^ y) Real.sqrt 3 ≤
            tripleLog (Real.logb 2 3) (Real.logb 2 5) t ∧
          tripleLog (Real.logb 2 3) (Real.logb 2 5) t ≤
            geo_high (Real.logb 2) (fun x y => x ^ y) Real.sqrt 3} := by
  have h3 := logb_two_three_pos
  have h5 := logb_two_five_pos
  have hh := (geo_high_pos 3 (le_refl 3)).le
  have hlow := geo_low_pos 3 (le_refl 3)
  rw [geo_scan_count_eq h3 h5 hh]
  apply ne_of_gt
  have hfin : {t : Arr3 ℕ | tripleLog (Real.logb 2 3) (Real.logb 2 5) t ≤
      geo_high (Real.logb 2) (fun x y => x ^ y) Real.sqrt 3}.Finite := by
    have hset : {t : Arr3 ℕ | tripleLog (Real.logb 2 3) (Real.logb 2 5) t ≤
        geo_high (Real.logb 2) (fun x y => x ^ y) Real.sqrt 3}
        = ((geo_all (Real.logb 2 3) (Real.logb 2 5)
          (geo_high (Real.logb 2) (fun x y => x ^ y) Real.sqrt 3)).toFinset :
            Set (Arr3 ℕ)) := by
      ext t
      simp [mem_geo_all h3 h5 hh]
    rw [hset]
    exact Finset.finite_toSet _
  apply Set.ncard_lt_ncard _ hfin
  have hz : tripleLog (Real.logb 2 3) (Real.logb 2 5) ⟨0, 0, 0⟩ = 0 := by
    simp [tripleLog]
  refine ⟨fun t ht => ht.2, fun hsub => ?_⟩
  have h0 := hsub (a := (⟨0, 0, 0⟩ : Arr3 ℕ)) (by
    show tripleLog (Real.logb 2 3) (Real.logb 2 5) ⟨0, 0, 0⟩ ≤ _
    rw [hz]; exact hh)
  have := h0.1
  rw [hz] at this
  linarith

/-- Claim C13, amended. Over the real numbers and for `n >= 3`, the value
`count` is the number of exponent triples whose log2 value is at most `high`,
with no lower bound. -/
theorem geo_count_characterization (n : ℕ) (hn : 3 ≤ n) :
    (geo_scan (Real.logb 2 3) (Real.logb 2 5)
        (geo_high (Real.logb 2) (fun x y => x ^ y) Real.sqrt n)
        (geo_low (Real.logb 2) (fun x y => x ^ y) Real.sqrt n)).count =
      Set.ncard {t : Arr3 ℕ | tripleLog (Real.logb 2 3) (Real.logb 2 5) t ≤
        geo_high (Real.logb 2) (fun x y => x ^ y) Real.sqrt n} :=
  geo_scan_count_eq logb_two_three_pos logb_two_five_pos (geo_high_pos n hn).le

theorem geo_count_characterization_witness :
    3 ≤ 3 ∧
      (geo_scan (Real.logb 2 3) (Real.logb 2 5)
        (geo_high (Real.logb 2) (fun x y => x ^ y) Real.sqrt 3)
        (geo_low (Real.logb 2) (fun x y => x ^ y) Real.sqrt 3)).count =
      Set.ncard {t : Arr3 ℕ | tripleLog (Real.logb 2 3) (Real.logb 2 5) t ≤
        geo_high (Real.logb 2) (fun x y => x ^ y) Real.sqrt 3} :=
  ⟨by decide, geo_count_characterization 3 (by decide)⟩

/-- Claim C19. For `val >= 1`, `factor val` terminates and returns a divisor `r`
of `val` with `val = 2^a * 3^b * 5^c * r` and `r` divisible by none of 2, 3 and
5; so `factor val` is 1 exactly when `val` is a regular number. -/
theorem factor_correct (val : ℕ) (hval : 1 ≤ val) :
    ∃ a b c r, factor val = some r ∧ val = 2 ^ a * 3 ^ b * 5 ^ c * r ∧ r ∣ val ∧
      ¬ 2 ∣ r ∧ ¬ 3 ∣ r ∧ ¬ 5 ∣ r ∧ (factor val = some 1 ↔ IsRegular val) := by
  obtain ⟨a, b, c, r, h, e, n2, n3, n5⟩ := factor_spec val hval
  exact ⟨a, b, c, r, h, e, ⟨2 ^ a * 3 ^ b * 5 ^ c, by rw [e]; ring⟩, n2, n3, n5,
    factor_eq_one_iff val hval⟩

theorem factor_correct_witness :
    1 ≤ 60 ∧ ∃ a b c r, factor 60 = some r ∧ 60 = 2 ^ a * 3 ^ b * 5 ^ c * r ∧ r ∣ 60 ∧
      ¬ 2 ∣ r ∧ ¬ 3 ∣ r ∧ ¬ 5 ∣ r ∧ (factor 60 = some 1 ↔ IsRegular 60) :=
  ⟨by decide, factor_correct 60 (by decide)⟩

/-! ### The comparison of `get_regular_log_set` -/

theorem tolerance_literal : (1.0e-15 : LogVal) = ⟨1, 0, 0, 15⟩ := by
  decide

/-- The function `cmp` on `LogVal` is the comparison of the real numbers denoted. -/
theorem cmp_iff_cmp_real (a b : LogVal) : cmp a b = true ↔ cmp_real a.toReal b.toReal := by
  have hlit : ((1.0e-15 : LogVal)).toReal = (1.0e-15 : ℝ) := by
    rw [tolerance_literal]
    simp only [LogVal.toReal]
    norm_num
  have hmul : ((1.0e-15 : LogVal) * a).toReal = (1.0e-15 : ℝ) * a.toReal := by
    rw [LogVal.toReal_const_mul _ _ (by rw [tolerance_literal]) (by rw [tolerance_literal]), hlit]
  unfold cmp cmp_real
  rw [decide_eq_true_eq, gt_iff_lt, LogVal.lt_iff_toReal, hmul, LogVal.toReal_sub]

/-- Claim C18, as stated, fails: with `a = 1`, `b = 1 + 1e-15` and
`c = (1 + 1e-15)^2`, neither of `a`, `b` is below the other, neither of `b`,
`c` is, and `a` is below `c`: the induced equivalence is not transitive. -/
theorem cmp_equivalence_not_transitive :
    ¬ (∀ a b c : LogVal, 0 ≤ a.toReal → 0 ≤ b.toReal → 0 ≤ c.toReal →
      (cmp a b = false ∧ cmp b a = false) → (cmp b c = false ∧ cmp c b = false) →
      (cmp a c = false ∧ cmp c a = false)) := by
  intro h
  have h1 : cmp (⟨1, 0, 0, 0⟩ : LogVal) ⟨10 ^ 15 + 1, 0, 0, 15⟩ = false ∧
      cmp (⟨10 ^ 15 + 1, 0, 0, 15⟩ : LogVal) ⟨1, 0, 0, 0⟩ = false := by decide
  have h2 : cmp (⟨10 ^ 15 + 1, 0, 0, 15⟩ : LogVal) ⟨(10 ^ 15 + 1) ^ 2, 0, 0, 30⟩ = false ∧
      cmp (⟨(10 ^ 15 + 1) ^ 2, 0, 0, 30⟩ : LogVal) ⟨10 ^ 15 + 1, 0, 0, 15⟩ = false := by decide
  have h3 : cmp (⟨1, 0, 0, 0⟩ : LogVal) ⟨(10 ^ 15 + 1) ^ 2, 0, 0, 30⟩ = true := by decide
  have := (h ⟨1, 0, 0, 0⟩ ⟨10 ^ 15 + 1, 0, 0, 15⟩ ⟨(10 ^ 15 + 1) ^ 2, 0, 0, 30⟩
    (by simp only [LogVal.toReal]; norm_num) (by simp only [LogVal.toReal]; norm_num)
    (by simp only [LogVal.toReal]; norm_num) h1 h2).1
  rw [h3] at this
  exact Bool.noConfusion this

/-- Claim C18, amended. On the non-negative real numbers the ordering
`cmp(a, b) := (b - a) > 1e-15 * a` is irreflexive and transitive (the
equivalence it induces is not transitive, so it is a strict partial order and
not a strict weak ordering). -/
theorem cmp_irreflexive_transitive :
    (∀ a b : LogVal, cmp a b = true ↔ cmp_real a.toReal b.toReal) ∧
      (∀ x : ℝ, 0 ≤ x → ¬ cmp_real x x) ∧
      (∀ x y z : ℝ, 0 ≤ x → cmp_real x y → cmp_real y z → cmp_real x z) := by
  refine ⟨cmp_iff_cmp_real, ?_, ?_⟩
  · intro x hx h
    unfold cmp_real at h
    norm_num at h
    linarith
  · intro x y z hx h1 h2
    unfold cmp_real at *
    norm_num at *
    have hy : 0 < y := by nlinarith
    nlinarith

theorem cmp_irreflexive_transitive_witness :
    (0 : ℝ) ≤ 1 ∧ ¬ cmp_real 1 1 :=
  ⟨zero_le_one, cmp_irreflexive_transitive.2.1 1 zero_le_one⟩

/-! ### Compaction of the buffers, bounds of the accesses, range of `int` -/

/-- Claim C14. Compaction in `get_regular_compact` does not change the result:
for every `n >= 2`, every buffer capacity `cap` and every growth policy, the
function returns a value, and the same loop with the `manage memory` block
removed (for any capacity and growth policy of its own) returns that value. -/
theorem get_regular_compact_compaction (cap cap' : ℕ) (grow grow' : ℕ → ℕ) (n : ℕ)
    (hn : 2 ≤ n) :
    ∃ v, get_regular_compact_with cap grow n = some v ∧
      get_regular_compact_plain cap' grow' n = some v := by
  obtain ⟨pre, s, s', hs, hs', -, -, hlast⟩ :=
    compact_loop_sim grow grow' (whileNeOneIters n) (compactSim_init cap cap')
      (fun j _ => by
        show (⟨0, 0, 0⟩ : Arr3 ℕ).get j ≤ 0
        rcases j with _ | _ | j <;> exact le_rfl)
  obtain ⟨v, hv, hv'⟩ := hlast (whileNeOneIters_pos n hn)
  refine ⟨v, ?_, ?_⟩
  · unfold get_regular_compact_with
    rw [hs, Option.some_bind, hv]
  · unfold get_regular_compact_plain
    rw [hs', Option.some_bind, hv']

theorem get_regular_compact_compaction_witness :
    2 ≤ 9 ∧ ∃ v, get_regular_compact_with 4 id 9 = some v ∧
      get_regular_compact_plain 65536 id 9 = some v :=
  ⟨by decide, get_regular_compact_compaction 4 65536 id id 9 (by decide)⟩

/-- Claim C15. Compaction in `get_regular_divide_conquer` does not change the
result: for every `n >= 2`, every capacity `cap_i` of `series`, every capacity
`cap_jk` of `jk_series` and every growth policy, the function returns a pair,
and the same loop with both erase blocks removed (for any capacity and growth
policy of its own) returns that pair. -/
theorem get_regular_divide_conquer_compaction (cap_i cap_jk cap' : ℕ) (grow grow' : ℕ → ℕ)
    (n : ℕ) (hn : 2 ≤ n) :
    ∃ p, get_regular_divide_conquer_caps cap_i cap_jk grow n = some p ∧
      get_regular_divide_conquer_plain cap' grow' n = some p := by
  obtain ⟨s, s', hs, hs', -, hlast⟩ :=
    dc_loop_caps_some cap_i cap_jk cap' grow grow' (whileNeOneIters n)
  obtain ⟨v, hv, hv'⟩ := hlast (whileNeOneIters_pos n hn)
  refine ⟨(coef2log2 v, v), ?_, ?_⟩
  · unfold get_regular_divide_conquer_caps
    rw [hs, Option.some_bind, hv, Option.map_some']
  · unfold get_regular_divide_conquer_plain
    rw [hs', Option.some_bind, hv', Option.map_some']

theorem get_regular_divide_conquer_compaction_witness :
    2 ≤ 9 ∧ ∃ p, get_regular_divide_conquer_caps 4 2 id 9 = some p ∧
      get_regular_divide_conquer_plain 65536 id 9 = some p :=
  ⟨by decide, get_regular_divide_conquer_compaction 4 2 65536 id id 9 (by decide)⟩

/-- Claim C16. All buffer accesses of `get_regular_compact` and
`get_regular_divide_conquer` are in bounds, for every capacity and growth
policy. In the embedding a read past the end, an erase past the end and `back()`
of an empty vector are `none`. After any number of turns the loop of
`get_regular_compact` has run without such an access and its three cursors are
at most the size of `series`; the loop of `get_regular_divide_conquer` has run
without such an access and `ii`, `jj` are at most the sizes of `series`,
`jk_series`; and for `n >= 2` both functions return a value, so `series` is not
empty at the final `back()`. -/
theorem buffer_accesses_in_bounds (cap cap_i cap_jk : ℕ) (grow : ℕ → ℕ) (n : ℕ)
    (hn : 2 ≤ n) :
    (∀ iters, ∃ st, compact_loop grow iters
        ⟨⟨1.0, lb3, lb5⟩, ⟨0, 0, 0⟩, Vec.reserved cap, 0⟩ = some st ∧
        ∀ j, j < 3 → st.series_idx.get j ≤ st.series.data.length) ∧
      (∃ v, get_regular_compact_with cap grow n = some v) ∧
      (∀ iters, ∃ st, dc_loop grow iters (dc_init_caps cap_i cap_jk) = some st ∧
        st.ii ≤ st.series.data.length ∧ st.jj ≤ st.jk_series.data.length) ∧
      ∃ p, get_regular_divide_conquer_caps cap_i cap_jk grow n = some p := by
  have hinit : ∀ j, j < 3 → (⟨⟨1.0, lb3, lb5⟩, ⟨0, 0, 0⟩, Vec.reserved cap, 0⟩ :
      CompactState).series_idx.get j ≤ (⟨⟨1.0, lb3, lb5⟩, ⟨0, 0, 0⟩, Vec.reserved cap, 0⟩ :
      CompactState).series.data.length := fun j _ => by
    show (⟨0, 0, 0⟩ : Arr3 ℕ).get j ≤ 0
    rcases j with _ | _ | j <;> exact le_rfl
  refine ⟨fun iters => ?_, ?_, fun iters => ?_, ?_⟩
  · obtain ⟨pre, s, s', hs, -, -, hb, -⟩ :=
      compact_loop_sim grow grow iters (compactSim_init cap cap) hinit
    exact ⟨s, hs, hb⟩
  · obtain ⟨pre, s, s', hs, -, -, -, hlast⟩ :=
      compact_loop_sim grow grow (whileNeOneIters n) (compactSim_init cap cap) hinit
    obtain ⟨v, hv, -⟩ := hlast (whileNeOneIters_pos n hn)
    refine ⟨v, ?_⟩
    unfold get_regular_compact_with
    rw [hs, Option.some_bind, hv]
  · obtain ⟨s, s', hs, -, hsim, -⟩ := dc_loop_caps_some cap_i cap_jk cap_i grow grow iters
    exact ⟨s, hs, hsim.ii_le, hsim.jj_le⟩
  · obtain ⟨s, s', hs, -, -, hlast⟩ :=
      dc_loop_caps_some cap_i cap_jk cap_i grow grow (whileNeOneIters n)
    obtain ⟨v, hv, -⟩ := hlast (whileNeOneIters_pos n hn)
    refine ⟨(coef2log2 v, v), ?_⟩
    unfold get_regular_divide_conquer_caps
    rw [hs, Option.some_bind, hv, Option.map_some']

theorem buffer_accesses_in_bounds_witness :
    2 ≤ 9 ∧ ((∃ v, get_regular_compact_with 4 id 9 = some v) ∧
      ∃ p, get_regular_divide_conquer_caps 4 2 id 9 = some p) :=
  ⟨by decide, (buffer_accesses_in_bounds 4 4 2 id 9 (by decide)).2.1,
    (buffer_accesses_in_bounds 4 4 2 id 9 (by decide)).2.2.2⟩

/-- Claim C17. Under the guard `n <= 1500` the `int` arithmetic of
`get_regular_factor` does not overflow. The 1500-th regular number is 859963392;
for every `n <= 1500`, in every state `(series, num)` that the scan loop is in
when it tests its condition, `num` and every element of `series` are at most
`2^31 - 1`; and the state in which the loop ends is one of these states. -/
theorem get_regular_factor_no_overflow (n fuel : ℕ) (hn : n ≤ 1500) :
    Nat.nth IsRegular 1499 = 859963392 ∧
      (∀ s ∈ get_regular_factor_states n fuel [1] 2,
        s.2 ≤ INT_MAX ∧ ∀ x ∈ s.1, x ≤ INT_MAX) ∧
      ∀ st, get_regular_factor_loop n fuel [1] 2 = some st →
        st ∈ get_regular_factor_states n fuel [1] 2 := by
  have hmax : INT_MAX = 2147483647 := by
    unfold INT_MAX
    norm_num
  refine ⟨nth_isRegular_1499, fun s hs => ?_, get_regular_factor_loop_mem_states n fuel [1] 2⟩
  obtain ⟨h1, h2⟩ := get_regular_factor_states_bound n hn fuel [1] 2 factorInv_init
    (fun x hx => by
      rw [List.mem_singleton.mp hx]
      exact Nat.lt_succ_self 1)
    (by norm_num) s hs
  rw [hmax]
  refine ⟨by omega, fun x hx => ?_⟩
  have := h2 x hx
  omega

theorem get_regular_factor_no_overflow_witness :
    1500 ≤ 1500 ∧ ∀ s ∈ get_regular_factor_states 1500 5 [1] 2,
      s.2 ≤ INT_MAX ∧ ∀ x ∈ s.1, x ≤ INT_MAX :=
  ⟨le_rfl, (get_regular_factor_no_overflow 1500 5 le_rfl).2.1⟩

end RegularNumGen
